import Mathlib

/-!
# Push-sync worker of `pkg/pusher/pusher.go` and wire encoding of `pkg/pushsync/pb`

A shallow embedding of the pusher service: the pending-delivery ledger
(`pushed` map), the per-chunk body of `chunksWorker`, `setChunkAsSynced`,
and the `select` loop of `chunksWorker` as a step function over events.

The collaborators of the service (tags, storer, push syncer, logger, metrics)
are visible through the trace of effects the service performs on them; the
results of the calls into the push syncer and the storer are inputs of a step.
A second form of the chunk step, `handleChunkOutcome`, takes the outcome of
each tracker lookup as an input as well.

The second part embeds the generated code of the `Delivery` message:
`Size`, `Marshal`, `MarshalToSizedBuffer`, `encodeVarintPushsync`, `Unmarshal`
and `skipPushsync`, over byte lists, with explicit failure of every index and
slice expression that is out of bounds. The fields of a message are defined
from the wire format alone (`wireFields`) and the decoder is compared with them.
-/

namespace Pusher

/-! ## Go values used by the service -/

/-- Go error values: a sentinel error, or an error wrapping another one. -/
inductive GoError where
  | sentinel (id : Nat)
  | wrap (inner : GoError)
  deriving DecidableEq, Repr

/-- The test `errors.Is(err, target)`: walks the chain of wrapped errors. -/
def errorsIs : GoError → GoError → Bool
  | .sentinel i, target => decide (GoError.sentinel i = target)
  | .wrap inner, target => decide (GoError.wrap inner = target) || errorsIs inner target

/-- The sentinel `topology.ErrNotFound`. -/
def topologyErrNotFound : GoError := .sentinel 0

/-- The sentinel `tags.ErrNotFound`. -/
def tagsErrNotFound : GoError := .sentinel 1

/-- The error of `getUidFromPushed`: "uid not present in pushed chunks". -/
def errUidNotPresent : GoError := .sentinel 2

/-- A `time.Duration`, in nanoseconds. -/
abbrev Duration := Int

/-- The constant `time.Millisecond`. -/
def Millisecond : Duration := 1000000

/-- The constant `time.Second`. -/
def Second : Duration := 1000000000

/-- The variable `retryInterval`: time interval between retries. -/
def retryInterval : Duration := 10 * Second

/-- A chunk address; the ledger is keyed by `addr.String()`, the hexadecimal
rendering of the address, which determines the address. -/
abbrev Address := Nat

/-- A `swarm.Chunk`, as far as the worker reads it: `Address()` and `TagID()`. -/
structure Chunk where
  address : Address
  tagID : Nat
  deriving DecidableEq, Repr

/-! ## The progress tracker (package `tags`) -/

/-- Modelled from the spec: the named state counters of an upload session the
worker increments (`tags.StateSent`, `tags.StateSynced`); the `tags` package is
not part of the sources at hand. -/
inductive TagState where
  | StateSent
  | StateSynced
  deriving DecidableEq, Repr

/-- Modelled from the spec: the counters of one upload session, "a set of named
monotonically-increasing counters including at least Sent and Synced". -/
structure Counters where
  Sent : Nat
  Synced : Nat
  deriving DecidableEq, Repr

/-- Modelled from the spec: the handle `*tags.Tag` returned by a lookup; it
designates the session by its `Uid`, the counters live in the tracker. -/
structure Tag where
  Uid : Nat
  deriving DecidableEq, Repr

/-- Modelled from the spec: the tracker `*tags.Tags`, "a shared counter set
keyed by an upload-session identifier". -/
abbrev Tags := Nat → Option Counters

/-- Modelled from the spec: `Tags.Get`, "given a session id, returns a mutable
handle to that session's counters or a not-found indicator". -/
def Tags.Get (ts : Tags) (uid : Nat) : Except GoError Tag :=
  match ts uid with
  | some _ => .ok ⟨uid⟩
  | none => .error tagsErrNotFound

/-- Modelled from the spec: the counter update behind `Tag.Inc`, "given a
handle, atomically increments a named counter". -/
def Tags.inc (ts : Tags) (uid : Nat) (st : TagState) : Tags :=
  fun u =>
    if u = uid then
      match ts u, st with
      | some c, .StateSent => some { c with Sent := c.Sent + 1 }
      | some c, .StateSynced => some { c with Synced := c.Synced + 1 }
      | none, _ => none
    else ts u

/-! ## Effects and the service state -/

/-- The metrics the worker touches. -/
inductive Metric where
  | TotalChunksToBeSentCounter
  | ErrorSettingChunkToSynced
  | TotalChunksSynced
  | MarkAndSweepTimer
  deriving DecidableEq, Repr

/-- The places where the worker logs. -/
inductive LogSite where
  | getTagByUid
  | sendingChunk
  | settingChunkAsSynced
  | getUidFromPusher
  | getTag
  deriving DecidableEq, Repr

/-- What the service does to its collaborators and to its ledger, in order. -/
inductive Effect where
  | metric (m : Metric)
  | logDebugf (site : LogSite)
  | logErrorf (site : LogSite)
  | tagInc (uid : Nat) (st : TagState)
  | ledgerStore (address : Address) (uid : Nat)
  | ledgerDelete (address : Address)
  | pushChunkToClosest (address : Address)
  | storerSet (address : Address)
  | subscribePush (sub : Nat)
  | unsubscribe (sub : Nat)
  | timerReset (d : Duration)
  | timerStop
  | closeQuitC
  deriving DecidableEq, Repr

/-- The state reachable from a `Service`: the tracker, the `pushed` map
(address to tag id) and the effects performed so far. -/
structure Service where
  tag : Tags
  pushed : Address → Option Nat
  trace : List Effect

/-- Appends one effect to the trace. -/
def Service.emit (s : Service) (e : Effect) : Service :=
  { s with trace := s.trace ++ [e] }

/-- The call `t.Inc(state)` on a handle obtained from the tracker. -/
def Tag.Inc (t : Tag) (st : TagState) (s : Service) : Service :=
  { s with tag := s.tag.inc t.Uid st, trace := s.trace ++ [.tagInc t.Uid st] }

/-! ## The ledger -/

/-- The method `addUidToPushed`: `s.pushed[address] = uid`. -/
def addUidToPushed (s : Service) (address : Address) (uid : Nat) : Service :=
  { s with
    pushed := fun a => if a = address then some uid else s.pushed a
    trace := s.trace ++ [.ledgerStore address uid] }

/-- The method `getUidFromPushed`: the uid stored for the address, or an error. -/
def getUidFromPushed (s : Service) (address : Address) : Except GoError Nat :=
  match s.pushed address with
  | some uid => .ok uid
  | none => .error errUidNotPresent

/-- The method `deleteUidFromPushed`: deletes the entry when there is one. -/
def deleteUidFromPushed (s : Service) (address : Address) : Service :=
  match s.pushed address with
  | some _ =>
    { s with
      pushed := fun a => if a = address then none else s.pushed a
      trace := s.trace ++ [.ledgerDelete address] }
  | none => s

/-! ## Completion and dispatch -/

/-- The method `setChunkAsSynced`; `setResult` is what `storer.Set` returns. -/
def setChunkAsSynced (s : Service) (setResult : Option GoError) (addr : Address) : Service :=
  let s := s.emit (.storerSet addr)
  match setResult with
  | some _ =>
    (s.emit (.logErrorf .settingChunkAsSynced)).emit (.metric .ErrorSettingChunkToSynced)
  | none =>
    let s := s.emit (.metric .TotalChunksSynced)
    match getUidFromPushed s addr with
    | .error _ => s.emit (.logDebugf .getUidFromPusher)
    | .ok uid =>
      match s.tag.Get uid with
      | .error err =>
        if !errorsIs err tagsErrNotFound then s.emit (.logDebugf .getTag) else s
      | .ok ta => deleteUidFromPushed (ta.Inc .StateSynced s) addr

/-- The body of the case `ch, more := <-chunks` of `chunksWorker` after the
batch counter is incremented (`more` is true): dispatch, delivery, completion.
`pushResult` is the error of `PushChunkToClosest`, `setResult` that of `Set`. -/
def handleChunk (s : Service) (ch : Chunk) (pushResult setResult : Option GoError) : Service :=
  let s := s.emit (.metric .TotalChunksToBeSentCounter)
  let s :=
    match s.tag.Get ch.tagID with
    | .error _ => s.emit (.logDebugf .getTagByUid)
    | .ok t => addUidToPushed (t.Inc .StateSent s) ch.address t.Uid
  let s := s.emit (.pushChunkToClosest ch.address)
  match pushResult with
  | some err =>
    if !errorsIs err topologyErrNotFound then s.emit (.logErrorf .sendingChunk) else s
  | none => setChunkAsSynced s setResult ch.address

/-! ## The loop of `chunksWorker` -/

/-- The local state of `chunksWorker` together with the service. -/
structure Worker where
  svc : Service
  /-- The variable `chunks`: the feed of a subscription, `none` for a nil channel. -/
  chunks : Option Nat
  /-- The variable `unsubscribe`: the cancel function of a subscription, or nil. -/
  unsubscribe : Option Nat
  /-- The duration the timer is armed with, `none` once it has fired or is stopped. -/
  timer : Option Duration
  chunksInBatch : Int
  /-- How many subscriptions the storer has handed out. -/
  subscriptions : Nat
  /-- Whether `chunksWorker` has returned. -/
  stopped : Bool

/-- What the `select` of `chunksWorker` can service. -/
inductive Event where
  | chunk (ch : Chunk) (pushResult setResult : Option GoError)
  | feedClosed
  | timerC
  | quit

/-- The function `New`: a fresh service whose worker is about to enter its loop. -/
def New (tags : Tags) : Worker :=
  { svc := { tag := tags, pushed := fun _ => none, trace := [] }
    chunks := none
    unsubscribe := none
    timer := some 0
    chunksInBatch := -1
    subscriptions := 0
    stopped := false }

/-- The call `unsubscribe()` guarded by `unsubscribe != nil`. -/
def callUnsubscribe (w : Worker) : Service :=
  match w.unsubscribe with
  | some sub => w.svc.emit (.unsubscribe sub)
  | none => w.svc

/-- One iteration of the loop of `chunksWorker`: the event the `select`
services; `none` when the event cannot be serviced in this state. -/
def chunksWorkerStep (w : Worker) : Event → Option Worker
  | .chunk ch pushResult setResult =>
    if w.stopped then none else
    match w.chunks with
    | none => none
    | some _ =>
      some { w with
        chunksInBatch := w.chunksInBatch + 1
        svc := handleChunk w.svc ch pushResult setResult }
  | .feedClosed =>
    if w.stopped then none else
    match w.chunks with
    | none => none
    | some _ =>
      let dur : Duration := if w.chunksInBatch = 0 then 500 * Millisecond else 0
      some { w with
        chunks := none
        timer := some dur
        svc := w.svc.emit (.timerReset dur) }
  | .timerC =>
    if w.stopped then none else
    match w.timer with
    | none => none
    | some _ =>
      let s := callUnsubscribe w
      let s := s.emit (.subscribePush w.subscriptions)
      let s := s.emit (.timerReset retryInterval)
      some { w with
        chunks := some w.subscriptions
        unsubscribe := some w.subscriptions
        subscriptions := w.subscriptions + 1
        timer := some retryInterval
        svc := s.emit (.metric .MarkAndSweepTimer) }
  | .quit =>
    if w.stopped then none else
    let s := callUnsubscribe w
    let s := s.emit .closeQuitC
    some { w with
      svc := s.emit .timerStop
      timer := none
      stopped := true }

/-- Runs the loop over a sequence of events, `none` if one cannot be serviced. -/
def chunksWorker (w : Worker) : List Event → Option Worker
  | [] => some w
  | e :: es =>
    match chunksWorkerStep w e with
    | some w1 => chunksWorker w1 es
    | none => none

/-! ## Concrete scenarios -/

/-- A tracker holding the single session 7 with both counters at zero. -/
def tags7 : Tags := fun u => if u = 7 then some { Sent := 0, Synced := 0 } else none

/-- The chunk with address `0xAA` uploaded in session 7. -/
def chunkAA : Chunk := { address := 170, tagID := 7 }

/-- The worker after its first timer fire: subscription 0 is open. -/
def workerAwaiting (tags : Tags) : Worker :=
  { svc :=
      { tag := tags
        pushed := fun _ => none
        trace := [.subscribePush 0, .timerReset retryInterval, .metric .MarkAndSweepTimer] }
    chunks := some 0
    unsubscribe := some 0
    timer := some retryInterval
    chunksInBatch := -1
    subscriptions := 1
    stopped := false }

/-- A service whose ledger names session 7 for address `0xAA` while the tracker
no longer knows any session. -/
def staleService : Service :=
  { tag := fun _ => none
    pushed := fun a => if a = 170 then some 7 else none
    trace := [] }

/-! ## Order of effects in a trace -/

/-- Recognises the increment of a Sent counter. -/
def Effect.isSentInc : Effect → Bool
  | .tagInc _ .StateSent => true
  | _ => false

/-- Recognises the increment of a Synced counter. -/
def Effect.isSyncedInc : Effect → Bool
  | .tagInc _ .StateSynced => true
  | _ => false

/-- Recognises a call of `PushChunkToClosest`. -/
def Effect.isPush : Effect → Bool
  | .pushChunkToClosest _ => true
  | _ => false

/-- Recognises a call of the storer's `Set`. -/
def Effect.isStorerSet : Effect → Bool
  | .storerSet _ => true
  | _ => false

/-- Recognises the removal of a ledger entry. -/
def Effect.isLedgerDelete : Effect → Bool
  | .ledgerDelete _ => true
  | _ => false

/-- Every effect of kind `p` in the trace stands strictly before every effect
of kind `q`. -/
def Before (p q : Effect → Bool) (l : List Effect) : Prop :=
  ∀ (i j : Nat) (ei ej : Effect),
    l[i]? = some ei → l[j]? = some ej → p ei = true → q ej = true → i < j

/-- A removal of the ledger entry of an address is preceded, in the trace, by a
call of the storer's `Set` for that address. -/
def DeleteAfterSet (l : List Effect) : Prop :=
  ∀ (j : Nat) (a : Address),
    l[j]? = some (Effect.ledgerDelete a) → ∃ i, i < j ∧ l[i]? = some (Effect.storerSet a)

/-- Decides `Before` by one pass over the trace. -/
def beforeCheck (p q : Effect → Bool) : List Effect → Bool
  | [] => true
  | e :: es => (!q e || (!p e && es.all (fun x => !p x))) && beforeCheck p q es

/-- Decides `DeleteAfterSet` by one pass; `seen` holds the addresses whose
`Set` call has been passed. -/
def deleteAfterSetCheck (seen : List Address) : List Effect → Bool
  | [] => true
  | .storerSet a :: es => deleteAfterSetCheck (a :: seen) es
  | .ledgerDelete a :: es => seen.contains a && deleteAfterSetCheck seen es
  | _ :: es => deleteAfterSetCheck seen es

/-! ## The ledger contract and the counting of chunks in a run -/

/-- The ledger operation `resolveAndRemove(address)` of the specification, a
read followed by a delete: the lookup `getUidFromPushed` and then
`deleteUidFromPushed`; returns the lookup result and the service afterwards. -/
def resolveAndRemove (s : Service) (address : Address) : Except GoError Nat × Service :=
  (getUidFromPushed s address, deleteUidFromPushed s address)

/-- Recognises the arrival of a chunk on the feed. -/
def Event.isChunk : Event → Bool
  | .chunk _ _ _ => true
  | _ => false

/-- The number of chunks received in a run. -/
def chunksReceived (es : List Event) : Nat :=
  es.countP Event.isChunk

/-- The number of chunks received since the last timer fire, `acc` being the
number before the events `es`. -/
def cycleCount (acc : Nat) : List Event → Nat
  | [] => acc
  | .timerC :: es => cycleCount 0 es
  | .chunk _ _ _ :: es => cycleCount (acc + 1) es
  | _ :: es => cycleCount acc es

/-- The number of chunks processed in the current subscription cycle of a run. -/
def chunksInCycle (es : List Event) : Nat :=
  cycleCount 0 es

/-! ## Subscriptions and error chains -/

/-- The subscriptions that are open after the effects of a trace, `o` being
the ones open before it: `SubscribePush` opens one, its cancel function
closes it. -/
def openAfter : List Nat → List Effect → List Nat
  | o, [] => o
  | o, .subscribePush sub :: es => openAfter (o ++ [sub]) es
  | o, .unsubscribe sub :: es => openAfter (o.filter (fun x => x != sub)) es
  | o, _ :: es => openAfter o es

/-- The opened subscriptions whose cancel function has not been called. -/
def openSubscriptions (l : List Effect) : List Nat :=
  openAfter [] l

/-- Recognises the effects of the loop on its subscription, its timer and its
completion channel. -/
def Effect.isControl : Effect → Bool
  | .subscribePush _ => true
  | .unsubscribe _ => true
  | .timerReset _ => true
  | .timerStop => true
  | .closeQuitC => true
  | _ => false

/-- An error followed by the errors it wraps, outermost first. -/
def errorChain : GoError → List GoError
  | .sentinel i => [.sentinel i]
  | .wrap inner => .wrap inner :: errorChain inner

/-- The effects of the call `unsubscribe()` guarded by `unsubscribe != nil`. -/
def unsubscribeEffects (w : Worker) : List Effect :=
  match w.unsubscribe with
  | some sub => [.unsubscribe sub]
  | none => []

/-! ## The budget of the ledger -/

/-- The addresses of the finite set `F` cover the ledger, and for every session
the Synced counter plus the number of ledger entries naming the session is at
most the Sent counter. -/
def LedgerBudget (F : Finset Address) (s : Service) : Prop :=
  (∀ a, s.pushed a ≠ none → a ∈ F) ∧
  ∀ u c, s.tag u = some c →
    c.Synced + (F.filter (fun a => s.pushed a = some u)).card ≤ c.Sent

/-! ## The wire encoding of `pkg/pushsync/pb/pushsync.pb.go`

Bytes are natural numbers below 256. A Go `int` (64 bits) that may become
negative is kept as its two's complement bit pattern, a natural number below
`2 ^ 64` that stands for a negative value from `2 ^ 63` on. -/

/-- The errors the generated code returns. -/
inductive PbError where
  | ErrInvalidLengthPushsync
  | ErrIntOverflowPushsync
  | ErrUnexpectedEndOfGroupPushsync
  | ErrUnexpectedEOF
  | wiretypeEndGroup
  | illegalTag
  | wrongWireType
  | illegalWireType
  deriving DecidableEq, Repr

/-- How a call ends without a value: with a Go error, with a run-time index or
slice bounds failure, or because the fuel given to a loop is used up. -/
inductive Fault where
  | err (e : PbError)
  | outOfRange
  | outOfFuel
  deriving DecidableEq, Repr

/-- The message `Delivery`; for both fields a nil slice and an empty slice are
the empty list (the code only takes their length or appends to them). -/
structure Delivery where
  Data : List Nat
  XXX_unrecognized : List Nat
  deriving DecidableEq, Repr

/-- The number of bits of `x`, for `x` below `2 ^ fuel`. -/
def lenBits : Nat → Nat → Nat
  | 0, _ => 0
  | fuel + 1, x => if x = 0 then 0 else lenBits fuel (x / 2) + 1

/-- The function `bits.Len64` of the Go library: the minimum number of bits
required to represent the 64-bit value `x`. -/
def Len64 (x : Nat) : Nat :=
  lenBits 64 x

/-- The function `sovPushsync`. -/
def sovPushsync (x : Nat) : Nat :=
  (Len64 (x ||| 1) + 6) / 7

/-- The method `Size`. -/
def Delivery.Size (m : Delivery) : Nat :=
  let l := m.Data.length
  let n := if l > 0 then 1 + l + sovPushsync (l % 2 ^ 64) else 0
  if m.XXX_unrecognized ≠ [] then n + m.XXX_unrecognized.length else n

/-- The assignment `dAtA[i] = b`. -/
def writeByte (dAtA : List Nat) (i : Int) (b : Nat) : Except Fault (List Nat) :=
  if 0 ≤ i ∧ i < dAtA.length then .ok (dAtA.set i.toNat b) else .error .outOfRange

/-- The call `copy(dAtA[i:], src)`. -/
def copyAt (dAtA : List Nat) (i : Int) (src : List Nat) : Except Fault (List Nat) :=
  if 0 ≤ i ∧ i ≤ dAtA.length then
    let n := min (dAtA.length - i.toNat) src.length
    .ok (dAtA.take i.toNat ++ src.take n ++ dAtA.drop (i.toNat + n))
  else .error .outOfRange

/-- The loop of `encodeVarintPushsync` followed by the store of the last byte. -/
def encodeVarintLoop : Nat → List Nat → Int → Nat → Except Fault (List Nat)
  | 0, _, _, _ => .error .outOfFuel
  | fuel + 1, dAtA, offset, v =>
    if v ≥ 1 <<< 7 then
      match writeByte dAtA offset ((v &&& 0x7f ||| 0x80) % 256) with
      | .error f => .error f
      | .ok dAtA => encodeVarintLoop fuel dAtA (offset + 1) (v >>> 7)
    else writeByte dAtA offset (v % 256)

/-- The function `encodeVarintPushsync`: the buffer afterwards and `base`. -/
def encodeVarintPushsync (dAtA : List Nat) (offset : Int) (v : Nat) :
    Except Fault (List Nat × Int) :=
  let offset := offset - sovPushsync v
  let base := offset
  match encodeVarintLoop 10 dAtA offset v with
  | .error f => .error f
  | .ok dAtA => .ok (dAtA, base)

/-- The first `if` of `MarshalToSizedBuffer`: the unrecognized bytes are copied
to the end of the buffer; the index and the buffer afterwards. -/
def marshalUnrecognized (m : Delivery) (i : Int) (dAtA : List Nat) :
    Except Fault (Int × List Nat) :=
  if m.XXX_unrecognized ≠ [] then
    let i := i - m.XXX_unrecognized.length
    match copyAt dAtA i m.XXX_unrecognized with
    | .error f => .error f
    | .ok dAtA => .ok (i, dAtA)
  else .ok (i, dAtA)

/-- The second `if` of `MarshalToSizedBuffer`: the data, its length and the tag
byte are written before index `i`; the index and the buffer afterwards. -/
def marshalData (m : Delivery) (i : Int) (dAtA : List Nat) :
    Except Fault (Int × List Nat) :=
  if m.Data.length > 0 then
    let i := i - m.Data.length
    match copyAt dAtA i m.Data with
    | .error f => .error f
    | .ok dAtA =>
      match encodeVarintPushsync dAtA i (m.Data.length % 2 ^ 64) with
      | .error f => .error f
      | .ok (dAtA, i) =>
        let i := i - 1
        match writeByte dAtA i 0xa with
        | .error f => .error f
        | .ok dAtA => .ok (i, dAtA)
  else .ok (i, dAtA)

/-- The method `MarshalToSizedBuffer`: the count returned and the buffer. -/
def Delivery.MarshalToSizedBuffer (m : Delivery) (dAtA : List Nat) :
    Except Fault (Nat × List Nat) :=
  match marshalUnrecognized m dAtA.length dAtA with
  | .error f => .error f
  | .ok (i, dAtA) =>
    match marshalData m i dAtA with
    | .error f => .error f
    | .ok (i, dAtA) => .ok (((dAtA.length : Int) - i).toNat, dAtA)

/-- The slice expression `dAtA[lo:hi]`. -/
def slice (dAtA : List Nat) (lo hi : Nat) : Except Fault (List Nat) :=
  if lo ≤ hi ∧ hi ≤ dAtA.length then .ok ((dAtA.take hi).drop lo) else .error .outOfRange

/-- The method `Marshal`. -/
def Delivery.Marshal (m : Delivery) : Except Fault (List Nat) :=
  let size := m.Size
  let dAtA := List.replicate size 0
  match m.MarshalToSizedBuffer dAtA with
  | .error f => .error f
  | .ok (n, dAtA) => slice dAtA 0 n

/-- The index expression `dAtA[i]`. -/
def readByte (dAtA : List Nat) (i : Nat) : Except Fault Nat :=
  match dAtA[i]? with
  | some b => .ok b
  | none => .error .outOfRange

/-- The loop `for shift := uint(0); ; shift += 7` that reads a varint into a
64-bit variable (`wire`, and as bit patterns the `int` variables `byteLen` and
`length`): the value read and the index after it. -/
def decodeVarint (dAtA : List Nat) : Nat → Nat → Nat → Nat → Except Fault (Nat × Nat)
  | 0, _, _, _ => .error .outOfFuel
  | fuel + 1, shift, iNdEx, wire =>
    if shift ≥ 64 then .error (.err .ErrIntOverflowPushsync)
    else if iNdEx ≥ dAtA.length then .error (.err .ErrUnexpectedEOF)
    else
      match readByte dAtA iNdEx with
      | .error f => .error f
      | .ok b =>
        let iNdEx := iNdEx + 1
        let wire := wire ||| ((b &&& 0x7F) <<< shift) % 2 ^ 64
        if b < 0x80 then .ok (wire, iNdEx)
        else decodeVarint dAtA fuel (shift + 7) iNdEx wire

/-- The loop of `skipPushsync` that passes over a varint without reading it. -/
def skipVarint (dAtA : List Nat) : Nat → Nat → Nat → Except Fault Nat
  | 0, _, _ => .error .outOfFuel
  | fuel + 1, shift, iNdEx =>
    if shift ≥ 64 then .error (.err .ErrIntOverflowPushsync)
    else if iNdEx ≥ dAtA.length then .error (.err .ErrUnexpectedEOF)
    else
      let iNdEx := iNdEx + 1
      match readByte dAtA (iNdEx - 1) with
      | .error f => .error f
      | .ok b =>
        if b < 0x80 then .ok iNdEx
        else skipVarint dAtA fuel (shift + 7) iNdEx

/-- The `switch wireType` of `skipPushsync`: the index and the depth after it. -/
def skipField (dAtA : List Nat) (wireType iNdEx depth : Nat) : Except Fault (Nat × Nat) :=
  match wireType with
  | 0 =>
    match skipVarint dAtA 11 0 iNdEx with
    | .error f => .error f
    | .ok iNdEx => .ok (iNdEx, depth)
  | 1 => .ok ((iNdEx + 8) % 2 ^ 64, depth)
  | 2 =>
    match decodeVarint dAtA 11 0 iNdEx 0 with
    | .error f => .error f
    | .ok (length, iNdEx) =>
      if length ≥ 2 ^ 63 then .error (.err .ErrInvalidLengthPushsync)
      else .ok ((iNdEx + length) % 2 ^ 64, depth)
  | 3 => .ok (iNdEx, depth + 1)
  | 4 =>
    if depth = 0 then .error (.err .ErrUnexpectedEndOfGroupPushsync)
    else .ok (iNdEx, depth - 1)
  | 5 => .ok ((iNdEx + 4) % 2 ^ 64, depth)
  | _ => .error (.err .illegalWireType)

/-- The loop `for iNdEx < l` of `skipPushsync`. -/
def skipLoop (dAtA : List Nat) : Nat → Nat → Nat → Except Fault Nat
  | 0, _, _ => .error .outOfFuel
  | fuel + 1, iNdEx, depth =>
    if iNdEx < dAtA.length then
      match decodeVarint dAtA 11 0 iNdEx 0 with
      | .error f => .error f
      | .ok (wire, iNdEx) =>
        let wireType := wire &&& 0x7
        match skipField dAtA wireType iNdEx depth with
        | .error f => .error f
        | .ok (iNdEx, depth) =>
          if iNdEx ≥ 2 ^ 63 then .error (.err .ErrInvalidLengthPushsync)
          else if depth = 0 then .ok iNdEx
          else skipLoop dAtA fuel iNdEx depth
    else .error (.err .ErrUnexpectedEOF)

/-- The function `skipPushsync`: the number of bytes of the field at the head. -/
def skipPushsync (dAtA : List Nat) : Except Fault Nat :=
  skipLoop dAtA (dAtA.length + 1) 0 0

/-- The body of the loop of `Unmarshal`: the message and the index after one
field, together with the field number the code computed. -/
def unmarshalField (dAtA : List Nat) (m : Delivery) (iNdEx : Nat) :
    Except Fault (Delivery × Nat × Nat) :=
  let l := dAtA.length
  let preIndex := iNdEx
  match decodeVarint dAtA 11 0 iNdEx 0 with
  | .error f => .error f
  | .ok (wire, iNdEx) =>
    let fieldNum := (wire >>> 3) % 2 ^ 32
    let wireType := wire &&& 0x7
    if wireType = 4 then .error (.err .wiretypeEndGroup)
    else if fieldNum = 0 ∨ fieldNum ≥ 2 ^ 31 then .error (.err .illegalTag)
    else if fieldNum = 1 then
      if wireType ≠ 2 then .error (.err .wrongWireType)
      else
        match decodeVarint dAtA 11 0 iNdEx 0 with
        | .error f => .error f
        | .ok (byteLen, iNdEx) =>
          if byteLen ≥ 2 ^ 63 then .error (.err .ErrInvalidLengthPushsync)
          else
            let postIndex := (iNdEx + byteLen) % 2 ^ 64
            if postIndex ≥ 2 ^ 63 then .error (.err .ErrInvalidLengthPushsync)
            else if postIndex > l then .error (.err .ErrUnexpectedEOF)
            else
              match slice dAtA iNdEx postIndex with
              | .error f => .error f
              | .ok data => .ok ({ m with Data := data }, postIndex, fieldNum)
    else
      let iNdEx := preIndex
      match slice dAtA iNdEx l with
      | .error f => .error f
      | .ok rest =>
        match skipPushsync rest with
        | .error f => .error f
        | .ok skippy =>
          if skippy ≥ 2 ^ 63 then .error (.err .ErrInvalidLengthPushsync)
          else if (iNdEx + skippy) % 2 ^ 64 ≥ 2 ^ 63 then
            .error (.err .ErrInvalidLengthPushsync)
          else if iNdEx + skippy > l then .error (.err .ErrUnexpectedEOF)
          else
            match slice dAtA iNdEx (iNdEx + skippy) with
            | .error f => .error f
            | .ok field =>
              .ok ({ m with XXX_unrecognized := m.XXX_unrecognized ++ field },
                iNdEx + skippy, fieldNum)

/-- The loop `for iNdEx < l` of `Unmarshal` and the test after it. -/
def unmarshalLoop (dAtA : List Nat) : Nat → Delivery → Nat → Except Fault Delivery
  | 0, _, _ => .error .outOfFuel
  | fuel + 1, m, iNdEx =>
    if iNdEx < dAtA.length then
      match unmarshalField dAtA m iNdEx with
      | .error f => .error f
      | .ok (m, iNdEx, _) => unmarshalLoop dAtA fuel m iNdEx
    else if iNdEx > dAtA.length then .error (.err .ErrUnexpectedEOF)
    else .ok m

/-- The method `Unmarshal`. -/
def Delivery.Unmarshal (m : Delivery) (dAtA : List Nat) : Except Fault Delivery :=
  unmarshalLoop dAtA (dAtA.length + 1) m 0

/-- The base-128 varint of a number: seven bits a byte, least significant
group first, the high bit set on every byte but the last. -/
def varint : Nat → Nat → List Nat
  | 0, _ => []
  | fuel + 1, n => if n < 128 then [n] else (n % 128 + 128) :: varint fuel (n / 128)

/-- The encoding of field 1 (wire type 2) holding the bytes `d`: nothing for no
bytes, else the byte `0x0A`, the varint of the length, and the bytes. -/
def encodeData (d : List Nat) : List Nat :=
  if d = [] then [] else 0x0A :: (varint 10 d.length ++ d)

/-- The number a varint stands for: the low seven bits of each byte, the least
significant group first. -/
def varintValue : List Nat → Nat
  | [] => 0
  | b :: bs => b % 128 + 128 * varintValue bs

/-- The call ends with a Go error, or with a value that satisfies `P`: it has no
index or slice bounds failure and does not use up its fuel. -/
def Safe {α : Type} (r : Except Fault α) (P : α → Prop) : Prop :=
  (∃ e, r = .error (.err e)) ∨ ∃ a, r = .ok a ∧ P a

/-! ## Lookups whose outcome is an input

The tracker is a collaborator of the service: a lookup can fail for a reason of
its own ("session not found / tracker error"), and the owner of a session can
destroy it between two iterations of the loop. -/

/-- Modelled from the spec: the call `s.tag.Get(uid)` with its outcome as an
input: `failure` is the error the tracker returns on its own, if any; without
one the tracker answers from the sessions it holds. -/
def Tags.GetOutcome (ts : Tags) (failure : Option GoError) (uid : Nat) : Except GoError Tag :=
  match failure with
  | some err => .error err
  | none => ts.Get uid

/-- Modelled from the spec: the tracker after the owner of session `uid` has
destroyed it; the counters of the other sessions are as before. -/
def Tags.destroy (ts : Tags) (uid : Nat) : Tags :=
  fun u => if u = uid then none else ts u

/-- The method `setChunkAsSynced` with the outcome of its lookup `s.tag.Get(uid)`
as an input besides the one of `storer.Set`. -/
def setChunkAsSyncedOutcome (s : Service) (setResult getResult : Option GoError)
    (addr : Address) : Service :=
  let s := s.emit (.storerSet addr)
  match setResult with
  | some _ =>
    (s.emit (.logErrorf .settingChunkAsSynced)).emit (.metric .ErrorSettingChunkToSynced)
  | none =>
    let s := s.emit (.metric .TotalChunksSynced)
    match getUidFromPushed s addr with
    | .error _ => s.emit (.logDebugf .getUidFromPusher)
    | .ok uid =>
      match s.tag.GetOutcome getResult uid with
      | .error err =>
        if !errorsIs err tagsErrNotFound then s.emit (.logDebugf .getTag) else s
      | .ok ta => deleteUidFromPushed (ta.Inc .StateSynced s) addr

/-- The body of the case `ch, more := <-chunks` of `chunksWorker` with the
outcomes of all four calls as inputs: `getSent` for `s.tag.Get(ch.TagID())`,
`pushResult` for `PushChunkToClosest`, `setResult` for `storer.Set` and
`getSynced` for the lookup in `setChunkAsSynced`. -/
def handleChunkOutcome (s : Service) (ch : Chunk)
    (getSent pushResult setResult getSynced : Option GoError) : Service :=
  let s := s.emit (.metric .TotalChunksToBeSentCounter)
  let s :=
    match s.tag.GetOutcome getSent ch.tagID with
    | .error _ => s.emit (.logDebugf .getTagByUid)
    | .ok t => addUidToPushed (t.Inc .StateSent s) ch.address t.Uid
  let s := s.emit (.pushChunkToClosest ch.address)
  match pushResult with
  | some err =>
    if !errorsIs err topologyErrNotFound then s.emit (.logErrorf .sendingChunk) else s
  | none => setChunkAsSyncedOutcome s setResult getSynced ch.address

/-- What changes the tracker and the ledger: the processing of a chunk, with the
outcomes of its calls, and the destruction of a session by its owner. -/
inductive CoreEvent where
  | process (ch : Chunk) (getSent pushResult setResult getSynced : Option GoError)
  | destroy (uid : Nat)

/-- The service after one such event. -/
def coreStep (s : Service) : CoreEvent → Service
  | .process ch getSent pushResult setResult getSynced =>
    handleChunkOutcome s ch getSent pushResult setResult getSynced
  | .destroy uid => { s with tag := s.tag.destroy uid }

/-- The service after a sequence of such events. -/
def coreRun (s : Service) : List CoreEvent → Service
  | [] => s
  | e :: es => coreRun (coreStep s e) es

/-! ## The fields of a message in the wire format

The wire format on its own, without the decoder: a message is a sequence of
fields; a field is a tag (a varint holding the field number and, in its low
three bits, the wire type) and a value laid out according to the wire type. -/

/-- The varint at the head of a byte sequence, of at most `fuel` bytes: the
number it stands for (seven bits a byte, least significant group first) and how
many bytes it takes. -/
def wireVarintFrom : Nat → List Nat → Option (Nat × Nat)
  | 0, _ => none
  | _ + 1, [] => none
  | fuel + 1, b :: bs =>
    if b < 128 then some (b, 1)
    else
      match wireVarintFrom fuel bs with
      | none => none
      | some (v, n) => some (b % 128 + 128 * v, n + 1)

/-- A varint of the wire format: at most ten bytes that stand for a number of
64 bits. -/
def wireVarint (bs : List Nat) : Option (Nat × Nat) :=
  match wireVarintFrom 10 bs with
  | none => none
  | some (v, n) => if v < 2 ^ 64 then some (v, n) else none

/-- The number of bytes of the value of a field of wire type `wt`, `bs` being the
bytes after its tag: a varint (0), 8 bytes (1), a length and as many bytes (2),
4 bytes (5); the tags that start (3) and end (4) a group have no value. -/
def wireValue (wt : Nat) (bs : List Nat) : Option Nat :=
  match wt with
  | 0 =>
    match wireVarint bs with
    | none => none
    | some (_, n) => some n
  | 1 => if 8 ≤ bs.length then some 8 else none
  | 2 =>
    match wireVarint bs with
    | none => none
    | some (len, n) => if n + len ≤ bs.length then some (n + len) else none
  | 3 => some 0
  | 4 => some 0
  | 5 => if 4 ≤ bs.length then some 4 else none
  | _ => none

/-- The number of bytes from the head of `bs` to the end of the tag that closes
the last of `depth` open groups; for `depth` 0 this is the number of bytes of the
field at the head of `bs`, a group running from its start tag to the end tag
that balances it. -/
def wireExtent : Nat → Nat → List Nat → Option Nat
  | 0, _, _ => none
  | fuel + 1, depth, bs =>
    match wireVarint bs with
    | none => none
    | some (tag, n) =>
      match wireValue (tag % 8) (bs.drop n) with
      | none => none
      | some k =>
        if tag % 8 = 3 then
          (wireExtent fuel (depth + 1) (bs.drop (n + k))).map (fun r => n + k + r)
        else if tag % 8 = 4 then
          if depth = 0 then none
          else if depth = 1 then some (n + k)
          else (wireExtent fuel (depth - 1) (bs.drop (n + k))).map (fun r => n + k + r)
        else if depth = 0 then some (n + k)
        else (wireExtent fuel depth (bs.drop (n + k))).map (fun r => n + k + r)

/-- The fields of a byte sequence, for each its field number (the tag without
its low three bits) and its bytes, in order; `none` when the bytes are not a
sequence of fields. -/
def wireFieldsFrom : Nat → List Nat → Option (List (Nat × List Nat))
  | 0, _ => none
  | fuel + 1, bs =>
    if bs = [] then some []
    else
      match wireVarint bs with
      | none => none
      | some (tag, _) =>
        match wireExtent bs.length 0 bs with
        | none => none
        | some k =>
          match wireFieldsFrom fuel (bs.drop k) with
          | none => none
          | some fs => some ((tag / 8, bs.take k) :: fs)

/-- The fields of a message in the wire format. -/
def wireFields (bs : List Nat) : Option (List (Nat × List Nat)) :=
  wireFieldsFrom (bs.length + 1) bs

/-! ## Lemmas about one chunk -/

theorem handleChunk_success (s : Service) (ch : Chunk) (c : Counters)
    (htag : s.tag ch.tagID = some c) :
    (handleChunk s ch none none).tag ch.tagID
        = some { Sent := c.Sent + 1, Synced := c.Synced + 1 } ∧
    (handleChunk s ch none none).pushed ch.address = none ∧
    (handleChunk s ch none none).trace = s.trace ++
      [.metric .TotalChunksToBeSentCounter, .tagInc ch.tagID .StateSent,
       .ledgerStore ch.address ch.tagID, .pushChunkToClosest ch.address,
       .storerSet ch.address, .metric .TotalChunksSynced,
       .tagInc ch.tagID .StateSynced, .ledgerDelete ch.address] := by
  simp [handleChunk, setChunkAsSynced, Service.emit, Tags.Get, Tag.Inc, addUidToPushed,
    getUidFromPushed, deleteUidFromPushed, Tags.inc, htag]

theorem handleChunk_pushError (s : Service) (ch : Chunk) (c : Counters) (err : GoError)
    (r : Option GoError) (htag : s.tag ch.tagID = some c) :
    (handleChunk s ch (some err) r).tag ch.tagID = some { c with Sent := c.Sent + 1 } := by
  by_cases h : errorsIs err topologyErrNotFound <;>
    simp [handleChunk, Service.emit, Tags.Get, Tag.Inc, addUidToPushed, Tags.inc, htag, h]

/-! ## Theorems -/

/-- C1: a chunk whose tag resolves, whose delivery succeeds and whose store write
succeeds: one chunk step of the worker leaves Sent and Synced of the session each
exactly 1 higher, calls the storer's Set for the address exactly once, and
leaves the ledger without an entry for the address (whatever it held before). -/
theorem chunk_step_success (w : Worker) (sub : Nat) (ch : Chunk) (c : Counters)
    (hrun : w.stopped = false) (hfeed : w.chunks = some sub)
    (htag : w.svc.tag ch.tagID = some c) :
    ∃ w1 delta, chunksWorkerStep w (.chunk ch none none) = some w1 ∧
      w1.svc.tag ch.tagID = some { Sent := c.Sent + 1, Synced := c.Synced + 1 } ∧
      w1.svc.trace = w.svc.trace ++ delta ∧
      delta.count (.storerSet ch.address) = 1 ∧
      w1.svc.pushed ch.address = none := by
  obtain ⟨h1, h2, h3⟩ := handleChunk_success w.svc ch c htag
  refine ⟨_, _, by simp [chunksWorkerStep, hrun, hfeed]; rfl, h1, h3, ?_, h2⟩
  simp [List.count_cons]

/-- The scenario: chunk `0xAA` of session 7 arrives at the freshly subscribed worker. -/
theorem chunk_step_success_witness :
    ∃ w1 delta, chunksWorkerStep (workerAwaiting tags7) (.chunk chunkAA none none) = some w1 ∧
      w1.svc.tag 7 = some { Sent := 0 + 1, Synced := 0 + 1 } ∧
      w1.svc.trace = (workerAwaiting tags7).svc.trace ++ delta ∧
      delta.count (.storerSet 170) = 1 ∧
      w1.svc.pushed 170 = none :=
  chunk_step_success (workerAwaiting tags7) 0 chunkAA { Sent := 0, Synced := 0 } rfl rfl rfl

/-- C2, refuted as stated: with the store write succeeding, the ledger entry
`0xAA -> 7` survives `setChunkAsSynced` when the tracker does not find session 7. -/
theorem stale_entry_survives :
    ¬ ((setChunkAsSynced staleService none 170).pushed 170 = none) := by
  simp [setChunkAsSynced, staleService, Service.emit, getUidFromPushed, Tags.Get,
    errorsIs, tagsErrNotFound]

/-- C2, amended: after `setChunkAsSynced` with a successful store write the
ledger has no entry for the address exactly when it had none before or the
session named by the entry is found by the tracker; an entry naming a session
that is not found stays as it was. -/
theorem setChunkAsSynced_entry (s : Service) (addr : Address) :
    ((setChunkAsSynced s none addr).pushed addr = none ↔
      (s.pushed addr = none ∨ ∃ uid c, s.pushed addr = some uid ∧ s.tag uid = some c)) ∧
    (setChunkAsSynced s none addr).pushed addr =
      (match s.pushed addr with
       | none => none
       | some uid =>
         match s.tag uid with
         | some _ => none
         | none => some uid) := by
  cases hp : s.pushed addr with
  | none =>
    simp [setChunkAsSynced, Service.emit, getUidFromPushed, hp]
  | some uid =>
    cases ht : s.tag uid with
    | none =>
      simp [setChunkAsSynced, Service.emit, getUidFromPushed, Tags.Get, errorsIs,
        tagsErrNotFound, hp, ht]
    | some c =>
      simp [setChunkAsSynced, Service.emit, getUidFromPushed, Tags.Get, Tag.Inc,
        deleteUidFromPushed, hp, ht]

/-- C3, refuted as stated: chunk `0xAA` of session 7 fails once and succeeds when
re-emitted; Sent of session 7 ends at 2, not at 0 + 1. -/
theorem retry_counts_sent_twice :
    ∃ w2, chunksWorker (workerAwaiting tags7)
        [.chunk chunkAA (some topologyErrNotFound) none, .feedClosed, .timerC,
         .chunk chunkAA none none] = some w2 ∧
      (w2.svc.tag 7).map Counters.Sent = some 2 ∧
      (w2.svc.tag 7).map Counters.Sent ≠ some (0 + 1) :=
  ⟨_, rfl, by decide, by decide⟩

/-- C3, amended: for a chunk with a resolvable session, a run in which the chunk
is processed with a failing delivery, the feed is exhausted, the timer fires
and the chunk is re-emitted and processed with a succeeding delivery and store
write leaves Sent of the session exactly 2 higher (one per dispatch) and Synced
exactly 1 higher. -/
theorem retry_run_counts (w : Worker) (sub : Nat) (ch : Chunk) (c : Counters)
    (err : GoError) (r : Option GoError)
    (hrun : w.stopped = false) (hfeed : w.chunks = some sub)
    (htag : w.svc.tag ch.tagID = some c) :
    ∃ w2, chunksWorker w
        [.chunk ch (some err) r, .feedClosed, .timerC, .chunk ch none none] = some w2 ∧
      w2.svc.tag ch.tagID = some { Sent := c.Sent + 2, Synced := c.Synced + 1 } := by
  have h1 := handleChunk_pushError w.svc ch c err r htag
  refine ⟨_, by simp [chunksWorker, chunksWorkerStep, hrun, hfeed]; rfl, ?_⟩
  refine (handleChunk_success _ ch { c with Sent := c.Sent + 1 } ?_).1
  cases hu : w.unsubscribe <;> simpa [callUnsubscribe, Service.emit, hu] using h1

/-- The scenario: chunk `0xAA` of session 7 fails with "no peer" and is retried. -/
theorem retry_run_counts_witness :
    ∃ w2, chunksWorker (workerAwaiting tags7)
        [.chunk chunkAA (some topologyErrNotFound) none, .feedClosed, .timerC,
         .chunk chunkAA none none] = some w2 ∧
      w2.svc.tag 7 = some { Sent := 0 + 2, Synced := 0 + 1 } :=
  retry_run_counts (workerAwaiting tags7) 0 chunkAA { Sent := 0, Synced := 0 }
    topologyErrNotFound none rfl rfl rfl

/-! ## Lemmas about traces and runs -/

theorem handleChunk_delivered_trace (s : Service) (ch : Chunk) (r2 : Option GoError) :
    ∃ d, (handleChunk s ch none r2).trace = s.trace ++ d ∧
      d.count (.storerSet ch.address) = 1 := by
  refine ⟨(handleChunk s ch none r2).trace.drop s.trace.length, ?_, ?_⟩ <;>
  · cases ht : s.tag ch.tagID <;> cases r2 <;> cases hp : s.pushed ch.address <;>
      simp [handleChunk, setChunkAsSynced, Service.emit, Tags.Get, Tag.Inc, addUidToPushed,
        getUidFromPushed, deleteUidFromPushed, Tags.inc, errorsIs, tagsErrNotFound, ht, hp,
        List.count_cons]
    all_goals
      rename_i uid
      cases hu : s.tag uid <;>
        simp [hu, Service.emit, List.count_cons, errorsIs]

theorem handleChunk_pushError_trace (s : Service) (ch : Chunk) (err : GoError)
    (r : Option GoError) :
    ∃ d, (handleChunk s ch (some err) r).trace = s.trace ++ d ∧
      (∀ a, Effect.storerSet a ∉ d) ∧
      (∀ u, Effect.tagInc u .StateSynced ∉ d) ∧
      (∀ a, Effect.ledgerDelete a ∉ d) ∧
      (∀ u, ((handleChunk s ch (some err) r).tag u).map Counters.Synced
        = (s.tag u).map Counters.Synced) := by
  refine ⟨(handleChunk s ch (some err) r).trace.drop s.trace.length, ?_, ?_, ?_, ?_, ?_⟩
  all_goals
    cases ht : s.tag ch.tagID <;> cases he : errorsIs err topologyErrNotFound <;>
      simp [handleChunk, Service.emit, Tags.Get, Tag.Inc, addUidToPushed, Tags.inc, ht, he]
  all_goals
    intro u
    by_cases hu : u = ch.tagID
    · subst hu
      simp [ht]
    · simp [hu]

theorem chunksWorker_append (w : Worker) (es1 es2 : List Event) :
    chunksWorker w (es1 ++ es2) = (chunksWorker w es1).bind (fun w1 => chunksWorker w1 es2) := by
  induction es1 generalizing w with
  | nil => rfl
  | cons e es ih =>
    simp only [List.cons_append, chunksWorker]
    cases chunksWorkerStep w e with
    | none => rfl
    | some w1 => exact ih w1

theorem step_chunk (w : Worker) (sub : Nat) (ch : Chunk) (p r : Option GoError)
    (hrun : w.stopped = false) (hfeed : w.chunks = some sub) :
    chunksWorkerStep w (.chunk ch p r) =
      some { w with
        chunksInBatch := w.chunksInBatch + 1
        svc := handleChunk w.svc ch p r } := by
  simp [chunksWorkerStep, hrun, hfeed]

theorem resubscribe_run (w : Worker) (sub : Nat)
    (hrun : w.stopped = false) (hfeed : w.chunks = some sub) :
    ∃ wm, chunksWorker w [.feedClosed, .timerC] = some wm ∧
      wm.stopped = false ∧ wm.chunks = some w.subscriptions ∧
      wm.svc.tag = w.svc.tag ∧ wm.svc.pushed = w.svc.pushed ∧
      ∃ d, wm.svc.trace = w.svc.trace ++ d ∧
        (∀ a, Effect.storerSet a ∉ d) ∧ (∀ u st, Effect.tagInc u st ∉ d) := by
  refine ⟨_, by simp [chunksWorker, chunksWorkerStep, hrun, hfeed]; rfl, ?_⟩
  cases hu : w.unsubscribe <;>
    simp [callUnsubscribe, Service.emit, hu, hrun]

/-- C4: whatever error `PushChunkToClosest` returns, the chunk step calls the
storer's Set for no address and increments Synced on no session; in the
two-cycle run where delivery fails, the feed is exhausted, the timer fires and
the re-emitted chunk is delivered, the storer's Set for the address is called
exactly once in total, and that call is made by the chunk step of the second
cycle. -/
theorem push_failure_then_success (w : Worker) (sub : Nat) (ch : Chunk) (err : GoError)
    (r r2 : Option GoError) (hrun : w.stopped = false) (hfeed : w.chunks = some sub) :
    ∃ w1 wm w2 d1 dm d2,
      chunksWorkerStep w (.chunk ch (some err) r) = some w1 ∧
      w1.svc.trace = w.svc.trace ++ d1 ∧
      (∀ a, Effect.storerSet a ∉ d1) ∧
      (∀ u, Effect.tagInc u .StateSynced ∉ d1) ∧
      (∀ u, (w1.svc.tag u).map Counters.Synced = (w.svc.tag u).map Counters.Synced) ∧
      chunksWorker w1 [.feedClosed, .timerC] = some wm ∧
      wm.svc.trace = w1.svc.trace ++ dm ∧
      (∀ a, Effect.storerSet a ∉ dm) ∧
      chunksWorkerStep wm (.chunk ch none r2) = some w2 ∧
      w2.svc.trace = wm.svc.trace ++ d2 ∧
      d2.count (.storerSet ch.address) = 1 ∧
      (d1 ++ dm ++ d2).count (.storerSet ch.address) = 1 := by
  obtain ⟨d1, hd1, hset, hsyn, _, hcnt⟩ := handleChunk_pushError_trace w.svc ch err r
  obtain ⟨wm, hwm, hmrun, hmfeed, _, _, dm, hdm, hmset, _⟩ :=
    resubscribe_run { w with
      chunksInBatch := w.chunksInBatch + 1
      svc := handleChunk w.svc ch (some err) r } sub hrun hfeed
  obtain ⟨d, hd, hdc⟩ := handleChunk_delivered_trace wm.svc ch r2
  have hzero : dm.count (.storerSet ch.address) = 0 :=
    List.count_eq_zero.mpr (hmset ch.address)
  have hzero1 : d1.count (.storerSet ch.address) = 0 :=
    List.count_eq_zero.mpr (hset ch.address)
  refine ⟨_, wm, _, d1, dm, d, step_chunk w sub ch (some err) r hrun hfeed, hd1, hset, hsyn,
    hcnt, hwm, hdm, hmset, step_chunk wm _ ch none r2 hmrun hmfeed, hd, hdc, ?_⟩
  simp [List.count_append, hzero, hzero1, hdc]

/-- The scenario: "no peer reachable" for chunk `0xAA`, then success on the next cycle. -/
theorem push_failure_then_success_witness :
    ∃ w1 wm w2 d1 dm d2,
      chunksWorkerStep (workerAwaiting tags7)
        (.chunk chunkAA (some topologyErrNotFound) none) = some w1 ∧
      w1.svc.trace = (workerAwaiting tags7).svc.trace ++ d1 ∧
      (∀ a, Effect.storerSet a ∉ d1) ∧
      (∀ u, Effect.tagInc u .StateSynced ∉ d1) ∧
      (∀ u, (w1.svc.tag u).map Counters.Synced
        = ((workerAwaiting tags7).svc.tag u).map Counters.Synced) ∧
      chunksWorker w1 [.feedClosed, .timerC] = some wm ∧
      wm.svc.trace = w1.svc.trace ++ dm ∧
      (∀ a, Effect.storerSet a ∉ dm) ∧
      chunksWorkerStep wm (.chunk chunkAA none none) = some w2 ∧
      w2.svc.trace = wm.svc.trace ++ d2 ∧
      d2.count (.storerSet 170) = 1 ∧
      (d1 ++ dm ++ d2).count (.storerSet 170) = 1 :=
  push_failure_then_success (workerAwaiting tags7) 0 chunkAA topologyErrNotFound none none
    rfl rfl

/-- C5: a chunk whose session cannot be resolved at dispatch and whose address
has no ledger entry, delivered successfully: the step calls the storer's Set for
the address exactly once, increments no counter of any session, and leaves the
tracker and the ledger unchanged (whatever the store write returns). -/
theorem untagged_chunk_step (w : Worker) (sub : Nat) (ch : Chunk) (r : Option GoError)
    (hrun : w.stopped = false) (hfeed : w.chunks = some sub)
    (hnotag : w.svc.tag ch.tagID = none) (hled : w.svc.pushed ch.address = none) :
    ∃ w1 d, chunksWorkerStep w (.chunk ch none r) = some w1 ∧
      w1.svc.trace = w.svc.trace ++ d ∧
      d.count (.storerSet ch.address) = 1 ∧
      (∀ u st, Effect.tagInc u st ∉ d) ∧
      w1.svc.tag = w.svc.tag ∧
      w1.svc.pushed = w.svc.pushed := by
  refine ⟨_, (handleChunk w.svc ch none r).trace.drop w.svc.trace.length,
    step_chunk w sub ch none r hrun hfeed, ?_⟩
  cases r <;>
    simp [handleChunk, setChunkAsSynced, Service.emit, Tags.Get, getUidFromPushed, hnotag,
      hled, List.count_cons]

/-- The scenario: chunk `0xAA` names session 9, which the tracker does not hold. -/
theorem untagged_chunk_step_witness :
    ∃ w1 d, chunksWorkerStep (workerAwaiting tags7) (.chunk ⟨170, 9⟩ none none) = some w1 ∧
      w1.svc.trace = (workerAwaiting tags7).svc.trace ++ d ∧
      d.count (.storerSet 170) = 1 ∧
      (∀ u st, Effect.tagInc u st ∉ d) ∧
      w1.svc.tag = (workerAwaiting tags7).svc.tag ∧
      w1.svc.pushed = (workerAwaiting tags7).svc.pushed :=
  untagged_chunk_step (workerAwaiting tags7) 0 ⟨170, 9⟩ none rfl rfl rfl rfl

/-- C6: when the storer's Set returns an error, `setChunkAsSynced` increments no
counter and changes neither the tracker nor the ledger; the worker step for
such a chunk returns to the loop: the worker is not stopped, its feed, cancel
function and timer are as before, and it services the same events as before. -/
theorem store_failure_continues (w : Worker) (sub : Nat) (ch : Chunk) (e : GoError)
    (hrun : w.stopped = false) (hfeed : w.chunks = some sub) :
    (∀ (s : Service) (addr : Address),
      (setChunkAsSynced s (some e) addr).tag = s.tag ∧
      (setChunkAsSynced s (some e) addr).pushed = s.pushed ∧
      ∃ d, (setChunkAsSynced s (some e) addr).trace = s.trace ++ d ∧
        (∀ u st, Effect.tagInc u st ∉ d) ∧ (∀ a, Effect.ledgerDelete a ∉ d)) ∧
    ∃ w1, chunksWorkerStep w (.chunk ch none (some e)) = some w1 ∧
      w1.stopped = false ∧ w1.chunks = w.chunks ∧ w1.unsubscribe = w.unsubscribe ∧
      w1.timer = w.timer ∧
      ∀ ev, (chunksWorkerStep w1 ev).isSome = (chunksWorkerStep w ev).isSome := by
  refine ⟨fun s addr => ⟨rfl, rfl,
    [.storerSet addr, .logErrorf .settingChunkAsSynced, .metric .ErrorSettingChunkToSynced],
    ?_⟩, _, step_chunk w sub ch none (some e) hrun hfeed, hrun, rfl, rfl, rfl, ?_⟩
  · simp [setChunkAsSynced, Service.emit]
  · intro ev
    cases ev <;> simp [chunksWorkerStep, hrun, hfeed]
    cases w.timer <;> rfl

/-- The scenario: chunk `0xAA` is delivered but the store write fails. -/
theorem store_failure_continues_witness :
    (∀ (s : Service) (addr : Address),
      (setChunkAsSynced s (some (.sentinel 3)) addr).tag = s.tag ∧
      (setChunkAsSynced s (some (.sentinel 3)) addr).pushed = s.pushed ∧
      ∃ d, (setChunkAsSynced s (some (.sentinel 3)) addr).trace = s.trace ++ d ∧
        (∀ u st, Effect.tagInc u st ∉ d) ∧ (∀ a, Effect.ledgerDelete a ∉ d)) ∧
    ∃ w1, chunksWorkerStep (workerAwaiting tags7) (.chunk chunkAA none (some (.sentinel 3)))
        = some w1 ∧
      w1.stopped = false ∧ w1.chunks = (workerAwaiting tags7).chunks ∧
      w1.unsubscribe = (workerAwaiting tags7).unsubscribe ∧
      w1.timer = (workerAwaiting tags7).timer ∧
      ∀ ev, (chunksWorkerStep w1 ev).isSome
        = (chunksWorkerStep (workerAwaiting tags7) ev).isSome :=
  store_failure_continues (workerAwaiting tags7) 0 chunkAA (.sentinel 3) rfl rfl

/-! ## Lemmas about the order of effects -/

theorem before_of_check (p q : Effect → Bool) (l : List Effect)
    (h : beforeCheck p q l = true) : Before p q l := by
  unfold Before
  induction l with
  | nil => intro i j ei ej hi; simp at hi
  | cons e es ih =>
    simp only [beforeCheck, Bool.and_eq_true, Bool.or_eq_true, Bool.not_eq_true',
      List.all_eq_true] at h
    obtain ⟨h1, h2⟩ := h
    intro i j ei ej hi hj hp hq
    cases j with
    | zero =>
      simp only [List.getElem?_cons_zero, Option.some.injEq] at hj
      subst hj
      rcases h1 with h1 | ⟨h1, h3⟩
      · simp [h1] at hq
      · cases i with
        | zero =>
          simp only [List.getElem?_cons_zero, Option.some.injEq] at hi
          subst hi
          simp [h1] at hp
        | succ i =>
          simp only [List.getElem?_cons_succ] at hi
          have := h3 ei (List.getElem?_mem hi)
          simp [hp] at this
    | succ j =>
      cases i with
      | zero => exact Nat.succ_pos j
      | succ i =>
        simp only [List.getElem?_cons_succ] at hi hj
        exact Nat.succ_lt_succ (ih h2 i j ei ej hi hj hp hq)

theorem deleteAfterSet_of_check (l : List Effect) (seen : List Address)
    (h : deleteAfterSetCheck seen l = true) :
    ∀ (j : Nat) (a : Address), l[j]? = some (Effect.ledgerDelete a) →
      a ∈ seen ∨ ∃ i, i < j ∧ l[i]? = some (Effect.storerSet a) := by
  induction l generalizing seen with
  | nil => intro j a hj; simp at hj
  | cons e es ih =>
    intro j a hj
    have step : ∀ seen1, deleteAfterSetCheck seen1 es = true →
        (∀ b, b ∈ seen1 → b ∈ seen ∨ e = Effect.storerSet b) → j ≠ 0 →
        a ∈ seen ∨ ∃ i, i < j ∧ (e :: es)[i]? = some (Effect.storerSet a) := by
      intro seen1 hc hsub hj0
      obtain ⟨k, rfl⟩ := Nat.exists_eq_succ_of_ne_zero hj0
      simp only [List.getElem?_cons_succ] at hj
      rcases ih seen1 hc k a hj with hm | ⟨i, hi, hget⟩
      · rcases hsub a hm with hs | he
        · exact Or.inl hs
        · exact Or.inr ⟨0, Nat.succ_pos k, by simp [he]⟩
      · exact Or.inr ⟨i + 1, Nat.succ_lt_succ hi, by simpa using hget⟩
    cases j with
    | zero =>
      simp only [List.getElem?_cons_zero, Option.some.injEq] at hj
      subst hj
      simp only [deleteAfterSetCheck, Bool.and_eq_true] at h
      exact Or.inl (by simpa using h.1)
    | succ k =>
      cases e with
      | storerSet b =>
        simp only [deleteAfterSetCheck] at h
        refine step (b :: seen) h ?_ (Nat.succ_ne_zero k)
        intro c hc
        rcases List.mem_cons.mp hc with rfl | hc
        · exact Or.inr rfl
        · exact Or.inl hc
      | ledgerDelete b =>
        simp only [deleteAfterSetCheck, Bool.and_eq_true] at h
        exact step seen h.2 (fun c hc => Or.inl hc) (Nat.succ_ne_zero k)
      | _ =>
        simp only [deleteAfterSetCheck] at h
        exact step seen h (fun c hc => Or.inl hc) (Nat.succ_ne_zero k)

/-! ## The ledger contract -/

/-- C8: after `addUidToPushed a u` (insert or overwrite), the lookup-and-delete
of `a` returns `u` as found, and a further lookup-and-delete of `a` returns
not-found, for every ledger state. -/
theorem ledger_record_resolve (s : Service) (a : Address) (u : Nat) :
    (resolveAndRemove (addUidToPushed s a u) a).1 = .ok u ∧
    (resolveAndRemove (resolveAndRemove (addUidToPushed s a u) a).2 a).1
      = .error errUidNotPresent := by
  simp [resolveAndRemove, addUidToPushed, getUidFromPushed, deleteUidFromPushed]

/-! ## The timer at feed exhaustion -/

theorem cycleCount_le (es : List Event) (acc : Nat) :
    cycleCount acc es ≤ acc + chunksReceived es := by
  induction es generalizing acc with
  | nil => simp [cycleCount, chunksReceived]
  | cons e es ih =>
    cases e with
    | chunk ch p r =>
      have := ih (acc + 1)
      simp only [cycleCount, chunksReceived, List.countP_cons, Event.isChunk, if_true] at this ⊢
      omega
    | timerC =>
      have := ih 0
      simp only [cycleCount, chunksReceived, List.countP_cons, Event.isChunk] at this ⊢
      omega
    | feedClosed =>
      have := ih acc
      simp only [cycleCount, chunksReceived, List.countP_cons, Event.isChunk] at this ⊢
      omega
    | quit =>
      have := ih acc
      simp only [cycleCount, chunksReceived, List.countP_cons, Event.isChunk] at this ⊢
      omega

theorem step_chunksInBatch (w w1 : Worker) (e : Event) (h : chunksWorkerStep w e = some w1) :
    w1.chunksInBatch = w.chunksInBatch + (if e.isChunk then 1 else 0) := by
  cases e <;> simp only [chunksWorkerStep] at h <;> split at h <;> try contradiction
  · split at h <;> simp only [Option.some.injEq, reduceCtorEq] at h
    subst h
    simp [Event.isChunk]
  · split at h <;> simp only [Option.some.injEq, reduceCtorEq] at h
    subst h
    simp [Event.isChunk]
  · split at h <;> simp only [Option.some.injEq, reduceCtorEq] at h
    subst h
    simp [Event.isChunk]
  · simp only [Option.some.injEq] at h
    subst h
    simp [Event.isChunk]

theorem chunksWorker_chunksInBatch (es : List Event) (w w1 : Worker)
    (h : chunksWorker w es = some w1) :
    w1.chunksInBatch = w.chunksInBatch + (chunksReceived es : Int) := by
  induction es generalizing w with
  | nil =>
    simp only [chunksWorker, Option.some.injEq] at h
    subst h
    simp [chunksReceived]
  | cons e es ih =>
    simp only [chunksWorker] at h
    cases hs : chunksWorkerStep w e with
    | none => simp [hs] at h
    | some w2 =>
      rw [hs] at h
      have h1 := ih w2 h
      have h2 := step_chunksInBatch w w2 e hs
      rw [h1, h2]
      cases e <;> simp [chunksReceived, List.countP_cons, Event.isChunk]
      omega

/-- C9, the code at the failing input: a fresh worker whose first subscription
is exhausted before any chunk arrives (zero chunks in the cycle) resets the
timer to 0, not to the settle delay of 500 ms, because `chunksInBatch` is
still -1. -/
theorem first_empty_cycle_timer (tags : Tags) :
    ∃ w, chunksWorker (New tags) [.timerC, .feedClosed] = some w ∧
      chunksInCycle [.timerC] = 0 ∧
      w.chunksInBatch = -1 ∧
      w.timer = some 0 ∧
      w.timer ≠ some (500 * Millisecond) :=
  ⟨_, rfl, rfl, rfl, rfl, by simp [Millisecond, New]⟩

/-- C10, refuted as stated: two chunks are processed in the first cycle and the
feed is exhausted; the timer is reset to 0, not to `retryInterval`. -/
theorem exhaustion_not_retryInterval :
    ∃ w, chunksWorker (New tags7)
        [.timerC, .chunk chunkAA none none, .chunk chunkAA none none, .feedClosed] = some w ∧
      1 ≤ chunksInCycle [.timerC, .chunk chunkAA none none, .chunk chunkAA none none] ∧
      w.timer = some 0 ∧
      w.timer ≠ some retryInterval :=
  ⟨_, rfl, by decide, rfl, by decide⟩

/-! ## Lemmas about subscriptions -/

theorem openAfter_append (l1 l2 : List Effect) (o : List Nat) :
    openAfter o (l1 ++ l2) = openAfter (openAfter o l1) l2 := by
  induction l1 generalizing o with
  | nil => rfl
  | cons e es ih => cases e <;> simp [openAfter, ih]

theorem openAfter_noControl (d : List Effect) (o : List Nat)
    (h : ∀ e ∈ d, Effect.isControl e = false) : openAfter o d = o := by
  induction d generalizing o with
  | nil => rfl
  | cons e es ih =>
    have he := h e (List.mem_cons_self e es)
    have hes : ∀ x ∈ es, Effect.isControl x = false :=
      fun x hx => h x (List.mem_cons_of_mem e hx)
    cases e <;> simp [Effect.isControl] at he <;> simp [openAfter, ih _ hes]

theorem handleChunk_noControl (s : Service) (ch : Chunk) (p r : Option GoError) :
    ∃ d, (handleChunk s ch p r).trace = s.trace ++ d ∧
      ∀ e ∈ d, Effect.isControl e = false := by
  have key : ∀ t : Service, t = handleChunk s ch p r →
      t.trace = s.trace ++ t.trace.drop s.trace.length ∧
      ∀ e ∈ t.trace.drop s.trace.length, Effect.isControl e = false := by
    intro t ht0
    rcases p with _ | err
    · rcases r with _ | e2
      · cases ht : s.tag ch.tagID with
        | some c =>
          subst ht0
          simp [handleChunk, setChunkAsSynced, Service.emit, Tags.Get, Tag.Inc, addUidToPushed,
            getUidFromPushed, deleteUidFromPushed, Tags.inc, ht, Effect.isControl]
        | none =>
          rcases hp : s.pushed ch.address with _ | uid
          · subst ht0
            simp [handleChunk, setChunkAsSynced, Service.emit, Tags.Get, getUidFromPushed,
              ht, hp, Effect.isControl]
          · cases hu : s.tag uid <;>
            · subst ht0
              simp [handleChunk, setChunkAsSynced, Service.emit, Tags.Get, Tag.Inc,
                getUidFromPushed, deleteUidFromPushed, errorsIs, tagsErrNotFound, ht, hp, hu,
                Effect.isControl]
      · cases ht : s.tag ch.tagID <;>
        · subst ht0
          simp [handleChunk, setChunkAsSynced, Service.emit, Tags.Get, Tag.Inc, addUidToPushed,
            ht, Effect.isControl]
    · cases he : errorsIs err topologyErrNotFound <;> cases ht : s.tag ch.tagID <;>
      · subst ht0
        simp [handleChunk, Service.emit, Tags.Get, Tag.Inc, addUidToPushed, ht, he,
          Effect.isControl]
  exact ⟨_, key _ rfl⟩

/-- What holds of the loop variables in every state the worker reaches. -/
theorem step_subscription_invariant (w w1 : Worker) (e : Event)
    (hstep : chunksWorkerStep w e = some w1)
    (hopen : openSubscriptions w.svc.trace = if w.stopped then [] else w.unsubscribe.toList)
    (hlast : w.unsubscribe = if w.subscriptions = 0 then none else some (w.subscriptions - 1))
    (htimer : w.stopped = false → w.timer.isSome = true) :
    (openSubscriptions w1.svc.trace = if w1.stopped then [] else w1.unsubscribe.toList) ∧
    (w1.unsubscribe = if w1.subscriptions = 0 then none else some (w1.subscriptions - 1)) ∧
    (w1.stopped = false → w1.timer.isSome = true) := by
  cases hs : w.stopped with
  | true => cases e <;> simp [chunksWorkerStep, hs] at hstep
  | false =>
    simp only [hs, Bool.false_eq_true, if_false] at hopen
    cases e with
    | chunk ch p r =>
      cases hc : w.chunks with
      | none => simp [chunksWorkerStep, hs, hc] at hstep
      | some sub =>
        rw [step_chunk w sub ch p r hs hc] at hstep
        simp only [Option.some.injEq] at hstep
        subst hstep
        obtain ⟨d, hd, hnc⟩ := handleChunk_noControl w.svc ch p r
        refine ⟨?_, hlast, fun _ => htimer hs⟩
        simp only [hs, Bool.false_eq_true, if_false, openSubscriptions, hd, openAfter_append,
          openAfter_noControl d _ hnc]
        exact hopen
    | feedClosed =>
      cases hc : w.chunks with
      | none => simp [chunksWorkerStep, hs, hc] at hstep
      | some sub =>
        simp only [chunksWorkerStep, hs, hc, Bool.false_eq_true, if_false,
          Option.some.injEq] at hstep
        subst hstep
        refine ⟨?_, hlast, fun _ => rfl⟩
        simp only [hs, Bool.false_eq_true, if_false, openSubscriptions, Service.emit,
          openAfter_append, openAfter]
        exact hopen
    | timerC =>
      cases ht : w.timer with
      | none => simp [chunksWorkerStep, hs, ht] at hstep
      | some t =>
        simp only [chunksWorkerStep, hs, ht, Bool.false_eq_true, if_false,
          Option.some.injEq] at hstep
        subst hstep
        refine ⟨?_, by simp, fun _ => rfl⟩
        cases hu : w.unsubscribe with
        | none =>
          simp only [hu, Option.toList] at hopen
          simp [openSubscriptions, callUnsubscribe, hu, Service.emit, openAfter_append,
            openAfter, hs]
          simp [openSubscriptions] at hopen
          simp [hopen]
        | some sub =>
          simp only [hu, Option.toList] at hopen
          simp [openSubscriptions, callUnsubscribe, hu, Service.emit, openAfter_append,
            openAfter, hs]
          simp [openSubscriptions] at hopen
          simp [hopen]
    | quit =>
      simp only [chunksWorkerStep, hs, Bool.false_eq_true, if_false,
        Option.some.injEq] at hstep
      subst hstep
      refine ⟨?_, hlast, by simp⟩
      cases hu : w.unsubscribe with
      | none =>
        simp only [hu, Option.toList] at hopen
        simp [openSubscriptions, callUnsubscribe, hu, Service.emit, openAfter_append,
          openAfter]
        simp [openSubscriptions] at hopen
        simp [hopen]
      | some sub =>
        simp only [hu, Option.toList] at hopen
        simp [openSubscriptions, callUnsubscribe, hu, Service.emit, openAfter_append,
          openAfter]
        simp [openSubscriptions] at hopen
        simp [hopen]
theorem chunksWorker_subscription_invariant (es : List Event) (w w1 : Worker)
    (hrun : chunksWorker w es = some w1)
    (hopen : openSubscriptions w.svc.trace = if w.stopped then [] else w.unsubscribe.toList)
    (hlast : w.unsubscribe = if w.subscriptions = 0 then none else some (w.subscriptions - 1))
    (htimer : w.stopped = false → w.timer.isSome = true) :
    (openSubscriptions w1.svc.trace = if w1.stopped then [] else w1.unsubscribe.toList) ∧
    (w1.unsubscribe = if w1.subscriptions = 0 then none else some (w1.subscriptions - 1)) ∧
    (w1.stopped = false → w1.timer.isSome = true) := by
  induction es generalizing w with
  | nil =>
    simp only [chunksWorker, Option.some.injEq] at hrun
    subst hrun
    exact ⟨hopen, hlast, htimer⟩
  | cons e es ih =>
    simp only [chunksWorker] at hrun
    cases hs : chunksWorkerStep w e with
    | none => simp [hs] at hrun
    | some w2 =>
      rw [hs] at hrun
      obtain ⟨h1, h2, h3⟩ := step_subscription_invariant w w2 e hs hopen hlast htimer
      exact ih w2 hrun h1 h2 h3

theorem errorsIs_iff_mem_chain (err target : GoError) :
    errorsIs err target = true ↔ target ∈ errorChain err := by
  induction err with
  | sentinel i =>
    simp only [errorsIs, errorChain, decide_eq_true_eq, List.mem_singleton]
    exact eq_comm
  | wrap inner ih =>
    simp only [errorsIs, errorChain, Bool.or_eq_true, decide_eq_true_eq, List.mem_cons, ih]
    exact or_congr eq_comm Iff.rfl

/-- C11: in every state reached from a fresh service, a timer fire is serviced
while the worker runs; it first calls the cancel function of the subscription
opened last (if one was ever opened), then opens a new subscription with
`SubscribePush`, and re-arms the timer with `retryInterval`, 10 s; and at most
one opened subscription has not had its cancel function called. -/
theorem timer_fire_resubscribes (tags : Tags) (es : List Event) (w : Worker)
    (hrun : chunksWorker (New tags) es = some w) :
    (openSubscriptions w.svc.trace).length ≤ 1 ∧
    (w.unsubscribe = if w.subscriptions = 0 then none else some (w.subscriptions - 1)) ∧
    (w.stopped = false → ∃ w1, chunksWorkerStep w .timerC = some w1) ∧
    (∀ w1, chunksWorkerStep w .timerC = some w1 →
      w1.svc.trace = w.svc.trace ++ unsubscribeEffects w ++
        [.subscribePush w.subscriptions, .timerReset retryInterval,
         .metric .MarkAndSweepTimer] ∧
      w1.timer = some retryInterval ∧
      retryInterval = 10 * 1000000000 ∧
      openSubscriptions w1.svc.trace = [w.subscriptions]) := by
  obtain ⟨hopen, hlast, htimer⟩ :=
    chunksWorker_subscription_invariant es (New tags) w hrun rfl rfl (fun _ => rfl)
  refine ⟨?_, hlast, ?_, ?_⟩
  · rw [hopen]
    cases w.stopped <;> cases w.unsubscribe <;> simp
  · intro hs
    have ht := htimer hs
    cases hti : w.timer with
    | none => simp [hti] at ht
    | some t => exact ⟨_, by simp [chunksWorkerStep, hs, hti]; rfl⟩
  · intro w1 hstep
    obtain ⟨h1, _, _⟩ := step_subscription_invariant w w1 .timerC hstep hopen hlast htimer
    cases hs : w.stopped with
    | true => simp [chunksWorkerStep, hs] at hstep
    | false =>
      cases hti : w.timer with
      | none => simp [chunksWorkerStep, hs, hti] at hstep
      | some t =>
        simp only [chunksWorkerStep, hs, hti, Bool.false_eq_true, if_false,
          Option.some.injEq] at hstep
        subst hstep
        refine ⟨?_, rfl, rfl, ?_⟩
        · cases hu : w.unsubscribe <;>
            simp [callUnsubscribe, unsubscribeEffects, Service.emit, hu]
        · simpa [hs] using h1

/-- The scenario: a chunk is processed, the feed is exhausted, the timer fires. -/
theorem timer_fire_resubscribes_witness :
    ∃ w, chunksWorker (New tags7) [.timerC, .chunk chunkAA none none, .feedClosed] = some w ∧
      (openSubscriptions w.svc.trace).length ≤ 1 ∧
      (w.unsubscribe = if w.subscriptions = 0 then none else some (w.subscriptions - 1)) ∧
      (w.stopped = false → ∃ w1, chunksWorkerStep w .timerC = some w1) ∧
      (∀ w1, chunksWorkerStep w .timerC = some w1 →
        w1.svc.trace = w.svc.trace ++ unsubscribeEffects w ++
          [.subscribePush w.subscriptions, .timerReset retryInterval,
           .metric .MarkAndSweepTimer] ∧
        w1.timer = some retryInterval ∧
        retryInterval = 10 * 1000000000 ∧
        openSubscriptions w1.svc.trace = [w.subscriptions]) :=
  ⟨_, rfl,
    timer_fire_resubscribes tags7 [.timerC, .chunk chunkAA none none, .feedClosed] _ rfl⟩

/-- C12: from every state of the running worker the quit signal is serviced: the
cancel function of the open subscription (if any was opened) is called, the
completion channel `chunksWorkerQuitC` is closed and the worker is stopped; a
stopped worker services no event, so no run from it adds an effect. -/
theorem quit_stops_worker (w : Worker) (hrun : w.stopped = false) :
    ∃ w1, chunksWorkerStep w .quit = some w1 ∧
      w1.stopped = true ∧
      w1.svc.trace = w.svc.trace ++ unsubscribeEffects w ++ [.closeQuitC, .timerStop] ∧
      w1.svc.tag = w.svc.tag ∧
      (∀ ev, chunksWorkerStep w1 ev = none) ∧
      (∀ es w2, chunksWorker w1 es = some w2 → w2.svc.trace = w1.svc.trace) := by
  have hnone : ∀ (v : Worker), v.stopped = true → ∀ ev, chunksWorkerStep v ev = none := by
    intro v hv ev
    cases ev <;> simp [chunksWorkerStep, hv]
  refine ⟨_, by simp [chunksWorkerStep, hrun]; rfl, rfl, ?_, ?_, hnone _ rfl, ?_⟩
  · cases hu : w.unsubscribe <;> simp [callUnsubscribe, unsubscribeEffects, Service.emit, hu]
  · cases hu : w.unsubscribe <;> simp [callUnsubscribe, Service.emit, hu]
  · intro es w2 h
    cases es with
    | nil =>
      simp only [chunksWorker, Option.some.injEq] at h
      subst h
      rfl
    | cons e es =>
      simp only [chunksWorker] at h
      rw [hnone _ rfl e] at h
      simp at h

/-- The scenario: the freshly subscribed worker is told to quit. -/
theorem quit_stops_worker_witness :
    ∃ w1, chunksWorkerStep (workerAwaiting tags7) .quit = some w1 ∧
      w1.stopped = true ∧
      w1.svc.trace = (workerAwaiting tags7).svc.trace ++
        unsubscribeEffects (workerAwaiting tags7) ++ [.closeQuitC, .timerStop] ∧
      w1.svc.tag = (workerAwaiting tags7).svc.tag ∧
      (∀ ev, chunksWorkerStep w1 ev = none) ∧
      (∀ es w2, chunksWorker w1 es = some w2 → w2.svc.trace = w1.svc.trace) :=
  quit_stops_worker (workerAwaiting tags7) rfl

/-- C13: for every error of `PushChunkToClosest` the chunk step logs an error if
and only if `topology.ErrNotFound` is not in the chain of the error (the error
is not it and does not wrap it); in both cases the worker keeps running with
the same feed, cancel function and timer and services the same events. -/
theorem push_error_logging (w : Worker) (sub : Nat) (ch : Chunk) (err : GoError)
    (r : Option GoError) (hrun : w.stopped = false) (hfeed : w.chunks = some sub) :
    ∃ w1 d, chunksWorkerStep w (.chunk ch (some err) r) = some w1 ∧
      w1.svc.trace = w.svc.trace ++ d ∧
      (Effect.logErrorf .sendingChunk ∈ d ↔ topologyErrNotFound ∉ errorChain err) ∧
      (∀ site, Effect.logErrorf site ∈ d → site = .sendingChunk) ∧
      w1.stopped = false ∧ w1.chunks = w.chunks ∧ w1.unsubscribe = w.unsubscribe ∧
      w1.timer = w.timer ∧
      ∀ ev, (chunksWorkerStep w1 ev).isSome = (chunksWorkerStep w ev).isSome := by
  refine ⟨_, (handleChunk w.svc ch (some err) r).trace.drop w.svc.trace.length,
    step_chunk w sub ch (some err) r hrun hfeed, ?_, ?_, ?_, hrun, rfl, rfl, rfl, ?_⟩
  · cases ht : w.svc.tag ch.tagID <;> cases he : errorsIs err topologyErrNotFound <;>
      simp [handleChunk, Service.emit, Tags.Get, Tag.Inc, addUidToPushed, ht, he]
  · rw [← errorsIs_iff_mem_chain]
    cases ht : w.svc.tag ch.tagID <;> cases he : errorsIs err topologyErrNotFound <;>
      simp [handleChunk, Service.emit, Tags.Get, Tag.Inc, addUidToPushed, ht, he]
  · intro site
    cases ht : w.svc.tag ch.tagID <;> cases he : errorsIs err topologyErrNotFound <;>
      simp [handleChunk, Service.emit, Tags.Get, Tag.Inc, addUidToPushed, ht, he]
  · intro ev
    cases ev <;> simp [chunksWorkerStep, hrun, hfeed]
    cases w.timer <;> rfl

/-- The scenario: delivery of chunk `0xAA` fails with an error that wraps
`topology.ErrNotFound`. -/
theorem push_error_logging_witness :
    ∃ w1 d, chunksWorkerStep (workerAwaiting tags7)
        (.chunk chunkAA (some (.wrap topologyErrNotFound)) none) = some w1 ∧
      w1.svc.trace = (workerAwaiting tags7).svc.trace ++ d ∧
      (Effect.logErrorf .sendingChunk ∈ d ↔
        topologyErrNotFound ∉ errorChain (.wrap topologyErrNotFound)) ∧
      (∀ site, Effect.logErrorf site ∈ d → site = .sendingChunk) ∧
      w1.stopped = false ∧ w1.chunks = (workerAwaiting tags7).chunks ∧
      w1.unsubscribe = (workerAwaiting tags7).unsubscribe ∧
      w1.timer = (workerAwaiting tags7).timer ∧
      ∀ ev, (chunksWorkerStep w1 ev).isSome
        = (chunksWorkerStep (workerAwaiting tags7) ev).isSome :=
  push_error_logging (workerAwaiting tags7) 0 chunkAA (.wrap topologyErrNotFound) none rfl rfl

/-! ## Lemmas about the budget of the ledger -/

theorem budget_mono (F G : Finset Address) (s : Service) (h : LedgerBudget F s)
    (hsub : F ⊆ G) : LedgerBudget G s := by
  refine ⟨fun a ha => hsub (h.1 a ha), fun u c hc => ?_⟩
  have hle := h.2 u c hc
  have hfil : G.filter (fun a => s.pushed a = some u) ⊆ F.filter (fun a => s.pushed a = some u) := by
    intro a ha
    simp only [Finset.mem_filter] at ha ⊢
    exact ⟨h.1 a (by simp [ha.2]), ha.2⟩
  have := Finset.card_le_card hfil
  omega

theorem budget_dispatch (F : Finset Address) (s : Service) (a0 : Address) (u0 : Nat)
    (c0 : Counters) (h : LedgerBudget F s) (ht : s.tag u0 = some c0) :
    LedgerBudget (insert a0 F) (addUidToPushed (Tag.Inc ⟨u0⟩ .StateSent s) a0 u0) := by
  refine ⟨?_, ?_⟩
  · intro a ha
    by_cases haa : a = a0
    · simp [haa]
    · simp only [addUidToPushed, Tag.Inc, haa, if_false] at ha
      exact Finset.mem_insert_of_mem (h.1 a ha)
  · intro u c hc
    by_cases hu : u = u0
    · subst hu
      simp only [addUidToPushed, Tag.Inc, Tags.inc, if_true, ht, Option.some.injEq] at hc
      subst hc
      have hle := h.2 u c0 ht
      have hfil : (insert a0 F).filter
          (fun a => (addUidToPushed (Tag.Inc ⟨u⟩ .StateSent s) a0 u).pushed a = some u)
          ⊆ insert a0 (F.filter (fun a => s.pushed a = some u)) := by
        intro a ha
        simp only [Finset.mem_filter, Finset.mem_insert, addUidToPushed, Tag.Inc] at ha ⊢
        by_cases haa : a = a0
        · exact Or.inl haa
        · simp only [haa, if_false, false_or] at ha
          exact Or.inr ha
      have h1 := Finset.card_le_card hfil
      have h2 := Finset.card_insert_le a0 (F.filter (fun a => s.pushed a = some u))
      simp only at h1 h2 ⊢
      omega
    · simp only [addUidToPushed, Tag.Inc, Tags.inc, hu, if_false] at hc
      have hle := h.2 u c hc
      have hfil : (insert a0 F).filter
          (fun a => (addUidToPushed (Tag.Inc ⟨u0⟩ .StateSent s) a0 u0).pushed a = some u)
          ⊆ F.filter (fun a => s.pushed a = some u) := by
        intro a ha
        simp only [Finset.mem_filter, Finset.mem_insert, addUidToPushed, Tag.Inc] at ha ⊢
        by_cases haa : a = a0
        · simp only [haa, if_true, Option.some.injEq] at ha
          exact absurd ha.2.symm hu
        · simp only [haa, if_false, false_or] at ha
          exact ha
      have h1 := Finset.card_le_card hfil
      omega

theorem budget_complete (F : Finset Address) (s : Service) (a0 : Address) (u1 : Nat)
    (c1 : Counters) (h : LedgerBudget F s) (hp : s.pushed a0 = some u1)
    (ht : s.tag u1 = some c1) :
    LedgerBudget F (deleteUidFromPushed (Tag.Inc ⟨u1⟩ .StateSynced s) a0) := by
  have hdel : (deleteUidFromPushed (Tag.Inc ⟨u1⟩ .StateSynced s) a0).pushed
      = fun a => if a = a0 then none else s.pushed a := by
    simp [deleteUidFromPushed, Tag.Inc, hp]
  have htag : (deleteUidFromPushed (Tag.Inc ⟨u1⟩ .StateSynced s) a0).tag
      = s.tag.inc u1 .StateSynced := by
    simp [deleteUidFromPushed, Tag.Inc, hp]
  refine ⟨?_, ?_⟩
  · intro a ha
    rw [hdel] at ha
    by_cases haa : a = a0
    · simp [haa] at ha
    · simp only [haa, if_false] at ha
      exact h.1 a ha
  · intro u c hc
    rw [htag] at hc
    rw [hdel]
    have ha0 : a0 ∈ F := h.1 a0 (by simp [hp])
    by_cases hu : u = u1
    · subst hu
      simp only [Tags.inc, if_true, ht, Option.some.injEq] at hc
      subst hc
      have hle := h.2 u c1 ht
      have hmem : a0 ∈ F.filter (fun a => s.pushed a = some u) := by
        simp [ha0, hp]
      have hfil : F.filter (fun a => (if a = a0 then none else s.pushed a) = some u)
          ⊆ (F.filter (fun a => s.pushed a = some u)).erase a0 := by
        intro a ha
        simp only [Finset.mem_filter, Finset.mem_erase] at ha ⊢
        by_cases haa : a = a0
        · simp [haa] at ha
        · simp only [haa, if_false] at ha
          exact ⟨haa, ha⟩
      have h1 := Finset.card_le_card hfil
      have h2 := Finset.card_erase_of_mem hmem
      have h3 : 0 < (F.filter (fun a => s.pushed a = some u)).card :=
        Finset.card_pos.mpr ⟨a0, hmem⟩
      simp only at h1 h2 ⊢
      omega
    · simp only [Tags.inc, hu, if_false] at hc
      have hle := h.2 u c hc
      have hfil : F.filter (fun a => (if a = a0 then none else s.pushed a) = some u)
          ⊆ F.filter (fun a => s.pushed a = some u) := by
        intro a ha
        simp only [Finset.mem_filter] at ha ⊢
        by_cases haa : a = a0
        · simp [haa] at ha
        · simp only [haa, if_false] at ha
          exact ha
      have h1 := Finset.card_le_card hfil
      simp only at h1 ⊢
      omega
theorem setChunkAsSynced_budget (F : Finset Address) (s : Service) (r : Option GoError)
    (a0 : Address) (h : LedgerBudget F s) : LedgerBudget F (setChunkAsSynced s r a0) := by
  rcases r with _ | e
  · rcases hp : s.pushed a0 with _ | u1
    · have : setChunkAsSynced s none a0 =
          ((s.emit (.storerSet a0)).emit (.metric .TotalChunksSynced)).emit
            (.logDebugf .getUidFromPusher) := by
        simp [setChunkAsSynced, Service.emit, getUidFromPushed, hp]
      rw [this]
      exact h
    · rcases ht : s.tag u1 with _ | c1
      · have : setChunkAsSynced s none a0 =
            (s.emit (.storerSet a0)).emit (.metric .TotalChunksSynced) := by
          simp [setChunkAsSynced, Service.emit, getUidFromPushed, Tags.Get, errorsIs,
            tagsErrNotFound, hp, ht]
        rw [this]
        exact h
      · have : setChunkAsSynced s none a0 =
            deleteUidFromPushed (Tag.Inc ⟨u1⟩ .StateSynced
              ((s.emit (.storerSet a0)).emit (.metric .TotalChunksSynced))) a0 := by
          simp [setChunkAsSynced, Service.emit, getUidFromPushed, Tags.Get, hp, ht]
        rw [this]
        exact budget_complete F _ a0 u1 c1 h hp ht
  · exact h

theorem handleChunk_budget (F : Finset Address) (s : Service) (ch : Chunk)
    (p r : Option GoError) (h : LedgerBudget F s) :
    LedgerBudget (insert ch.address F) (handleChunk s ch p r) := by
  have hdisp : ∃ s1 : Service, LedgerBudget (insert ch.address F) s1 ∧
      handleChunk s ch p r =
        match p with
        | some err =>
          if !errorsIs err topologyErrNotFound then
            (s1.emit (.pushChunkToClosest ch.address)).emit (.logErrorf .sendingChunk)
          else s1.emit (.pushChunkToClosest ch.address)
        | none => setChunkAsSynced (s1.emit (.pushChunkToClosest ch.address)) r ch.address := by
    rcases ht : s.tag ch.tagID with _ | c0
    · refine ⟨(s.emit (.metric .TotalChunksToBeSentCounter)).emit (.logDebugf .getTagByUid),
        budget_mono F _ s h (Finset.subset_insert _ _), ?_⟩
      rcases p with _ | err <;> simp [handleChunk, Service.emit, Tags.Get, ht]
    · refine ⟨addUidToPushed (Tag.Inc ⟨ch.tagID⟩ .StateSent
          (s.emit (.metric .TotalChunksToBeSentCounter))) ch.address ch.tagID,
        budget_dispatch F _ ch.address ch.tagID c0 h ht, ?_⟩
      rcases p with _ | err <;> simp [handleChunk, Service.emit, Tags.Get, ht]
  obtain ⟨s1, h1, heq⟩ := hdisp
  rw [heq]
  rcases p with _ | err
  · exact setChunkAsSynced_budget _ _ r ch.address h1
  · cases he : errorsIs err topologyErrNotFound
    · simp only [he, Bool.not_false, if_true]
      exact h1
    · simp only [he, Bool.not_true, Bool.false_eq_true, if_false]
      exact h1

theorem step_budget (F : Finset Address) (w w1 : Worker) (e : Event)
    (hstep : chunksWorkerStep w e = some w1) (h : LedgerBudget F w.svc) :
    ∃ G, LedgerBudget G w1.svc := by
  cases hs : w.stopped with
  | true => cases e <;> simp [chunksWorkerStep, hs] at hstep
  | false =>
    cases e with
    | chunk ch p r =>
      cases hc : w.chunks with
      | none => simp [chunksWorkerStep, hs, hc] at hstep
      | some sub =>
        rw [step_chunk w sub ch p r hs hc] at hstep
        simp only [Option.some.injEq] at hstep
        subst hstep
        exact ⟨_, handleChunk_budget F w.svc ch p r h⟩
    | feedClosed =>
      cases hc : w.chunks with
      | none => simp [chunksWorkerStep, hs, hc] at hstep
      | some sub =>
        simp only [chunksWorkerStep, hs, hc, Bool.false_eq_true, if_false,
          Option.some.injEq] at hstep
        subst hstep
        exact ⟨F, h⟩
    | timerC =>
      cases ht : w.timer with
      | none => simp [chunksWorkerStep, hs, ht] at hstep
      | some t =>
        simp only [chunksWorkerStep, hs, ht, Bool.false_eq_true, if_false,
          Option.some.injEq] at hstep
        subst hstep
        refine ⟨F, ?_⟩
        cases hu : w.unsubscribe <;> simpa [callUnsubscribe, Service.emit, hu, LedgerBudget] using h
    | quit =>
      simp only [chunksWorkerStep, hs, Bool.false_eq_true, if_false,
        Option.some.injEq] at hstep
      subst hstep
      refine ⟨F, ?_⟩
      cases hu : w.unsubscribe <;> simpa [callUnsubscribe, Service.emit, hu, LedgerBudget] using h

theorem chunksWorker_budget (es : List Event) (F : Finset Address) (w w1 : Worker)
    (hrun : chunksWorker w es = some w1) (h : LedgerBudget F w.svc) :
    ∃ G, LedgerBudget G w1.svc := by
  induction es generalizing w F with
  | nil =>
    simp only [chunksWorker, Option.some.injEq] at hrun
    subst hrun
    exact ⟨F, h⟩
  | cons e es ih =>
    simp only [chunksWorker] at hrun
    cases hs : chunksWorkerStep w e with
    | none => simp [hs] at hrun
    | some w2 =>
      rw [hs] at hrun
      obtain ⟨G, hG⟩ := step_budget F w w2 e hs h
      exact ih G w2 hrun hG

/-! ## Lemmas about bytes and varints -/

theorem and_or_byte (v : Nat) : (v &&& 0x7f ||| 0x80) % 256 = v % 128 + 128 := by
  have h1 : v &&& 0x7f = v % 128 := Nat.and_pow_two_sub_one_eq_mod v 7
  have h2 : v % 128 < 2 ^ 7 := Nat.mod_lt _ (by norm_num)
  have h3 : 2 ^ 7 * 1 + v % 128 = 2 ^ 7 * 1 ||| v % 128 := Nat.mul_add_lt_is_or h2 1
  have h4 : v % 128 ||| 0x80 = v % 128 + 128 := by
    have h5 : 128 + v % 128 = 128 ||| v % 128 := by simpa using h3
    rw [Nat.or_comm, ← h5]
    omega
  rw [h1, h4]
  omega

theorem and_7f (b : Nat) : b &&& 0x7F = b % 128 :=
  Nat.and_pow_two_sub_one_eq_mod b 7

theorem and_7 (w : Nat) : w &&& 0x7 = w % 8 :=
  Nat.and_pow_two_sub_one_eq_mod w 3

theorem or_shift_eq_add (acc x k : Nat) (hacc : acc < 2 ^ k) :
    acc ||| x <<< k = acc + x * 2 ^ k := by
  rw [Nat.shiftLeft_eq, Nat.or_comm, Nat.mul_comm x, ← Nat.mul_add_lt_is_or hacc x]
  omega

theorem or_one_lt_iff (v n : Nat) (hn : 1 ≤ n) : v ||| 1 < 2 ^ n ↔ v < 2 ^ n := by
  obtain ⟨m, rfl⟩ : ∃ m, n = m + 1 := ⟨n - 1, by omega⟩
  have h3 := Nat.mul_add_lt_is_or (show 1 < 2 ^ 1 by norm_num) (v / 2)
  have hdiv : (v ||| 1) / 2 = v / 2 := by
    rw [Nat.or_div_two]
    simp
  rw [pow_succ]
  constructor
  · intro h
    have : (v ||| 1) / 2 < 2 ^ m := by omega
    rw [hdiv] at this
    omega
  · intro h
    have : v / 2 < 2 ^ m := by omega
    rw [← hdiv] at this
    omega

theorem or_one_pos (v : Nat) : 1 ≤ v ||| 1 := by
  have h : (v ||| 1).testBit 0 = true := by simp [Nat.testBit_or]
  by_contra hc
  have h0 : v ||| 1 = 0 := by omega
  rw [h0] at h
  simp at h
theorem lenBits_le_iff (fuel x n : Nat) (h : x < 2 ^ fuel) :
    lenBits fuel x ≤ n ↔ x < 2 ^ n := by
  induction fuel generalizing x n with
  | zero =>
    have hx : x = 0 := by simpa using h
    subst hx
    simp [lenBits]
  | succ fuel ih =>
    by_cases hx : x = 0
    · subst hx
      simp [lenBits]
    · simp only [lenBits, hx, if_false]
      cases n with
      | zero =>
        simp only [Nat.le_zero_eq, Nat.add_one_ne_zero, pow_zero, Nat.lt_one_iff, false_iff]
        exact hx
      | succ m =>
        have hlt : x / 2 < 2 ^ fuel := by
          rw [pow_succ] at h
          omega
        rw [Nat.succ_le_succ_iff, ih (x / 2) m hlt, pow_succ]
        omega

theorem sov_le_iff (v k : Nat) (hv : v < 2 ^ 64) :
    sovPushsync v ≤ k ↔ 1 ≤ k ∧ v < 2 ^ (7 * k) := by
  have hor : v ||| 1 < 2 ^ 64 := (or_one_lt_iff v 64 (by norm_num)).mpr hv
  have hiff := lenBits_le_iff 64 (v ||| 1) (7 * k) hor
  have hpos := or_one_pos v
  unfold sovPushsync Len64
  cases k with
  | zero =>
    simp only [Nat.le_zero_eq, Nat.mul_zero, pow_zero, Nat.lt_one_iff] at hiff ⊢
    omega
  | succ m =>
    rw [← or_one_lt_iff v (7 * (m + 1)) (by omega), ← hiff]
    omega

theorem sov_pos (v : Nat) (hv : v < 2 ^ 64) : 1 ≤ sovPushsync v := by
  by_contra h
  have h0 : sovPushsync v ≤ 0 := by omega
  have := (sov_le_iff v 0 hv).mp h0
  omega

theorem sov_lt (v : Nat) (hv : v < 2 ^ 64) : v < 2 ^ (7 * sovPushsync v) :=
  ((sov_le_iff v (sovPushsync v) hv).mp (le_refl _)).2

theorem sov_small (v : Nat) (hv : v < 128) : sovPushsync v = 1 := by
  have h64 : v < 2 ^ 64 := by omega
  have h1 : sovPushsync v ≤ 1 := (sov_le_iff v 1 h64).mpr ⟨le_refl _, by norm_num; omega⟩
  have h2 := sov_pos v h64
  omega

theorem sov_step (v : Nat) (hv : v < 2 ^ 64) (hbig : 128 ≤ v) :
    sovPushsync v = sovPushsync (v / 128) + 1 := by
  have hd : v / 128 < 2 ^ 64 := by omega
  apply Nat.le_antisymm
  · rw [sov_le_iff v _ hv]
    refine ⟨by omega, ?_⟩
    have := sov_lt (v / 128) hd
    rw [Nat.mul_add, pow_add]
    norm_num
    omega
  · have hp := sov_pos v hv
    have hl := sov_lt v hv
    have h2 : 2 ≤ sovPushsync v := by
      by_contra hc
      have h1 : sovPushsync v = 1 := by omega
      rw [h1] at hl
      norm_num at hl
      omega
    obtain ⟨t, ht⟩ : ∃ t, sovPushsync v = t + 1 := ⟨sovPushsync v - 1, by omega⟩
    rw [ht] at hl ⊢
    have : sovPushsync (v / 128) ≤ t := by
      rw [sov_le_iff (v / 128) t hd]
      refine ⟨by omega, ?_⟩
      rw [Nat.mul_add, pow_add] at hl
      norm_num at hl
      omega
    omega

theorem varint_length (fuel v : Nat) (hf : v < 128 ^ (fuel + 1)) (hv : v < 2 ^ 64) :
    (varint (fuel + 1) v).length = sovPushsync v := by
  induction fuel generalizing v with
  | zero =>
    have h : v < 128 := by simpa using hf
    simp [varint, h, sov_small v h]
  | succ fuel ih =>
    by_cases h : v < 128
    · simp [varint, h, sov_small v h]
    · have hd : v / 128 < 128 ^ (fuel + 1) := by
        rw [pow_succ] at hf
        omega
      rw [varint, if_neg h, List.length_cons, ih (v / 128) hd (by omega),
        sov_step v hv (by omega)]

theorem varint10_length (v : Nat) (hv : v < 2 ^ 64) :
    (varint 10 v).length = sovPushsync v :=
  varint_length 9 v (by norm_num; omega) hv
/-! ## Lemmas about writing into the buffer -/

theorem writeByte_append (pre post : List Nat) (z b : Nat) :
    writeByte (pre ++ z :: post) (pre.length : Int) b = .ok (pre ++ b :: post) := by
  simp [writeByte]

theorem copyAt_append (pre mid post src : List Nat) (h : mid.length = src.length) :
    copyAt (pre ++ mid ++ post) (pre.length : Int) src = .ok (pre ++ src ++ post) := by
  have h1 : (0 : Int) ≤ (pre.length : Int) := Int.natCast_nonneg _
  have h2 : (pre.length : Int) ≤ ((pre ++ mid ++ post).length : Int) := by
    simp only [List.length_append, Nat.cast_add]
    omega
  simp only [copyAt, h1, h2, and_self, if_true, Int.toNat_ofNat, Except.ok.injEq]
  have hmin : min ((pre ++ mid ++ post).length - pre.length) src.length = src.length := by
    simp only [List.length_append]
    omega
  rw [hmin, List.take_of_length_le (le_refl _)]
  simp [List.append_assoc, List.take_append_eq_append_take, List.drop_append_eq_append_drop, h]

theorem encodeVarintLoop_append (fuel v : Nat) (pre zs post : List Nat)
    (hf : v < 128 ^ (fuel + 1)) (hz : zs.length = (varint (fuel + 1) v).length) :
    encodeVarintLoop (fuel + 1) (pre ++ zs ++ post) (pre.length : Int) v
      = .ok (pre ++ varint (fuel + 1) v ++ post) := by
  induction fuel generalizing v pre zs with
  | zero =>
    have h : v < 128 := by simpa using hf
    have hz1 : zs.length = 1 := by simpa [varint, h] using hz
    obtain ⟨z, rfl⟩ := List.length_eq_one.mp hz1
    have hnot : ¬ v ≥ 1 <<< 7 := by
      rw [Nat.one_shiftLeft]
      omega
    have hmod : v % 256 = v := by omega
    simp only [encodeVarintLoop, hnot, if_false, hmod, varint, h, if_true]
    simpa using writeByte_append pre post z v
  | succ fuel ih =>
    by_cases h : v < 128
    · have hz1 : zs.length = 1 := by simpa [varint, h] using hz
      obtain ⟨z, rfl⟩ := List.length_eq_one.mp hz1
      have hnot : ¬ v ≥ 1 <<< 7 := by
        rw [Nat.one_shiftLeft]
        omega
      have hmod : v % 256 = v := by omega
      rw [encodeVarintLoop]
      simp only [hnot, if_false, hmod]
      rw [varint, if_pos h]
      simpa using writeByte_append pre post z v
    · have hge : v ≥ 1 <<< 7 := by
        rw [Nat.one_shiftLeft]
        omega
      have hd : v / 128 < 128 ^ (fuel + 1) := by
        rw [pow_succ] at hf
        omega
      rw [varint, if_neg h] at hz ⊢
      obtain ⟨z, zs1, rfl⟩ : ∃ z zs1, zs = z :: zs1 := by
        cases zs with
        | nil => simp at hz
        | cons z zs1 => exact ⟨z, zs1, rfl⟩
      have hz1 : zs1.length = (varint (fuel + 1) (v / 128)).length := by simpa using hz
      rw [encodeVarintLoop]
      simp only [hge, if_true, and_or_byte]
      have hw := writeByte_append pre (zs1 ++ post) z (v % 128 + 128)
      simp only [List.append_assoc, List.cons_append] at hw ⊢
      rw [hw]
      have hshift : v >>> 7 = v / 128 := by
        rw [Nat.shiftRight_eq_div_pow]
      have hrec := ih (v / 128) (pre ++ [v % 128 + 128]) zs1 hd hz1
      rw [hshift]
      simpa using hrec
theorem slice_all (l : List Nat) : slice l 0 l.length = .ok l := by
  simp [slice]

theorem marshalUnrecognized_eq (m : Delivery) (pre zu : List Nat)
    (hzu : zu.length = m.XXX_unrecognized.length) :
    marshalUnrecognized m ((pre ++ zu).length : Int) (pre ++ zu)
      = .ok ((pre.length : Int), pre ++ m.XXX_unrecognized) := by
  by_cases hu : m.XXX_unrecognized = []
  · have hzu0 : zu = [] := List.length_eq_zero.mp (by simpa [hu] using hzu)
    simp [marshalUnrecognized, hu, hzu0]
  · have hi : (((pre ++ zu).length : Int) - (m.XXX_unrecognized.length : Int))
        = (pre.length : Int) := by
      simp only [List.length_append, Nat.cast_add, hzu]
      omega
    have hc := copyAt_append pre zu [] m.XXX_unrecognized hzu
    simp only [List.append_nil] at hc
    simp only [marshalUnrecognized, hu, ne_eq, not_false_eq_true, if_true, hi, hc]

theorem marshalData_eq (m : Delivery) (z0 : Nat) (zs zd post : List Nat)
    (hl : m.Data.length < 2 ^ 64) (hne : m.Data ≠ [])
    (hzs : zs.length = sovPushsync m.Data.length) (hzd : zd.length = m.Data.length) :
    marshalData m ((z0 :: (zs ++ zd)).length : Int) (z0 :: (zs ++ zd) ++ post)
      = .ok (0, 0x0A :: (varint 10 m.Data.length ++ (m.Data ++ post))) := by
  have hpos : m.Data.length > 0 := List.length_pos.mpr hne
  have hmod : m.Data.length % 2 ^ 64 = m.Data.length := Nat.mod_eq_of_lt hl
  have e2 : copyAt (z0 :: (zs ++ zd) ++ post)
      (((z0 :: (zs ++ zd)).length : Int) - (m.Data.length : Int)) m.Data
      = .ok (z0 :: (zs ++ (m.Data ++ post))) := by
    have hi : (((z0 :: (zs ++ zd)).length : Int) - (m.Data.length : Int))
        = ((z0 :: zs).length : Int) := by
      simp only [List.length_cons, List.length_append, Nat.cast_add, Nat.cast_one, hzd]
      omega
    have hc := copyAt_append (z0 :: zs) zd post m.Data hzd
    simp only [List.cons_append, List.append_assoc] at hc ⊢
    rw [hi, hc]
  have e3 : encodeVarintPushsync (z0 :: (zs ++ (m.Data ++ post)))
      (((z0 :: (zs ++ zd)).length : Int) - (m.Data.length : Int)) m.Data.length
      = .ok (z0 :: (varint 10 m.Data.length ++ (m.Data ++ post)), 1) := by
    have hi : (((z0 :: (zs ++ zd)).length : Int) - (m.Data.length : Int))
        - (sovPushsync m.Data.length : Int) = (([z0] : List Nat).length : Int) := by
      simp only [List.length_cons, List.length_append, Nat.cast_add, Nat.cast_one, hzd, hzs,
        List.length_nil, Nat.cast_zero]
      omega
    have hz : zs.length = (varint (9 + 1) m.Data.length).length := by
      rw [hzs]
      exact (varint10_length m.Data.length hl).symm
    have hc := encodeVarintLoop_append 9 m.Data.length [z0] zs
      (m.Data ++ post) (by norm_num; omega) hz
    unfold encodeVarintPushsync
    simp only [hi]
    simp only [List.singleton_append, List.cons_append, List.append_assoc, List.nil_append,
      List.length_singleton, Nat.cast_one, Nat.reduceAdd] at hc ⊢
    rw [hc]
  have e4 : writeByte (z0 :: (varint 10 m.Data.length ++ (m.Data ++ post)))
      (0 : Int) 0xa
      = .ok (0x0A :: (varint 10 m.Data.length ++ (m.Data ++ post))) := by
    have := writeByte_append [] (varint 10 m.Data.length ++ (m.Data ++ post)) z0 0xa
    simpa using this
  unfold marshalData
  simp only [hpos, if_true, e2, hmod, e3, e4, sub_self]

theorem marshalData_nil (m : Delivery) (i : Int) (dAtA : List Nat) (hnil : m.Data = []) :
    marshalData m i dAtA = .ok (i, dAtA) := by
  simp [marshalData, hnil]

theorem size_eq (m : Delivery) (hl : m.Data.length < 2 ^ 64) :
    m.Size = (encodeData m.Data ++ m.XXX_unrecognized).length := by
  have hmod2 : m.Data.length % 18446744073709551616 = m.Data.length := by
    simpa using Nat.mod_eq_of_lt hl
  by_cases hd : m.Data = []
  · by_cases h : m.XXX_unrecognized = [] <;> simp [Delivery.Size, hd, h, encodeData]
  · have hpos : m.Data.length > 0 := List.length_pos.mpr hd
    by_cases h : m.XXX_unrecognized = [] <;>
      simp [Delivery.Size, hpos, hmod2, h, encodeData, hd, varint10_length m.Data.length hl] <;>
      omega

theorem marshalToSizedBuffer_full (m : Delivery) (hl : m.Data.length < 2 ^ 64) :
    m.MarshalToSizedBuffer (List.replicate m.Size 0)
      = .ok (m.Size, encodeData m.Data ++ m.XXX_unrecognized) := by
  have hsz := size_eq m hl
  by_cases hd : m.Data = []
  · have hsize : m.Size = m.XXX_unrecognized.length := by
      simpa [encodeData, hd] using hsz
    have h1 := marshalUnrecognized_eq m [] (List.replicate m.XXX_unrecognized.length 0)
      (by simp)
    simp only [List.nil_append, List.length_nil, Nat.cast_zero] at h1
    simp only [Delivery.MarshalToSizedBuffer, hsize, h1,
      marshalData_nil m _ _ hd, encodeData, hd, if_true, List.nil_append, sub_zero,
      Int.toNat_ofNat]
  · have hsize : m.Size
        = 1 + (sovPushsync m.Data.length + m.Data.length) + m.XXX_unrecognized.length := by
      simp only [hsz, encodeData, hd, if_false, List.length_cons, List.length_append,
        varint10_length m.Data.length hl]
      omega
    have hrep : List.replicate m.Size 0
        = (0 :: (List.replicate (sovPushsync m.Data.length) 0
          ++ List.replicate m.Data.length 0))
            ++ List.replicate m.XXX_unrecognized.length 0 := by
      rw [hsize, List.replicate_add, List.replicate_add, List.replicate_add]
      rfl
    have h1 := marshalUnrecognized_eq m
      (0 :: (List.replicate (sovPushsync m.Data.length) 0 ++ List.replicate m.Data.length 0))
      (List.replicate m.XXX_unrecognized.length 0) (by simp)
    have h2 := marshalData_eq m 0 (List.replicate (sovPushsync m.Data.length) 0)
      (List.replicate m.Data.length 0) m.XXX_unrecognized hl hd (by simp) (by simp)
    have hlen : (0x0A :: (varint 10 m.Data.length ++ (m.Data ++ m.XXX_unrecognized))).length
        = m.Size := by
      simp only [List.length_cons, List.length_append, varint10_length m.Data.length hl, hsize]
      omega
    rw [hrep, Delivery.MarshalToSizedBuffer, h1]
    simp only [h2, encodeData, hd, if_false, sub_zero, Int.toNat_ofNat, hlen]
    simp

theorem marshal_eq (m : Delivery) (hl : m.Data.length < 2 ^ 64) :
    m.Marshal = .ok (encodeData m.Data ++ m.XXX_unrecognized) ∧
    m.Size = (encodeData m.Data ++ m.XXX_unrecognized).length := by
  have hsz := size_eq m hl
  refine ⟨?_, hsz⟩
  rw [Delivery.Marshal]
  simp only [marshalToSizedBuffer_full m hl]
  rw [hsz]
  exact slice_all _
/-! ## Lemmas about reading varints -/

theorem readByte_append (pre rest : List Nat) (b : Nat) :
    readByte (pre ++ b :: rest) pre.length = .ok b := by
  have h : (pre ++ b :: rest)[pre.length]? = some b := by
    rw [List.getElem?_append_right (le_refl _)]
    simp
  simp only [readByte, h]

theorem decodeVarint_varint (f : Nat) :
    ∀ (fuelD k v acc : Nat) (pre post : List Nat),
      v < 128 ^ (f + 1) → (varint (f + 1) v).length ≤ fuelD → 7 * k < 64 →
      acc < 2 ^ (7 * k) → acc + v * 2 ^ (7 * k) < 2 ^ 64 →
      decodeVarint (pre ++ (varint (f + 1) v ++ post)) fuelD (7 * k) pre.length acc
        = .ok (acc + v * 2 ^ (7 * k), pre.length + (varint (f + 1) v).length) := by
  induction f with
  | zero =>
    intro fuelD k v acc pre post hv hfuel hk hacc hsum
    have h : v < 128 := by simpa using hv
    have hvar : varint (0 + 1) v = [v] := by simp [varint, h]
    rw [hvar] at hfuel ⊢
    obtain ⟨fd, rfl⟩ : ∃ fd, fuelD = fd + 1 := ⟨fuelD - 1, by simp at hfuel; omega⟩
    have hlen : ¬ pre.length ≥ (pre ++ ([v] ++ post)).length := by simp
    have hshift : ¬ 7 * k ≥ 64 := by omega
    have hb : v &&& 0x7F = v := by rw [and_7f]; omega
    have hw : acc ||| (v <<< (7 * k)) % 2 ^ 64 = acc + v * 2 ^ (7 * k) := by
      have : v <<< (7 * k) < 2 ^ 64 := by rw [Nat.shiftLeft_eq]; omega
      rw [Nat.mod_eq_of_lt this, or_shift_eq_add acc v (7 * k) hacc]
    have hr := readByte_append pre post v
    simp only [List.singleton_append] at hlen ⊢
    rw [decodeVarint]
    simp only [hshift, hlen, if_false, hr, hb, hw, h, if_true, List.length_singleton]
  | succ f ih =>
    intro fuelD k v acc pre post hv hfuel hk hacc hsum
    by_cases h : v < 128
    · have hvar : varint (f + 1 + 1) v = [v] := by simp [varint, h]
      rw [hvar] at hfuel ⊢
      obtain ⟨fd, rfl⟩ : ∃ fd, fuelD = fd + 1 := ⟨fuelD - 1, by simp at hfuel; omega⟩
      have hlen : ¬ pre.length ≥ (pre ++ ([v] ++ post)).length := by simp
      have hshift : ¬ 7 * k ≥ 64 := by omega
      have hb : v &&& 0x7F = v := by rw [and_7f]; omega
      have hw : acc ||| (v <<< (7 * k)) % 2 ^ 64 = acc + v * 2 ^ (7 * k) := by
        have : v <<< (7 * k) < 2 ^ 64 := by rw [Nat.shiftLeft_eq]; omega
        rw [Nat.mod_eq_of_lt this, or_shift_eq_add acc v (7 * k) hacc]
      have hr := readByte_append pre post v
      simp only [List.singleton_append] at hlen ⊢
      rw [decodeVarint]
      simp only [hshift, hlen, if_false, hr, hb, hw, h, if_true, List.length_singleton]
    · have hvar : varint (f + 1 + 1) v = (v % 128 + 128) :: varint (f + 1) (v / 128) := by
        rw [varint, if_neg h]
      rw [hvar] at hfuel ⊢
      obtain ⟨fd, rfl⟩ : ∃ fd, fuelD = fd + 1 := ⟨fuelD - 1, by simp at hfuel; omega⟩
      have hfd : (varint (f + 1) (v / 128)).length ≤ fd := by simpa using hfuel
      have hlen : ¬ pre.length ≥
          (pre ++ ((v % 128 + 128) :: varint (f + 1) (v / 128) ++ post)).length := by simp
      have hshift : ¬ 7 * k ≥ 64 := by omega
      have hb : (v % 128 + 128) &&& 0x7F = v % 128 := by rw [and_7f]; omega
      have hP : 0 < 2 ^ (7 * k) := Nat.two_pow_pos _
      have hsplit : v * 2 ^ (7 * k)
          = (v % 128) * 2 ^ (7 * k) + (v / 128) * 2 ^ (7 * (k + 1)) := by
        have hv2 : v = 128 * (v / 128) + v % 128 := (Nat.div_add_mod v 128).symm
        have hpow : 2 ^ (7 * (k + 1)) = 128 * 2 ^ (7 * k) := by
          rw [Nat.mul_add, pow_add]
          norm_num
          ring
        rw [hpow]
        conv_lhs => rw [hv2]
        ring
      have hle : (v % 128) * 2 ^ (7 * k) ≤ v * 2 ^ (7 * k) :=
        Nat.mul_le_mul_right _ (Nat.mod_le v 128)
      have hw : acc ||| ((v % 128) <<< (7 * k)) % 2 ^ 64 = acc + (v % 128) * 2 ^ (7 * k) := by
        have : (v % 128) <<< (7 * k) < 2 ^ 64 := by rw [Nat.shiftLeft_eq]; omega
        rw [Nat.mod_eq_of_lt this, or_shift_eq_add acc (v % 128) (7 * k) hacc]
      have hk1 : 7 * (k + 1) < 64 := by
        have h128 : 128 * 2 ^ (7 * k) ≤ v * 2 ^ (7 * k) :=
          Nat.mul_le_mul_right _ (by omega)
        have hpow : 2 ^ (7 * k + 7) < 2 ^ 64 := by
          rw [pow_add]
          norm_num
          omega
        have := (Nat.pow_lt_pow_iff_right (by norm_num : 1 < 2)).mp hpow
        omega
      have hacc1 : acc + (v % 128) * 2 ^ (7 * k) < 2 ^ (7 * (k + 1)) := by
        have hpow : 2 ^ (7 * (k + 1)) = 128 * 2 ^ (7 * k) := by
          rw [Nat.mul_add, pow_add]
          norm_num
          ring
        rw [hpow]
        have hm : v % 128 ≤ 127 := by omega
        have := Nat.mul_le_mul_right (2 ^ (7 * k)) hm
        omega
      have hd : v / 128 < 128 ^ (f + 1) := by
        rw [pow_succ] at hv
        omega
      have hrec := ih fd (k + 1) (v / 128) (acc + (v % 128) * 2 ^ (7 * k))
        (pre ++ [v % 128 + 128]) post hd hfd hk1 hacc1 (by omega)
      have hr := readByte_append pre (varint (f + 1) (v / 128) ++ post) (v % 128 + 128)
      have hnb : ¬ v % 128 + 128 < 0x80 := by omega
      simp only [List.cons_append] at hlen hr ⊢
      rw [decodeVarint]
      simp only [hshift, hlen, if_false, hr, hb, hw, hnb]
      have h7 : 7 * k + 7 = 7 * (k + 1) := by ring
      rw [h7]
      simp only [List.append_assoc, List.singleton_append, List.length_append,
        List.length_singleton] at hrec
      rw [hrec, hsplit, List.length_cons]
      simp only [Except.ok.injEq, Prod.mk.injEq]
      constructor <;> omega

theorem decodeVarint_varint10 (v : Nat) (pre post : List Nat) (hv : v < 2 ^ 64) :
    decodeVarint (pre ++ (varint 10 v ++ post)) 11 0 pre.length 0
      = .ok (v, pre.length + (varint 10 v).length) := by
  have hlen : (varint (9 + 1) v).length ≤ 11 := by
    rw [varint_length 9 v (by norm_num; omega) hv]
    have := (sov_le_iff v 10 hv).mpr ⟨by norm_num, by norm_num; omega⟩
    omega
  have := decodeVarint_varint 9 11 0 v 0 pre post (by norm_num; omega) hlen (by norm_num)
    (by norm_num) (by simpa using hv)
  simpa using this
/-! ## The round trip -/

theorem unmarshalField_data (d post : List Nat) (m : Delivery)
    (hl : (0x0A :: (varint 10 d.length ++ d)).length + post.length < 2 ^ 63) :
    unmarshalField (0x0A :: (varint 10 d.length ++ (d ++ post))) m 0
      = .ok ({ m with Data := d }, (0x0A :: (varint 10 d.length ++ d)).length, 1) := by
  have hd : d.length < 2 ^ 64 := by
    simp only [List.length_cons, List.length_append] at hl
    omega
  have h1 : decodeVarint (0x0A :: (varint 10 d.length ++ (d ++ post))) 11 0 0 0
      = .ok (0x0A, 1) := by
    have h10 : (0 : Nat) ||| ((0x0A &&& 0x7F) <<< 0) % 2 ^ 64 = 0x0A := by decide
    rw [decodeVarint]
    simp only [readByte, List.length_cons, List.getElem?_cons_zero, h10]
    simp
  have hfn : ((0x0A : Nat) >>> 3) % 2 ^ 32 = 1 := by decide
  have hwt : (0x0A : Nat) &&& 0x7 = 2 := by decide
  have h2 : decodeVarint (0x0A :: (varint 10 d.length ++ (d ++ post))) 11 0 1 0
      = .ok (d.length, 1 + (varint 10 d.length).length) := by
    have := decodeVarint_varint10 d.length [0x0A] (d ++ post) hd
    simpa using this
  have hpost : (1 + (varint 10 d.length).length + d.length) % 2 ^ 64
      = 1 + (varint 10 d.length).length + d.length := by
    apply Nat.mod_eq_of_lt
    simp only [List.length_cons, List.length_append] at hl
    omega
  have h3 : ¬ d.length ≥ 2 ^ 63 := by
    simp only [List.length_cons, List.length_append] at hl
    omega
  have h4 : ¬ 1 + (varint 10 d.length).length + d.length ≥ 2 ^ 63 := by
    simp only [List.length_cons, List.length_append] at hl
    omega
  have h5 : ¬ 1 + (varint 10 d.length).length + d.length
      > (0x0A :: (varint 10 d.length ++ (d ++ post))).length := by
    simp only [List.length_cons, List.length_append]
    omega
  have h6 : slice (0x0A :: (varint 10 d.length ++ (d ++ post)))
      (1 + (varint 10 d.length).length) (1 + (varint 10 d.length).length + d.length)
      = .ok d := by
    have hle : 1 + (varint 10 d.length).length ≤ 1 + (varint 10 d.length).length + d.length ∧
        1 + (varint 10 d.length).length + d.length
          ≤ (0x0A :: (varint 10 d.length ++ (d ++ post))).length := by
      simp only [List.length_cons, List.length_append]
      omega
    simp only [slice, hle, and_self, if_true, Except.ok.injEq]
    have e1 : (0x0A :: (varint 10 d.length ++ (d ++ post)))
        = (0x0A :: (varint 10 d.length ++ d)) ++ post := by simp
    have e2 : 1 + (varint 10 d.length).length + d.length
        = (0x0A :: (varint 10 d.length ++ d)).length := by
      simp only [List.length_cons, List.length_append]
      omega
    rw [e1, e2, List.take_left']
    · have e3 : (0x0A :: (varint 10 d.length ++ d)) = (0x0A :: varint 10 d.length) ++ d := by
        simp
      have e4 : 1 + (varint 10 d.length).length = (0x0A :: varint 10 d.length).length := by
        simp only [List.length_cons]
        omega
      rw [e3, e4, List.drop_left']
      rfl
    · rfl
  have hlen : (0x0A :: (varint 10 d.length ++ d)).length
      = 1 + (varint 10 d.length).length + d.length := by
    simp only [List.length_cons, List.length_append]
    omega
  unfold unmarshalField
  simp only [h1, hfn, hwt, h2, hpost, h3, h4, h5, h6, hlen, if_false]
  simp

theorem unmarshalLoop_end (dAtA : List Nat) (fuel : Nat) (m : Delivery) (h : 0 < fuel) :
    unmarshalLoop dAtA fuel m dAtA.length = .ok m := by
  obtain ⟨n, rfl⟩ : ∃ n, fuel = n + 1 := ⟨fuel - 1, by omega⟩
  simp [unmarshalLoop]

/-- C15: for every byte sequence `d` whose encoding is a Go slice (its length
fits in an `int`), `Marshal` of the message with data `d` succeeds and
`Unmarshal` of the result into a fresh message succeeds and yields the data `d`
and no unrecognized bytes. -/
theorem unmarshal_marshal (d : List Nat) (hl : (encodeData d).length < 2 ^ 63) :
    ∃ b, Delivery.Marshal { Data := d, XXX_unrecognized := [] } = .ok b ∧
      Delivery.Unmarshal { Data := [], XXX_unrecognized := [] } b
        = .ok { Data := d, XXX_unrecognized := [] } := by
  by_cases hd : d = []
  · subst hd
    refine ⟨[], ?_, ?_⟩
    · have := (marshal_eq { Data := [], XXX_unrecognized := [] } (by simp)).1
      simpa [encodeData] using this
    · simp [Delivery.Unmarshal, unmarshalLoop]
  · have henc : encodeData d = 0x0A :: (varint 10 d.length ++ d) := by
      simp [encodeData, hd]
    rw [henc] at hl
    have hd64 : d.length < 2 ^ 64 := by
      simp only [List.length_cons, List.length_append] at hl
      omega
    refine ⟨0x0A :: (varint 10 d.length ++ d), ?_, ?_⟩
    · have := (marshal_eq { Data := d, XXX_unrecognized := [] } hd64).1
      simpa [henc] using this
    · have hf := unmarshalField_data d [] { Data := [], XXX_unrecognized := [] }
        (by simpa using hl)
      simp only [List.append_nil] at hf
      have hpos : 0 < (0x0A :: (varint 10 d.length ++ d)).length := by simp
      unfold Delivery.Unmarshal
      rw [unmarshalLoop]
      simp only [hpos, if_true, hf]
      exact unmarshalLoop_end _ _ _ hpos

/-- The scenario: the data bytes 1, 2, 3. -/
theorem unmarshal_marshal_witness :
    ∃ b, Delivery.Marshal { Data := [1, 2, 3], XXX_unrecognized := [] } = .ok b ∧
      Delivery.Unmarshal { Data := [], XXX_unrecognized := [] } b
        = .ok { Data := [1, 2, 3], XXX_unrecognized := [] } :=
  unmarshal_marshal [1, 2, 3] (by decide)
theorem varintValue_varint (f v : Nat) (hv : v < 128 ^ (f + 1)) :
    varintValue (varint (f + 1) v) = v ∧ ∀ b ∈ varint (f + 1) v, b < 256 := by
  induction f generalizing v with
  | zero =>
    have h : v < 128 := by simpa using hv
    simp only [varint, h, if_true, varintValue, List.mem_singleton]
    refine ⟨by omega, fun b hb => by omega⟩
  | succ f ih =>
    by_cases h : v < 128
    · simp only [varint, h, if_true, varintValue, List.mem_singleton]
      refine ⟨by omega, fun b hb => by omega⟩
    · have hd : v / 128 < 128 ^ (f + 1) := by
        rw [pow_succ] at hv
        omega
      obtain ⟨h1, h2⟩ := ih (v / 128) hd
      rw [varint, if_neg h]
      refine ⟨?_, ?_⟩
      · simp only [varintValue, h1]
        omega
      · intro b hb
        rcases List.mem_cons.mp hb with rfl | hb
        · omega
        · exact h2 b hb

/-- C14: for every message without unrecognized bytes (its data a Go slice),
`Marshal` returns no error; it returns the empty byte string when the data is
empty and otherwise the byte `0x0A`, the base-128 varint of the length of the
data (it stands for that length and consists of bytes), and the data. -/
theorem marshal_exact (d : List Nat) (hl : d.length < 2 ^ 63) :
    Delivery.Marshal { Data := d, XXX_unrecognized := [] }
      = .ok (if d = [] then [] else 0x0A :: (varint 10 d.length ++ d)) ∧
    varintValue (varint 10 d.length) = d.length ∧
    ∀ b ∈ varint 10 d.length, b < 256 := by
  have h64 : d.length < 2 ^ 64 := by omega
  have h := (marshal_eq { Data := d, XXX_unrecognized := [] } h64).1
  have hv := varintValue_varint 9 d.length (by norm_num; omega)
  refine ⟨?_, hv.1, hv.2⟩
  simpa [encodeData] using h

/-- The scenario: 300 data bytes, whose length takes a varint of two bytes. -/
theorem marshal_exact_witness :
    Delivery.Marshal { Data := List.replicate 300 7, XXX_unrecognized := [] }
      = .ok (if List.replicate 300 7 = [] then []
          else 0x0A :: (varint 10 (List.replicate 300 7).length ++ List.replicate 300 7)) ∧
    varintValue (varint 10 (List.replicate 300 7).length) = (List.replicate 300 7).length ∧
    ∀ b ∈ varint 10 (List.replicate 300 7).length, b < 256 :=
  marshal_exact (List.replicate 300 7) (by rw [List.length_replicate]; norm_num)

/-- C19: for every message (its data a Go slice), `Size` is the length of what
`Marshal` returns, and `MarshalToSizedBuffer` on a buffer of that size returns
the count `Size` with the buffer filled from index 0, without a write outside
the buffer; for every 64-bit `x`, `sovPushsync x` is the least `n >= 1` with
`x < 2^(7n)` and the number of bytes `encodeVarintPushsync` writes for `x`. -/
theorem size_eq_marshal_length (m : Delivery) (hl : m.Data.length < 2 ^ 63) :
    (∃ out, m.Marshal = .ok out ∧ m.Size = out.length ∧
      m.MarshalToSizedBuffer (List.replicate m.Size 0) = .ok (m.Size, out)) ∧
    ∀ x, x < 2 ^ 64 →
      1 ≤ sovPushsync x ∧ x < 2 ^ (7 * sovPushsync x) ∧
      (∀ n, 1 ≤ n → x < 2 ^ (7 * n) → sovPushsync x ≤ n) ∧
      (varint 10 x).length = sovPushsync x ∧
      ∀ pre zs post : List Nat, zs.length = sovPushsync x →
        encodeVarintPushsync (pre ++ zs ++ post) ((pre ++ zs).length : Int) x
          = .ok (pre ++ varint 10 x ++ post, (pre.length : Int)) := by
  have h64 : m.Data.length < 2 ^ 64 := by omega
  obtain ⟨h1, h2⟩ := marshal_eq m h64
  refine ⟨⟨_, h1, h2, marshalToSizedBuffer_full m h64⟩, ?_⟩
  intro x hx
  refine ⟨sov_pos x hx, sov_lt x hx, fun n hn hlt => (sov_le_iff x n hx).mpr ⟨hn, hlt⟩,
    varint10_length x hx, ?_⟩
  intro pre zs post hzs
  have hz : zs.length = (varint (9 + 1) x).length := by
    rw [hzs]
    exact (varint10_length x hx).symm
  have hc := encodeVarintLoop_append 9 x pre zs post (by norm_num; omega) hz
  have hi : ((pre ++ zs).length : Int) - (sovPushsync x : Int) = (pre.length : Int) := by
    simp only [List.length_append, Nat.cast_add, hzs]
    omega
  unfold encodeVarintPushsync
  simp only [hi]
  simp only [Nat.reduceAdd] at hc
  rw [hc]

/-- The scenario: 300 data bytes and two unrecognized bytes. -/
theorem size_eq_marshal_length_witness :
    (∃ out, Delivery.Marshal { Data := List.replicate 300 7, XXX_unrecognized := [16, 1] }
        = .ok out ∧
      Delivery.Size { Data := List.replicate 300 7, XXX_unrecognized := [16, 1] } = out.length ∧
      Delivery.MarshalToSizedBuffer { Data := List.replicate 300 7, XXX_unrecognized := [16, 1] }
        (List.replicate
          (Delivery.Size { Data := List.replicate 300 7, XXX_unrecognized := [16, 1] }) 0)
        = .ok (Delivery.Size { Data := List.replicate 300 7, XXX_unrecognized := [16, 1] },
            out)) ∧
    ∀ x, x < 2 ^ 64 →
      1 ≤ sovPushsync x ∧ x < 2 ^ (7 * sovPushsync x) ∧
      (∀ n, 1 ≤ n → x < 2 ^ (7 * n) → sovPushsync x ≤ n) ∧
      (varint 10 x).length = sovPushsync x ∧
      ∀ pre zs post : List Nat, zs.length = sovPushsync x →
        encodeVarintPushsync (pre ++ zs ++ post) ((pre ++ zs).length : Int) x
          = .ok (pre ++ varint 10 x ++ post, (pre.length : Int)) :=
  size_eq_marshal_length { Data := List.replicate 300 7, XXX_unrecognized := [16, 1] }
    (by rw [List.length_replicate]; norm_num)

/-! ## Lemmas about the safety of decoding -/

theorem readByte_lt (dAtA : List Nat) (i : Nat) (h : i < dAtA.length) :
    ∃ b, readByte dAtA i = .ok b := by
  have : dAtA[i]? = some dAtA[i] := List.getElem?_eq_getElem h
  exact ⟨dAtA[i], by simp only [readByte, this]⟩

theorem safe_error {α : Type} (e : PbError) (P : α → Prop) :
    Safe (Except.error (Fault.err e) : Except Fault α) P :=
  Or.inl ⟨e, rfl⟩

theorem safe_ok {α : Type} (a : α) (P : α → Prop) (h : P a) :
    Safe (Except.ok a : Except Fault α) P :=
  Or.inr ⟨a, rfl, h⟩

theorem decodeVarint_safe (dAtA : List Nat) (fuel : Nat) :
    ∀ (shift i acc : Nat), 1 ≤ fuel → 71 ≤ shift + 7 * fuel → acc < 2 ^ 64 →
      Safe (decodeVarint dAtA fuel shift i acc)
        (fun r => i < r.2 ∧ r.2 ≤ dAtA.length ∧ r.1 < 2 ^ 64) := by
  induction fuel with
  | zero => intro shift i acc h1; omega
  | succ fuel ih =>
    intro shift i acc _ hfuel hacc
    rw [decodeVarint]
    by_cases hs : shift ≥ 64
    · simp only [hs, if_true]
      exact safe_error _ _
    · by_cases hi : i ≥ dAtA.length
      · simp only [hs, hi, if_false, if_true]
        exact safe_error _ _
      · obtain ⟨b, hb⟩ := readByte_lt dAtA i (by omega)
        have hw : acc ||| ((b &&& 0x7F) <<< shift) % 2 ^ 64 < 2 ^ 64 :=
          Nat.or_lt_two_pow hacc (Nat.mod_lt _ (by norm_num))
        simp only [hs, hi, if_false, hb]
        by_cases hlt : b < 0x80
        · simp only [hlt, if_true]
          exact safe_ok _ _ ⟨by simp only; omega, by simp only; omega, hw⟩
        · simp only [hlt, if_false]
          rcases ih (shift + 7) (i + 1) _ (by omega) (by omega) hw
            with ⟨e, he⟩ | ⟨r, hr, h1, h2, h3⟩
          · exact Or.inl ⟨e, he⟩
          · exact Or.inr ⟨r, hr, by omega, h2, h3⟩

theorem skipVarint_safe (dAtA : List Nat) (fuel : Nat) :
    ∀ (shift i : Nat), 1 ≤ fuel → 71 ≤ shift + 7 * fuel →
      Safe (skipVarint dAtA fuel shift i) (fun r => i < r ∧ r ≤ dAtA.length) := by
  induction fuel with
  | zero => intro shift i h1; omega
  | succ fuel ih =>
    intro shift i _ hfuel
    rw [skipVarint]
    by_cases hs : shift ≥ 64
    · simp only [hs, if_true]
      exact safe_error _ _
    · by_cases hi : i ≥ dAtA.length
      · simp only [hs, hi, if_false, if_true]
        exact safe_error _ _
      · obtain ⟨b, hb⟩ := readByte_lt dAtA i (by omega)
        simp only [hs, hi, if_false, Nat.add_sub_cancel, hb]
        by_cases hlt : b < 0x80
        · simp only [hlt, if_true]
          exact safe_ok _ _ ⟨by omega, by omega⟩
        · simp only [hlt, if_false]
          rcases ih (shift + 7) (i + 1) (by omega) (by omega) with ⟨e, he⟩ | ⟨r, hr, h1, h2⟩
          · exact Or.inl ⟨e, he⟩
          · exact Or.inr ⟨r, hr, by omega, h2⟩

theorem skipField_safe (dAtA : List Nat) (wireType i depth : Nat)
    (hi : i ≤ dAtA.length) (hl : dAtA.length < 2 ^ 63) :
    Safe (skipField dAtA wireType i depth) (fun r => i ≤ r.1) := by
  have hmod : ∀ k, k < 2 ^ 63 → (i + k) % 2 ^ 64 = i + k := by
    intro k hk
    apply Nat.mod_eq_of_lt
    omega
  unfold skipField
  split
  · rcases skipVarint_safe dAtA 11 0 i (by norm_num) (by norm_num) with ⟨e, he⟩ | ⟨r, hr, h1, _⟩
    · simp only [he]
      exact safe_error _ _
    · simp only [hr]
      exact safe_ok _ _ (by simp only; omega)
  · exact safe_ok _ _ (by simp only; rw [hmod 8 (by norm_num)]; omega)
  · rcases decodeVarint_safe dAtA 11 0 i 0 (by norm_num) (by norm_num) (by norm_num)
      with ⟨e, he⟩ | ⟨⟨len, i1⟩, hr, h1, h2, _⟩
    · simp only [he]
      exact safe_error _ _
    · simp only [hr]
      simp only at h1 h2
      by_cases hlen : len ≥ 2 ^ 63
      · simp only [hlen, if_true]
        exact safe_error _ _
      · simp only [hlen, if_false]
        have : (i1 + len) % 2 ^ 64 = i1 + len := by
          apply Nat.mod_eq_of_lt
          omega
        exact safe_ok _ _ (by simp only; rw [this]; omega)
  · exact safe_ok _ _ (le_refl _)
  · by_cases hd : depth = 0
    · simp only [hd, if_true]
      exact safe_error _ _
    · simp only [hd, if_false]
      exact safe_ok _ _ (le_refl _)
  · exact safe_ok _ _ (by simp only; rw [hmod 4 (by norm_num)]; omega)
  · exact safe_error _ _

theorem skipLoop_safe (dAtA : List Nat) (hl : dAtA.length < 2 ^ 63) (fuel : Nat) :
    ∀ (i depth : Nat), 1 ≤ fuel → dAtA.length + 1 ≤ fuel + i →
      Safe (skipLoop dAtA fuel i depth) (fun n => i < n ∧ n < 2 ^ 63) := by
  induction fuel with
  | zero => intro i depth h1; omega
  | succ fuel ih =>
    intro i depth _ hfuel
    rw [skipLoop]
    by_cases hi : i < dAtA.length
    · simp only [hi, if_true]
      rcases decodeVarint_safe dAtA 11 0 i 0 (by norm_num) (by norm_num) (by norm_num)
        with ⟨e, he⟩ | ⟨⟨wire, i1⟩, hr, h1, h2, _⟩
      · simp only [he]
        exact safe_error _ _
      · simp only [hr]
        simp only at h1 h2
        rcases skipField_safe dAtA (wire &&& 0x7) i1 depth h2 hl
          with ⟨e, he⟩ | ⟨⟨i2, d2⟩, hr2, h3⟩
        · simp only [he]
          exact safe_error _ _
        · simp only [hr2]
          simp only at h3
          by_cases hneg : i2 ≥ 2 ^ 63
          · simp only [hneg, if_true]
            exact safe_error _ _
          · simp only [hneg, if_false]
            by_cases hd : d2 = 0
            · simp only [hd, if_true]
              exact safe_ok _ _ ⟨by omega, by omega⟩
            · simp only [hd, if_false]
              rcases ih i2 d2 (by omega) (by omega) with ⟨e, he⟩ | ⟨n, hn, h4, h5⟩
              · exact Or.inl ⟨e, he⟩
              · exact Or.inr ⟨n, hn, by omega, h5⟩
    · simp only [hi, if_false]
      exact safe_error _ _

theorem skipPushsync_safe (dAtA : List Nat) (hl : dAtA.length < 2 ^ 63) :
    Safe (skipPushsync dAtA) (fun n => 0 < n ∧ n < 2 ^ 63) :=
  skipLoop_safe dAtA hl (dAtA.length + 1) 0 0 (by omega) (by omega)
theorem slice_ok (dAtA : List Nat) (lo hi : Nat) (h1 : lo ≤ hi) (h2 : hi ≤ dAtA.length) :
    slice dAtA lo hi = .ok ((dAtA.take hi).drop lo) := by
  simp only [slice, h1, h2, and_self, if_true]

theorem unmarshalField_spec (dAtA : List Nat) (m : Delivery) (i : Nat)
    (hi : i < dAtA.length) (hl : dAtA.length < 2 ^ 63) :
    Safe (unmarshalField dAtA m i) (fun r =>
      i < r.2.1 ∧ r.2.1 ≤ dAtA.length ∧
      ((r.2.2 = 1 ∧ r.1.XXX_unrecognized = m.XXX_unrecognized ∧
          r.1.Data.length ≤ dAtA.length) ∨
        (r.2.2 ≠ 1 ∧ r.1.Data = m.Data ∧
          r.1.XXX_unrecognized = m.XXX_unrecognized ++ (dAtA.take r.2.1).drop i))) := by
  unfold unmarshalField
  rcases decodeVarint_safe dAtA 11 0 i 0 (by norm_num) (by norm_num) (by norm_num)
    with ⟨e, he⟩ | ⟨⟨wire, i1⟩, hr, h1, h2, _⟩
  · simp only [he]
    exact safe_error _ _
  · simp only [hr]
    simp only at h1 h2
    by_cases hw4 : wire &&& 0x7 = 4
    · simp only [hw4, if_true]
      exact safe_error _ _
    · simp only [hw4, if_false]
      by_cases hill : (wire >>> 3) % 2 ^ 32 = 0 ∨ (wire >>> 3) % 2 ^ 32 ≥ 2 ^ 31
      · simp only [hill, if_true]
        exact safe_error _ _
      · simp only [hill, if_false]
        by_cases hf1 : (wire >>> 3) % 2 ^ 32 = 1
        · simp only [hf1, if_true]
          by_cases hw2 : wire &&& 0x7 = 2
          swap
          · simp only [hw2, ne_eq, not_false_eq_true, if_true]
            exact safe_error _ _
          · simp only [hw2, ne_eq, not_true_eq_false, if_false]
            rcases decodeVarint_safe dAtA 11 0 i1 0 (by norm_num) (by norm_num) (by norm_num)
              with ⟨e, he⟩ | ⟨⟨byteLen, i2⟩, hr2, h3, h4, _⟩
            · simp only [he]
              exact safe_error _ _
            · simp only [hr2]
              simp only at h3 h4
              by_cases hneg : byteLen ≥ 2 ^ 63
              · simp only [hneg, if_true]
                exact safe_error _ _
              · simp only [hneg, if_false]
                have hmod : (i2 + byteLen) % 2 ^ 64 = i2 + byteLen := by
                  apply Nat.mod_eq_of_lt
                  omega
                rw [hmod]
                by_cases hneg2 : i2 + byteLen ≥ 2 ^ 63
                · simp only [hneg2, if_true]
                  exact safe_error _ _
                · simp only [hneg2, if_false]
                  by_cases hgt : i2 + byteLen > dAtA.length
                  · simp only [hgt, if_true]
                    exact safe_error _ _
                  · simp only [hgt, if_false]
                    rw [slice_ok dAtA i2 (i2 + byteLen) (by omega) (by omega)]
                    refine safe_ok _ _ ⟨by simp only; omega, by simp only; omega,
                      Or.inl ⟨rfl, rfl, ?_⟩⟩
                    simp only [List.length_drop, List.length_take]
                    omega
        · simp only [hf1, if_false]
          rw [slice_ok dAtA i dAtA.length (by omega) (le_refl _)]
          simp only []
          have hrest : ((dAtA.take dAtA.length).drop i).length < 2 ^ 63 := by
            simp only [List.length_drop, List.length_take]
            omega
          rcases skipPushsync_safe _ hrest with ⟨e, he⟩ | ⟨skippy, hsk, h5, h6⟩
          · simp only [he]
            exact safe_error _ _
          · simp only [hsk]
            have hneg : ¬ skippy ≥ 2 ^ 63 := by omega
            have hmod : (i + skippy) % 2 ^ 64 = i + skippy := by
              apply Nat.mod_eq_of_lt
              omega
            simp only [hneg, if_false, hmod]
            by_cases hneg2 : i + skippy ≥ 2 ^ 63
            · simp only [hneg2, if_true]
              exact safe_error _ _
            · simp only [hneg2, if_false]
              by_cases hgt : i + skippy > dAtA.length
              · simp only [hgt, if_true]
                exact safe_error _ _
              · simp only [hgt, if_false]
                rw [slice_ok dAtA i (i + skippy) (by omega) (by omega)]
                exact safe_ok _ _ ⟨by simp only; omega, by simp only; omega,
                  Or.inr ⟨hf1, rfl, rfl⟩⟩

theorem unmarshalLoop_safe (dAtA : List Nat) (hl : dAtA.length < 2 ^ 63) (fuel : Nat) :
    ∀ (m : Delivery) (i : Nat), 1 ≤ fuel → dAtA.length + 1 ≤ fuel + i → i ≤ dAtA.length →
      Safe (unmarshalLoop dAtA fuel m i) (fun _ => True) := by
  induction fuel with
  | zero => intro m i h1; omega
  | succ fuel ih =>
    intro m i _ hfuel hile
    rw [unmarshalLoop]
    by_cases hi : i < dAtA.length
    · simp only [hi, if_true]
      rcases unmarshalField_spec dAtA m i hi hl with ⟨e, he⟩ | ⟨⟨m1, i1, fn⟩, hr, h1, h2, _⟩
      · simp only [he]
        exact safe_error _ _
      · simp only [hr]
        simp only at h1 h2
        exact ih m1 i1 (by omega) (by omega) h2
    · have hgt : ¬ i > dAtA.length := by omega
      simp only [hi, hgt, if_false]
      exact safe_ok _ _ trivial

/-- C20: for every byte sequence (a Go slice), `Unmarshal` ends, with nil or with
an error, without an index or a slice out of bounds, also inside
`skipPushsync`; every iteration of the loop of `Unmarshal` that does not return
an error strictly advances the read index, and not beyond the input. -/
theorem unmarshal_safe (m : Delivery) (dAtA : List Nat) (hl : dAtA.length < 2 ^ 63) :
    ((∃ m1, m.Unmarshal dAtA = .ok m1) ∨ (∃ e, m.Unmarshal dAtA = .error (.err e))) ∧
    (∀ (m0 : Delivery) (i : Nat), i < dAtA.length →
      (∃ e, unmarshalField dAtA m0 i = .error (.err e)) ∨
      ∃ m1 i1 fieldNum, unmarshalField dAtA m0 i = .ok (m1, i1, fieldNum) ∧
        i < i1 ∧ i1 ≤ dAtA.length) ∧
    ((∃ e, skipPushsync dAtA = .error (.err e)) ∨
      ∃ n, skipPushsync dAtA = .ok n ∧ 0 < n) := by
  refine ⟨?_, ?_, ?_⟩
  · rcases unmarshalLoop_safe dAtA hl (dAtA.length + 1) m 0 (by omega) (by omega) (by omega)
      with ⟨e, he⟩ | ⟨m1, hm, _⟩
    · exact Or.inr ⟨e, he⟩
    · exact Or.inl ⟨m1, hm⟩
  · intro m0 i hi
    rcases unmarshalField_spec dAtA m0 i hi hl with ⟨e, he⟩ | ⟨⟨m1, i1, fn⟩, hr, h1, h2, _⟩
    · exact Or.inl ⟨e, he⟩
    · exact Or.inr ⟨m1, i1, fn, hr, h1, h2⟩
  · rcases skipPushsync_safe dAtA hl with ⟨e, he⟩ | ⟨n, hn, h1, _⟩
    · exact Or.inl ⟨e, he⟩
    · exact Or.inr ⟨n, hn, h1⟩

/-- The scenario: a field 2 of fixed 64 bits that is cut short after 2 bytes. -/
theorem unmarshal_safe_witness :
    ((∃ m1, Delivery.Unmarshal { Data := [], XXX_unrecognized := [] } [0x11, 1, 2] = .ok m1) ∨
      (∃ e, Delivery.Unmarshal { Data := [], XXX_unrecognized := [] } [0x11, 1, 2]
        = .error (.err e))) ∧
    (∀ (m0 : Delivery) (i : Nat), i < [0x11, 1, 2].length →
      (∃ e, unmarshalField [0x11, 1, 2] m0 i = .error (.err e)) ∨
      ∃ m1 i1 fieldNum, unmarshalField [0x11, 1, 2] m0 i = .ok (m1, i1, fieldNum) ∧
        i < i1 ∧ i1 ≤ [0x11, 1, 2].length) ∧
    ((∃ e, skipPushsync [0x11, 1, 2] = .error (.err e)) ∨
      ∃ n, skipPushsync [0x11, 1, 2] = .ok n ∧ 0 < n) :=
  unmarshal_safe { Data := [], XXX_unrecognized := [] } [0x11, 1, 2] (by decide)

/-! ## Repeated and truncated fields -/

theorem unmarshalField_data_at (pre d post : List Nat) (m : Delivery)
    (hl : (pre ++ 0x0A :: (varint 10 d.length ++ (d ++ post))).length < 2 ^ 63) :
    unmarshalField (pre ++ 0x0A :: (varint 10 d.length ++ (d ++ post))) m pre.length
      = .ok ({ m with Data := d },
          (pre ++ 0x0A :: (varint 10 d.length ++ d)).length, 1) := by
  have hlen0 : (pre ++ 0x0A :: (varint 10 d.length ++ (d ++ post))).length
      = pre.length + 1 + (varint 10 d.length).length + d.length + post.length := by
    simp only [List.length_cons, List.length_append]
    omega
  rw [hlen0] at hl
  have hd : d.length < 2 ^ 64 := by omega
  have hv10 : varint 10 10 = [10] := by decide
  have h1 : decodeVarint (pre ++ 0x0A :: (varint 10 d.length ++ (d ++ post))) 11 0
      pre.length 0 = .ok (0x0A, pre.length + 1) := by
    have := decodeVarint_varint10 10 pre (varint 10 d.length ++ (d ++ post)) (by norm_num)
    simpa [hv10] using this
  have hfn : ((0x0A : Nat) >>> 3) % 2 ^ 32 = 1 := by decide
  have hwt : (0x0A : Nat) &&& 0x7 = 2 := by decide
  have h2 : decodeVarint (pre ++ 0x0A :: (varint 10 d.length ++ (d ++ post))) 11 0
      (pre.length + 1) 0
      = .ok (d.length, pre.length + 1 + (varint 10 d.length).length) := by
    have := decodeVarint_varint10 d.length (pre ++ [0x0A]) (d ++ post) hd
    simpa using this
  have hpost : (pre.length + 1 + (varint 10 d.length).length + d.length) % 2 ^ 64
      = pre.length + 1 + (varint 10 d.length).length + d.length := by
    apply Nat.mod_eq_of_lt
    omega
  have h3 : ¬ d.length ≥ 2 ^ 63 := by omega
  have h4 : ¬ pre.length + 1 + (varint 10 d.length).length + d.length ≥ 2 ^ 63 := by omega
  have h5 : ¬ pre.length + 1 + (varint 10 d.length).length + d.length
      > (pre ++ 0x0A :: (varint 10 d.length ++ (d ++ post))).length := by
    rw [hlen0]
    omega
  have h6 : slice (pre ++ 0x0A :: (varint 10 d.length ++ (d ++ post)))
      (pre.length + 1 + (varint 10 d.length).length)
      (pre.length + 1 + (varint 10 d.length).length + d.length)
      = .ok d := by
    rw [slice_ok _ _ _ (by omega) (by rw [hlen0]; omega)]
    have e1 : pre ++ 0x0A :: (varint 10 d.length ++ (d ++ post))
        = ((pre ++ 0x0A :: varint 10 d.length) ++ d) ++ post := by simp
    have e2 : pre.length + 1 + (varint 10 d.length).length + d.length
        = ((pre ++ 0x0A :: varint 10 d.length) ++ d).length := by
      simp only [List.length_cons, List.length_append]
      omega
    have e4 : pre.length + 1 + (varint 10 d.length).length
        = (pre ++ 0x0A :: varint 10 d.length).length := by
      simp only [List.length_cons, List.length_append]
      omega
    rw [e1, e2, List.take_left', e4, List.drop_left']
    · rfl
    · rfl
  have hlen : (pre ++ 0x0A :: (varint 10 d.length ++ d)).length
      = pre.length + 1 + (varint 10 d.length).length + d.length := by
    simp only [List.length_cons, List.length_append]
    omega
  unfold unmarshalField
  simp only [h1, hfn, hwt, h2, hpost, h3, h4, h5, h6, hlen, if_false]
  simp

/-- C22: for all byte sequences `d1` and non-empty `d2` (the two encodings
together a Go slice), `Unmarshal` of the encoding of `d1` followed by the
encoding of `d2` into a fresh message succeeds and yields the data `d2`, not the
two payloads one after the other, and no unrecognized bytes. -/
theorem last_field_wins (d1 d2 : List Nat) (hd2 : d2 ≠ [])
    (hl : (encodeData d1 ++ encodeData d2).length < 2 ^ 63) :
    ∃ b1 b2, Delivery.Marshal { Data := d1, XXX_unrecognized := [] } = .ok b1 ∧
      Delivery.Marshal { Data := d2, XXX_unrecognized := [] } = .ok b2 ∧
      Delivery.Unmarshal { Data := [], XXX_unrecognized := [] } (b1 ++ b2)
        = .ok { Data := d2, XXX_unrecognized := [] } := by
  have henc2 : encodeData d2 = 0x0A :: (varint 10 d2.length ++ d2) := by
    simp [encodeData, hd2]
  have hlen2 : d2.length < 2 ^ 64 := by
    rw [henc2] at hl
    simp only [List.length_cons, List.length_append] at hl
    omega
  have hm2 := (marshal_eq { Data := d2, XXX_unrecognized := [] } hlen2).1
  simp only [List.append_nil] at hm2
  by_cases hd1 : d1 = []
  · subst hd1
    have hm1 := (marshal_eq { Data := [], XXX_unrecognized := [] } (by simp)).1
    simp only [List.append_nil] at hm1
    refine ⟨_, _, hm1, hm2, ?_⟩
    have hf := unmarshalField_data_at [] d2 [] { Data := [], XXX_unrecognized := [] }
      (by rw [henc2] at hl; simpa [encodeData] using hl)
    simp only [List.nil_append, List.append_nil, List.length_nil] at hf
    have hpos : 0 < (0x0A :: (varint 10 d2.length ++ d2)).length := by simp
    simp only [encodeData, if_true, List.nil_append, hd2, if_false]
    unfold Delivery.Unmarshal
    rw [unmarshalLoop]
    simp only [hpos, if_true, hf]
    exact unmarshalLoop_end _ _ _ hpos
  · have henc1 : encodeData d1 = 0x0A :: (varint 10 d1.length ++ d1) := by
      simp [encodeData, hd1]
    have hlen1 : d1.length < 2 ^ 64 := by
      rw [henc1] at hl
      simp only [List.length_cons, List.length_append] at hl
      omega
    have hm1 := (marshal_eq { Data := d1, XXX_unrecognized := [] } hlen1).1
    simp only [List.append_nil] at hm1
    refine ⟨_, _, hm1, hm2, ?_⟩
    rw [henc1, henc2] at hl ⊢
    have hf1 := unmarshalField_data_at [] d1 (0x0A :: (varint 10 d2.length ++ d2))
      { Data := [], XXX_unrecognized := [] } (by simpa using hl)
    have hf2 := unmarshalField_data_at (0x0A :: (varint 10 d1.length ++ d1)) d2 []
      { Data := d1, XXX_unrecognized := [] } (by simpa using hl)
    simp only [List.nil_append, List.append_nil, List.length_nil] at hf1 hf2
    have hshape : 0x0A :: (varint 10 d1.length ++ d1) ++ 0x0A :: (varint 10 d2.length ++ d2)
        = 0x0A :: (varint 10 d1.length ++ (d1 ++ 0x0A :: (varint 10 d2.length ++ d2))) := by
      simp
    have hpos : 0 < (0x0A :: (varint 10 d1.length ++ d1)
        ++ 0x0A :: (varint 10 d2.length ++ d2)).length := by simp
    have hlt : (0x0A :: (varint 10 d1.length ++ d1)).length
        < (0x0A :: (varint 10 d1.length ++ d1)
          ++ 0x0A :: (varint 10 d2.length ++ d2)).length := by simp
    unfold Delivery.Unmarshal
    rw [unmarshalLoop]
    simp only [hpos, if_true]
    rw [hshape] at hpos hlt hf2 ⊢
    rw [hf1]
    simp only []
    obtain ⟨n, hn⟩ : ∃ n, (0x0A :: (varint 10 d1.length
        ++ (d1 ++ 0x0A :: (varint 10 d2.length ++ d2)))).length = n + 1 :=
      ⟨_, rfl⟩
    rw [hn, unmarshalLoop]
    simp only [hlt, if_true, hf2]
    apply unmarshalLoop_end
    simp only [List.length_cons, List.length_append] at hn
    omega

/-- The scenario: the data bytes 1, 2 followed by the data bytes 3, 4, 5. -/
theorem last_field_wins_witness :
    ∃ b1 b2, Delivery.Marshal { Data := [1, 2], XXX_unrecognized := [] } = .ok b1 ∧
      Delivery.Marshal { Data := [3, 4, 5], XXX_unrecognized := [] } = .ok b2 ∧
      Delivery.Unmarshal { Data := [], XXX_unrecognized := [] } (b1 ++ b2)
        = .ok { Data := [3, 4, 5], XXX_unrecognized := [] } :=
  last_field_wins [1, 2] [3, 4, 5] (by decide) (by decide)
theorem decodeVarint_eof (dAtA : List Nat) (fuel shift i acc : Nat) (hf : 1 ≤ fuel)
    (hs : shift < 64) (hi : dAtA.length ≤ i) :
    decodeVarint dAtA fuel shift i acc = .error (.err .ErrUnexpectedEOF) := by
  obtain ⟨fd, rfl⟩ : ∃ fd, fuel = fd + 1 := ⟨fuel - 1, by omega⟩
  have h1 : ¬ shift ≥ 64 := by omega
  have h2 : i ≥ dAtA.length := hi
  rw [decodeVarint]
  simp only [h1, h2, if_false, if_true]

theorem decodeVarint_truncated (f : Nat) :
    ∀ (fuelD k v acc j : Nat) (pre : List Nat),
      j < (varint (f + 1) v).length → j + 1 ≤ fuelD → 7 * (k + j) < 64 →
      decodeVarint (pre ++ (varint (f + 1) v).take j) fuelD (7 * k) pre.length acc
        = .error (.err .ErrUnexpectedEOF) := by
  induction f with
  | zero =>
    intro fuelD k v acc j pre hj hfuel hk
    have hj0 : j = 0 := by
      by_cases h : v < 128 <;> simp [varint, h] at hj <;> omega
    subst hj0
    exact decodeVarint_eof _ _ _ _ _ (by omega) (by omega) (by simp)
  | succ f ih =>
    intro fuelD k v acc j pre hj hfuel hk
    cases j with
    | zero => exact decodeVarint_eof _ _ _ _ _ (by omega) (by omega) (by simp)
    | succ j =>
      by_cases h : v < 128
      · simp [varint, h] at hj
      · have hvar : varint (f + 1 + 1) v = (v % 128 + 128) :: varint (f + 1) (v / 128) := by
          rw [varint, if_neg h]
        rw [hvar] at hj ⊢
        have hj1 : j < (varint (f + 1) (v / 128)).length := by simpa using hj
        obtain ⟨fd, rfl⟩ : ∃ fd, fuelD = fd + 1 := ⟨fuelD - 1, by omega⟩
        have hshift : ¬ 7 * k ≥ 64 := by omega
        have hlen : ¬ pre.length ≥
            (pre ++ ((v % 128 + 128) :: varint (f + 1) (v / 128)).take (j + 1)).length := by
          simp
        have hr := readByte_append pre ((varint (f + 1) (v / 128)).take j) (v % 128 + 128)
        have hnb : ¬ v % 128 + 128 < 0x80 := by omega
        have hrec := ih fd (k + 1) (v / 128)
          (acc ||| (((v % 128 + 128) &&& 0x7F) <<< (7 * k)) % 2 ^ 64) j
          (pre ++ [v % 128 + 128]) hj1 (by omega) (by omega)
        simp only [List.take_succ_cons] at hlen ⊢
        rw [decodeVarint]
        simp only [hshift, hlen, if_false, hr, hnb]
        have h7 : 7 * k + 7 = 7 * (k + 1) := by ring
        rw [h7]
        simpa using hrec

theorem varint10_length_le (v : Nat) (hv : v < 2 ^ 64) : (varint 10 v).length ≤ 10 := by
  rw [varint10_length v hv]
  exact (sov_le_iff v 10 hv).mpr ⟨by norm_num, by norm_num; omega⟩

theorem unmarshalField_truncated (d : List Nat) (k : Nat)
    (hl : (0x0A :: (varint 10 d.length ++ d)).length < 2 ^ 63)
    (hk : k < (varint 10 d.length ++ d).length) (m : Delivery) :
    unmarshalField (0x0A :: (varint 10 d.length ++ d).take k) m 0
      = .error (.err .ErrUnexpectedEOF) := by
  simp only [List.length_cons, List.length_append] at hl hk
  have hd : d.length < 2 ^ 64 := by omega
  have hv10 : varint 10 10 = [10] := by decide
  have h1 : decodeVarint (0x0A :: (varint 10 d.length ++ d).take k) 11 0 0 0
      = .ok (0x0A, 1) := by
    have := decodeVarint_varint10 10 [] ((varint 10 d.length ++ d).take k) (by norm_num)
    simpa [hv10] using this
  have hfn : ((0x0A : Nat) >>> 3) % 2 ^ 32 = 1 := by decide
  have hwt : (0x0A : Nat) &&& 0x7 = 2 := by decide
  by_cases hcut : k < (varint 10 d.length).length
  · have htake : (varint 10 d.length ++ d).take k = (varint 10 d.length).take k :=
      List.take_append_of_le_length (by omega)
    have hvl := varint10_length_le d.length hd
    have h2 : decodeVarint (0x0A :: (varint 10 d.length).take k) 11 0 1 0
        = .error (.err .ErrUnexpectedEOF) := by
      have := decodeVarint_truncated 9 11 0 d.length 0 k [0x0A] hcut (by omega) (by omega)
      simpa using this
    rw [htake] at h1 ⊢
    unfold unmarshalField
    simp only [h1, hfn, hwt, h2]
    simp
  · obtain ⟨j, hj⟩ : ∃ j, k = (varint 10 d.length).length + j :=
      ⟨k - (varint 10 d.length).length, by omega⟩
    have htake : (varint 10 d.length ++ d).take k = varint 10 d.length ++ d.take j := by
      rw [hj, List.take_append]
    have hjlen : (d.take j).length = j := by
      rw [List.length_take]
      omega
    have h2 : decodeVarint (0x0A :: (varint 10 d.length ++ d.take j)) 11 0 1 0
        = .ok (d.length, 1 + (varint 10 d.length).length) := by
      have := decodeVarint_varint10 d.length [0x0A] (d.take j) hd
      simpa using this
    have hpost : (1 + (varint 10 d.length).length + d.length) % 2 ^ 64
        = 1 + (varint 10 d.length).length + d.length := by
      apply Nat.mod_eq_of_lt
      omega
    have h3 : ¬ d.length ≥ 2 ^ 63 := by omega
    have h4 : ¬ 1 + (varint 10 d.length).length + d.length ≥ 2 ^ 63 := by omega
    have h5 : 1 + (varint 10 d.length).length + d.length
        > (0x0A :: (varint 10 d.length ++ d.take j)).length := by
      simp only [List.length_cons, List.length_append, hjlen]
      omega
    rw [htake] at h1 ⊢
    unfold unmarshalField
    simp only [h1, hfn, hwt, h2, hpost, h3, h4, h5, if_false, if_true]
    simp

/-- C21: for every non-empty data `d` (its encoding a Go slice), `Unmarshal` of
the first `k` bytes of its encoding, for every `k` that is neither 0 nor the
whole length, returns `io.ErrUnexpectedEOF`; the first 0 bytes decode
successfully to the empty message. -/
theorem truncated_rejected (d : List Nat) (k : Nat) (hd : d ≠ [])
    (hl : (encodeData d).length < 2 ^ 63) (hk1 : 0 < k) (hk2 : k < (encodeData d).length) :
    ∃ b, Delivery.Marshal { Data := d, XXX_unrecognized := [] } = .ok b ∧
      Delivery.Unmarshal { Data := [], XXX_unrecognized := [] } (b.take k)
        = .error (.err .ErrUnexpectedEOF) ∧
      Delivery.Unmarshal { Data := [], XXX_unrecognized := [] } (b.take 0)
        = .ok { Data := [], XXX_unrecognized := [] } := by
  have henc : encodeData d = 0x0A :: (varint 10 d.length ++ d) := by
    simp [encodeData, hd]
  rw [henc] at hl hk2
  have hd64 : d.length < 2 ^ 64 := by
    simp only [List.length_cons, List.length_append] at hl
    omega
  have hm := (marshal_eq { Data := d, XXX_unrecognized := [] } hd64).1
  simp only [List.append_nil, henc] at hm
  refine ⟨_, hm, ?_, ?_⟩
  · obtain ⟨k1, rfl⟩ : ∃ k1, k = k1 + 1 := ⟨k - 1, by omega⟩
    have hk : k1 < (varint 10 d.length ++ d).length := by
      simp only [List.length_cons] at hk2
      omega
    have hf := unmarshalField_truncated d k1 hl hk { Data := [], XXX_unrecognized := [] }
    have hpos : 0 < (0x0A :: (varint 10 d.length ++ d).take k1).length := by simp
    simp only [List.take_succ_cons]
    unfold Delivery.Unmarshal
    rw [unmarshalLoop]
    simp only [hpos, if_true, hf]
  · simp [Delivery.Unmarshal, unmarshalLoop]

/-- The scenario: the encoding 0A 03 01 02 03 cut after its fourth byte. -/
theorem truncated_rejected_witness :
    ∃ b, Delivery.Marshal { Data := [1, 2, 3], XXX_unrecognized := [] } = .ok b ∧
      Delivery.Unmarshal { Data := [], XXX_unrecognized := [] } (b.take 4)
        = .error (.err .ErrUnexpectedEOF) ∧
      Delivery.Unmarshal { Data := [], XXX_unrecognized := [] } (b.take 0)
        = .ok { Data := [], XXX_unrecognized := [] } :=
  truncated_rejected [1, 2, 3] 4 (by decide) (by decide) (by decide) (by decide)
/-! ## The batch counter -/

/-- C23: the batch counter starts at -1 and every event adds to it 1 for a
chunk and nothing otherwise (no exhaustion, timer fire or quit resets it), so
in every state reached from a fresh service it is the number of chunks
received so far minus 1, and a later run only adds to it; the exhaustion step
leaves it as it is and resets the timer to 500 ms exactly when one chunk has
been received in total, and to 0 in every other case. -/
theorem chunksInBatch_counts_all (tags : Tags) (es es2 : List Event) (w w1 w2 : Worker)
    (hrun : chunksWorker (New tags) es = some w)
    (hclosed : chunksWorkerStep w .feedClosed = some w1)
    (hlater : chunksWorker w es2 = some w2) :
    (New tags).chunksInBatch = -1 ∧
    w.chunksInBatch = (chunksReceived es : Int) - 1 ∧
    w2.chunksInBatch = w.chunksInBatch + (chunksReceived es2 : Int) ∧
    w1.chunksInBatch = w.chunksInBatch ∧
    (w1.timer = some (500 * Millisecond) ↔ chunksReceived es = 1) ∧
    (chunksReceived es ≠ 1 → w1.timer = some 0) := by
  have hb := chunksWorker_chunksInBatch es (New tags) w hrun
  have hb2 := chunksWorker_chunksInBatch es2 w w2 hlater
  have hnew : (New tags).chunksInBatch = -1 := rfl
  have hw : w.chunksInBatch = (chunksReceived es : Int) - 1 := by
    rw [hb, hnew]
    omega
  have hstep := step_chunksInBatch w w1 .feedClosed hclosed
  refine ⟨hnew, hw, hb2, by simpa [Event.isChunk] using hstep, ?_, ?_⟩
  all_goals
    simp only [chunksWorkerStep] at hclosed
    split at hclosed
    · contradiction
    · split at hclosed <;> simp only [Option.some.injEq, reduceCtorEq] at hclosed
      subst hclosed
      by_cases h1 : chunksReceived es = 1
      · have h0 : w.chunksInBatch = 0 := by omega
        simp [h0, h1]
      · have h0 : w.chunksInBatch ≠ 0 := by omega
        simp [h0, h1, Millisecond]

/-- The scenario: one chunk is received, the feed is exhausted (500 ms), the
timer fires and the next feed is exhausted at once (500 ms again, one chunk in
total); a second chunk makes the counter 1. -/
theorem chunksInBatch_counts_all_witness :
    ∃ w w1 w2,
      chunksWorker (New tags7)
        [.timerC, .chunk chunkAA none none, .feedClosed, .timerC] = some w ∧
      chunksWorkerStep w .feedClosed = some w1 ∧
      chunksWorker w [.chunk chunkAA none none] = some w2 ∧
      (New tags7).chunksInBatch = -1 ∧
      w.chunksInBatch = (chunksReceived
        [.timerC, .chunk chunkAA none none, .feedClosed, .timerC] : Int) - 1 ∧
      w2.chunksInBatch = w.chunksInBatch + (chunksReceived [.chunk chunkAA none none] : Int) ∧
      w1.chunksInBatch = w.chunksInBatch ∧
      (w1.timer = some (500 * Millisecond) ↔
        chunksReceived [.timerC, .chunk chunkAA none none, .feedClosed, .timerC] = 1) ∧
      (chunksReceived [.timerC, .chunk chunkAA none none, .feedClosed, .timerC] ≠ 1 →
        w1.timer = some 0) :=
  ⟨_, _, _, rfl, rfl, rfl,
    chunksInBatch_counts_all tags7 [.timerC, .chunk chunkAA none none, .feedClosed, .timerC]
      [.chunk chunkAA none none] _ _ _ rfl rfl rfl⟩

/-! ## The order of the effects of a chunk step -/

/-- C7: the effects of every chunk step contain the call of `PushChunkToClosest`
exactly once, at some index; each Sent increment stands before it, it stands
before each call of the storer's Set, that before each Synced increment, that
before each removal of a ledger entry, and a ledger entry of an address is
removed only after the storer's Set for that address has been called. These
effects are really there: when the session of the chunk resolves at dispatch
its Sent increment is at an index before the push; when the delivery succeeds
the Set call for the address is at an index after the push; and when moreover
the store write succeeds and the session `u` the ledger names for the address at
completion (the chunk's own when it resolved at dispatch, else the one of an
entry left by an earlier cycle) resolves, the Set call, the Synced increment of
`u` and the removal of the entry are at three increasing indices after the
push. -/
theorem chunk_step_effect_order (s : Service) (ch : Chunk) (p r : Option GoError) :
    ∃ (d : List Effect) (iPush : Nat), (handleChunk s ch p r).trace = s.trace ++ d ∧
      d[iPush]? = some (.pushChunkToClosest ch.address) ∧
      d.count (.pushChunkToClosest ch.address) = 1 ∧
      Before Effect.isSentInc Effect.isPush d ∧
      Before Effect.isPush Effect.isStorerSet d ∧
      Before Effect.isStorerSet Effect.isSyncedInc d ∧
      Before Effect.isSyncedInc Effect.isLedgerDelete d ∧
      DeleteAfterSet d ∧
      ((s.tag ch.tagID).isSome = true →
        ∃ iSent, iSent < iPush ∧ d[iSent]? = some (.tagInc ch.tagID .StateSent)) ∧
      (p = none → ∃ iSet, iPush < iSet ∧ d[iSet]? = some (.storerSet ch.address)) ∧
      (p = none → r = none →
        ∀ u, (if (s.tag ch.tagID).isSome then some ch.tagID else s.pushed ch.address) = some u →
          (s.tag u).isSome = true →
          ∃ iSet iSync iDel, iPush < iSet ∧ iSet < iSync ∧ iSync < iDel ∧
            d[iSet]? = some (.storerSet ch.address) ∧
            d[iSync]? = some (.tagInc u .StateSynced) ∧
            d[iDel]? = some (.ledgerDelete ch.address)) := by
  have build : ∀ (d : List Effect) (iPush : Nat),
      (handleChunk s ch p r).trace = s.trace ++ d →
      d[iPush]? = some (.pushChunkToClosest ch.address) →
      d.count (.pushChunkToClosest ch.address) = 1 →
      beforeCheck Effect.isSentInc Effect.isPush d = true →
      beforeCheck Effect.isPush Effect.isStorerSet d = true →
      beforeCheck Effect.isStorerSet Effect.isSyncedInc d = true →
      beforeCheck Effect.isSyncedInc Effect.isLedgerDelete d = true →
      deleteAfterSetCheck [] d = true →
      ((s.tag ch.tagID).isSome = true →
        ∃ iSent, iSent < iPush ∧ d[iSent]? = some (.tagInc ch.tagID .StateSent)) →
      (p = none → ∃ iSet, iPush < iSet ∧ d[iSet]? = some (.storerSet ch.address)) →
      (p = none → r = none →
        ∀ u, (if (s.tag ch.tagID).isSome then some ch.tagID else s.pushed ch.address) = some u →
          (s.tag u).isSome = true →
          ∃ iSet iSync iDel, iPush < iSet ∧ iSet < iSync ∧ iSync < iDel ∧
            d[iSet]? = some (.storerSet ch.address) ∧
            d[iSync]? = some (.tagInc u .StateSynced) ∧
            d[iDel]? = some (.ledgerDelete ch.address)) →
      ∃ (d : List Effect) (iPush : Nat), (handleChunk s ch p r).trace = s.trace ++ d ∧
        d[iPush]? = some (.pushChunkToClosest ch.address) ∧
        d.count (.pushChunkToClosest ch.address) = 1 ∧
        Before Effect.isSentInc Effect.isPush d ∧
        Before Effect.isPush Effect.isStorerSet d ∧
        Before Effect.isStorerSet Effect.isSyncedInc d ∧
        Before Effect.isSyncedInc Effect.isLedgerDelete d ∧
        DeleteAfterSet d ∧
        ((s.tag ch.tagID).isSome = true →
          ∃ iSent, iSent < iPush ∧ d[iSent]? = some (.tagInc ch.tagID .StateSent)) ∧
        (p = none → ∃ iSet, iPush < iSet ∧ d[iSet]? = some (.storerSet ch.address)) ∧
        (p = none → r = none →
          ∀ u, (if (s.tag ch.tagID).isSome then some ch.tagID else s.pushed ch.address)
              = some u →
            (s.tag u).isSome = true →
            ∃ iSet iSync iDel, iPush < iSet ∧ iSet < iSync ∧ iSync < iDel ∧
              d[iSet]? = some (.storerSet ch.address) ∧
              d[iSync]? = some (.tagInc u .StateSynced) ∧
              d[iDel]? = some (.ledgerDelete ch.address)) := by
    intro d iPush h0 h1 h2 h3 h4 h5 h6 h7 h8 h9 h10
    refine ⟨d, iPush, h0, h1, h2, before_of_check _ _ d h3, before_of_check _ _ d h4,
      before_of_check _ _ d h5, before_of_check _ _ d h6, ?_, h8, h9, h10⟩
    intro j a hj
    rcases deleteAfterSet_of_check d [] h7 j a hj with h | h
    · simp at h
    · exact h
  rcases p with _ | err
  · rcases r with _ | e2
    · rcases Option.eq_none_or_eq_some (s.tag ch.tagID) with ht | ⟨c, ht⟩
      · rcases Option.eq_none_or_eq_some (s.pushed ch.address) with hp | ⟨uid, hp⟩
        · refine build
            [.metric .TotalChunksToBeSentCounter, .logDebugf .getTagByUid,
              .pushChunkToClosest ch.address, .storerSet ch.address,
              .metric .TotalChunksSynced, .logDebugf .getUidFromPusher] 2
            ?_ rfl ?_ rfl rfl rfl rfl ?_ ?_ ?_ ?_
          · simp [handleChunk, setChunkAsSynced, Service.emit, Tags.Get, getUidFromPushed,
              ht, hp]
          · simp [List.count_cons]
          · simp [deleteAfterSetCheck]
          · intro h
            simp [ht] at h
          · intro _
            exact ⟨3, by norm_num, rfl⟩
          · intro _ _ u hu _
            simp [ht, hp] at hu
        · rcases Option.eq_none_or_eq_some (s.tag uid) with hu | ⟨c, hu⟩
          · refine build
              [.metric .TotalChunksToBeSentCounter, .logDebugf .getTagByUid,
                .pushChunkToClosest ch.address, .storerSet ch.address,
                .metric .TotalChunksSynced] 2
              ?_ rfl ?_ rfl rfl rfl rfl ?_ ?_ ?_ ?_
            · simp [handleChunk, setChunkAsSynced, Service.emit, Tags.Get, getUidFromPushed,
                errorsIs, tagsErrNotFound, ht, hp, hu]
            · simp [List.count_cons]
            · simp [deleteAfterSetCheck]
            · intro h
              simp [ht] at h
            · intro _
              exact ⟨3, by norm_num, rfl⟩
            · intro _ _ u hu2 hsome
              simp only [ht, hp, Option.isSome_none, Bool.false_eq_true, if_false,
                Option.some.injEq] at hu2
              subst hu2
              simp [hu] at hsome
          · refine build
              [.metric .TotalChunksToBeSentCounter, .logDebugf .getTagByUid,
                .pushChunkToClosest ch.address, .storerSet ch.address,
                .metric .TotalChunksSynced, .tagInc uid .StateSynced,
                .ledgerDelete ch.address] 2
              ?_ rfl ?_ rfl rfl rfl rfl ?_ ?_ ?_ ?_
            · simp [handleChunk, setChunkAsSynced, Service.emit, Tags.Get, Tag.Inc,
                getUidFromPushed, deleteUidFromPushed, ht, hp, hu]
            · simp [List.count_cons]
            · simp [deleteAfterSetCheck]
            · intro h
              simp [ht] at h
            · intro _
              exact ⟨3, by norm_num, rfl⟩
            · intro _ _ u hu2 _
              simp only [ht, hp, Option.isSome_none, Bool.false_eq_true, if_false,
                Option.some.injEq] at hu2
              subst hu2
              exact ⟨3, 5, 6, by norm_num, by norm_num, by norm_num, rfl, rfl, rfl⟩
      · refine build
          [.metric .TotalChunksToBeSentCounter, .tagInc ch.tagID .StateSent,
            .ledgerStore ch.address ch.tagID, .pushChunkToClosest ch.address,
            .storerSet ch.address, .metric .TotalChunksSynced,
            .tagInc ch.tagID .StateSynced, .ledgerDelete ch.address] 3
          ?_ rfl ?_ rfl rfl rfl rfl ?_ ?_ ?_ ?_
        · simp [handleChunk, setChunkAsSynced, Service.emit, Tags.Get, Tag.Inc, addUidToPushed,
            getUidFromPushed, deleteUidFromPushed, Tags.inc, ht]
        · simp [List.count_cons]
        · simp [deleteAfterSetCheck]
        · intro _
          exact ⟨1, by norm_num, rfl⟩
        · intro _
          exact ⟨4, by norm_num, rfl⟩
        · intro _ _ u hu _
          simp only [ht, Option.isSome_some, if_true, Option.some.injEq] at hu
          subst hu
          exact ⟨4, 6, 7, by norm_num, by norm_num, by norm_num, rfl, rfl, rfl⟩
    · rcases Option.eq_none_or_eq_some (s.tag ch.tagID) with ht | ⟨c, ht⟩
      · refine build
          [.metric .TotalChunksToBeSentCounter, .logDebugf .getTagByUid,
            .pushChunkToClosest ch.address, .storerSet ch.address,
            .logErrorf .settingChunkAsSynced, .metric .ErrorSettingChunkToSynced] 2
          ?_ rfl ?_ rfl rfl rfl rfl ?_ ?_ ?_ ?_
        · simp [handleChunk, setChunkAsSynced, Service.emit, Tags.Get, ht]
        · simp [List.count_cons]
        · simp [deleteAfterSetCheck]
        · intro h
          simp [ht] at h
        · intro _
          exact ⟨3, by norm_num, rfl⟩
        · intro _ h
          cases h
      · refine build
          [.metric .TotalChunksToBeSentCounter, .tagInc ch.tagID .StateSent,
            .ledgerStore ch.address ch.tagID, .pushChunkToClosest ch.address,
            .storerSet ch.address, .logErrorf .settingChunkAsSynced,
            .metric .ErrorSettingChunkToSynced] 3
          ?_ rfl ?_ rfl rfl rfl rfl ?_ ?_ ?_ ?_
        · simp [handleChunk, setChunkAsSynced, Service.emit, Tags.Get, Tag.Inc, addUidToPushed,
            ht]
        · simp [List.count_cons]
        · simp [deleteAfterSetCheck]
        · intro _
          exact ⟨1, by norm_num, rfl⟩
        · intro _
          exact ⟨4, by norm_num, rfl⟩
        · intro _ h
          cases h
  · rcases Option.eq_none_or_eq_some (s.tag ch.tagID) with ht | ⟨c, ht⟩
    · cases he : errorsIs err topologyErrNotFound
      · refine build
          [.metric .TotalChunksToBeSentCounter, .logDebugf .getTagByUid,
            .pushChunkToClosest ch.address, .logErrorf .sendingChunk] 2
          ?_ rfl ?_ rfl rfl rfl rfl ?_ ?_ ?_ ?_
        · simp [handleChunk, Service.emit, Tags.Get, ht, he]
        · simp [List.count_cons]
        · simp [deleteAfterSetCheck]
        · intro h
          simp [ht] at h
        · intro h
          cases h
        · intro h
          cases h
      · refine build
          [.metric .TotalChunksToBeSentCounter, .logDebugf .getTagByUid,
            .pushChunkToClosest ch.address] 2
          ?_ rfl ?_ rfl rfl rfl rfl ?_ ?_ ?_ ?_
        · simp [handleChunk, Service.emit, Tags.Get, ht, he]
        · simp [List.count_cons]
        · simp [deleteAfterSetCheck]
        · intro h
          simp [ht] at h
        · intro h
          cases h
        · intro h
          cases h
    · cases he : errorsIs err topologyErrNotFound
      · refine build
          [.metric .TotalChunksToBeSentCounter, .tagInc ch.tagID .StateSent,
            .ledgerStore ch.address ch.tagID, .pushChunkToClosest ch.address,
            .logErrorf .sendingChunk] 3
          ?_ rfl ?_ rfl rfl rfl rfl ?_ ?_ ?_ ?_
        · simp [handleChunk, Service.emit, Tags.Get, Tag.Inc, addUidToPushed, ht, he]
        · simp [List.count_cons]
        · simp [deleteAfterSetCheck]
        · intro _
          exact ⟨1, by norm_num, rfl⟩
        · intro h
          cases h
        · intro h
          cases h
      · refine build
          [.metric .TotalChunksToBeSentCounter, .tagInc ch.tagID .StateSent,
            .ledgerStore ch.address ch.tagID, .pushChunkToClosest ch.address] 3
          ?_ rfl ?_ rfl rfl rfl rfl ?_ ?_ ?_ ?_
        · simp [handleChunk, Service.emit, Tags.Get, Tag.Inc, addUidToPushed, ht, he]
        · simp [List.count_cons]
        · simp [deleteAfterSetCheck]
        · intro _
          exact ⟨1, by norm_num, rfl⟩
        · intro h
          cases h
        · intro h
          cases h

/-- The scenario: chunk `0xAA` of session 7 is delivered and stored; the Sent
increment, the push, the Set call, the Synced increment and the removal of the
entry are there, in this order. -/
theorem chunk_step_effect_order_witness :
    ∃ (d : List Effect) (iSent iPush iSet iSync iDel : Nat),
      (handleChunk (workerAwaiting tags7).svc chunkAA none none).trace
        = (workerAwaiting tags7).svc.trace ++ d ∧
      iSent < iPush ∧ iPush < iSet ∧ iSet < iSync ∧ iSync < iDel ∧
      d[iSent]? = some (.tagInc 7 .StateSent) ∧
      d[iPush]? = some (.pushChunkToClosest 170) ∧
      d[iSet]? = some (.storerSet 170) ∧
      d[iSync]? = some (.tagInc 7 .StateSynced) ∧
      d[iDel]? = some (.ledgerDelete 170) := by
  obtain ⟨d, iPush, h0, h1, _, _, _, _, _, _, hsent, _, hsucc⟩ :=
    chunk_step_effect_order (workerAwaiting tags7).svc chunkAA none none
  obtain ⟨iSent, hs1, hs2⟩ := hsent rfl
  obtain ⟨iSet, iSync, iDel, k1, k2, k3, k4, k5, k6⟩ := hsucc rfl rfl 7 rfl rfl
  exact ⟨d, iSent, iPush, iSet, iSync, iDel, h0, hs1, k1, k2, k3, hs2, h1, k4, k5, k6⟩

/-! ## The timer at every exhaustion -/

/-- C10, amended: at every exhaustion of the feed, in whatever state of the
worker, the timer is reset to 0 or to 500 ms and never to `retryInterval`; when
the state is reached by a run from a fresh service in whose current
subscription cycle at least one chunk was processed, and that chunk was not the
only one received since the worker started, the timer is reset to 0 (the batch
is finalised immediately); and among all steps of the loop only the timer-fire
step calls `timer.Reset(retryInterval)`. -/
theorem exhaustion_after_chunks (w w1 : Worker)
    (hclosed : chunksWorkerStep w .feedClosed = some w1) :
    (∃ dur : Duration, w1.timer = some dur ∧
      w1.svc.trace = w.svc.trace ++ [.timerReset dur] ∧
      dur ≠ retryInterval ∧ (dur = 0 ∨ dur = 500 * Millisecond)) ∧
    (∀ (tags : Tags) (es : List Event), chunksWorker (New tags) es = some w →
      1 ≤ chunksInCycle es → chunksReceived es ≠ 1 →
      w1.timer = some 0 ∧ w1.svc.trace = w.svc.trace ++ [.timerReset 0]) ∧
    (∀ (v v1 : Worker) (e : Event), chunksWorkerStep v e = some v1 →
      ∃ d : List Effect, v1.svc.trace = v.svc.trace ++ d ∧
        (Effect.timerReset retryInterval ∈ d ↔ e = Event.timerC)) := by
  have hshape : w1.timer = some (if w.chunksInBatch = 0 then 500 * Millisecond else 0) ∧
      w1.svc.trace = w.svc.trace ++
        [.timerReset (if w.chunksInBatch = 0 then 500 * Millisecond else 0)] := by
    simp only [chunksWorkerStep] at hclosed
    split at hclosed
    · contradiction
    · split at hclosed <;> simp only [Option.some.injEq, reduceCtorEq] at hclosed
      subst hclosed
      exact ⟨rfl, rfl⟩
  refine ⟨?_, ?_, ?_⟩
  · refine ⟨_, hshape.1, hshape.2, ?_, ?_⟩
    · by_cases h0 : w.chunksInBatch = 0 <;> simp [h0, retryInterval, Second, Millisecond]
    · by_cases h0 : w.chunksInBatch = 0 <;> simp [h0]
  · intro tags es hrun hcycle hmore
    have hb := chunksWorker_chunksInBatch es (New tags) w hrun
    have hle := cycleCount_le es 0
    have hone : 1 ≤ chunksReceived es := by
      simp only [chunksInCycle] at hcycle
      omega
    have hne : w.chunksInBatch ≠ 0 := by
      simp only [New] at hb
      omega
    simpa [hne] using hshape
  · intro v v1 e hstep
    cases hs : v.stopped with
    | true => cases e <;> simp [chunksWorkerStep, hs] at hstep
    | false =>
      cases e with
      | chunk ch p r =>
        cases hc : v.chunks with
        | none => simp [chunksWorkerStep, hs, hc] at hstep
        | some sub =>
          rw [step_chunk v sub ch p r hs hc] at hstep
          simp only [Option.some.injEq] at hstep
          subst hstep
          obtain ⟨d, hd, hno⟩ := handleChunk_noControl v.svc ch p r
          refine ⟨d, hd, ?_⟩
          constructor
          · intro hmem
            have := hno _ hmem
            simp [Effect.isControl] at this
          · intro h
            cases h
      | feedClosed =>
        cases hc : v.chunks with
        | none => simp [chunksWorkerStep, hs, hc] at hstep
        | some sub =>
          simp only [chunksWorkerStep, hs, hc, Bool.false_eq_true, if_false,
            Option.some.injEq] at hstep
          subst hstep
          refine ⟨_, rfl, ?_⟩
          constructor
          · intro hmem
            by_cases h0 : v.chunksInBatch = 0 <;>
              simp [h0, retryInterval, Second, Millisecond] at hmem
          · intro h
            cases h
      | timerC =>
        cases ht : v.timer with
        | none => simp [chunksWorkerStep, hs, ht] at hstep
        | some t =>
          simp only [chunksWorkerStep, hs, ht, Bool.false_eq_true, if_false,
            Option.some.injEq] at hstep
          subst hstep
          refine ⟨unsubscribeEffects v ++ [.subscribePush v.subscriptions,
            .timerReset retryInterval, .metric .MarkAndSweepTimer], ?_, ?_⟩
          · cases hu : v.unsubscribe <;>
              simp [callUnsubscribe, unsubscribeEffects, Service.emit, hu]
          · simp
      | quit =>
        simp only [chunksWorkerStep, hs, Bool.false_eq_true, if_false,
          Option.some.injEq] at hstep
        subst hstep
        refine ⟨unsubscribeEffects v ++ [.closeQuitC, .timerStop], ?_, ?_⟩
        · cases hu : v.unsubscribe <;>
            simp [callUnsubscribe, unsubscribeEffects, Service.emit, hu]
        · constructor
          · intro hmem
            cases hu : v.unsubscribe <;> simp [unsubscribeEffects, hu] at hmem
          · intro h
            cases h

/-- The scenario: two chunks in the first cycle, then the feed is exhausted;
the timer is reset to 0, and the reset to `retryInterval` of the run is the one
of the timer fire. -/
theorem exhaustion_after_chunks_witness :
    ∃ w w1, chunksWorker (New tags7)
        [.timerC, .chunk chunkAA none none, .chunk chunkAA none none] = some w ∧
      chunksWorkerStep w .feedClosed = some w1 ∧
      w1.timer = some 0 ∧ w1.timer ≠ some retryInterval ∧
      w1.svc.trace = w.svc.trace ++ [.timerReset 0] := by
  have key : ∀ w w1 : Worker,
      chunksWorker (New tags7)
        [.timerC, .chunk chunkAA none none, .chunk chunkAA none none] = some w →
      chunksWorkerStep w .feedClosed = some w1 →
      w1.timer = some 0 ∧ w1.timer ≠ some retryInterval ∧
      w1.svc.trace = w.svc.trace ++ [.timerReset 0] := by
    intro w w1 h1 h2
    obtain ⟨_, hzero, _⟩ := exhaustion_after_chunks w w1 h2
    obtain ⟨ht, htr⟩ := hzero tags7 _ h1 (by decide) (by decide)
    refine ⟨ht, ?_, htr⟩
    rw [ht]
    decide
  exact ⟨_, _, rfl, rfl, key _ _ rfl rfl⟩

/-! ## The budget under arbitrary lookup outcomes -/

theorem budget_congr (F : Finset Address) (s t : Service) (h : LedgerBudget F s)
    (htag : t.tag = s.tag) (hpushed : t.pushed = s.pushed) : LedgerBudget F t := by
  unfold LedgerBudget
  rw [htag, hpushed]
  exact h

theorem setChunkAsSyncedOutcome_none (s : Service) (r : Option GoError) (a0 : Address) :
    setChunkAsSyncedOutcome s r none a0 = setChunkAsSynced s r a0 := rfl

theorem handleChunkOutcome_none (s : Service) (ch : Chunk) (p r : Option GoError) :
    handleChunkOutcome s ch none p r none = handleChunk s ch p r := rfl

theorem setChunkAsSyncedOutcome_budget (F : Finset Address) (s : Service)
    (r g : Option GoError) (a0 : Address) (h : LedgerBudget F s) :
    LedgerBudget F (setChunkAsSyncedOutcome s r g a0) := by
  rcases g with _ | err
  · rw [setChunkAsSyncedOutcome_none]
    exact setChunkAsSynced_budget F s r a0 h
  · rcases r with _ | e
    · rcases hp : s.pushed a0 with _ | u1
      · have : setChunkAsSyncedOutcome s none (some err) a0 =
            ((s.emit (.storerSet a0)).emit (.metric .TotalChunksSynced)).emit
              (.logDebugf .getUidFromPusher) := by
          simp [setChunkAsSyncedOutcome, Service.emit, getUidFromPushed, hp]
        rw [this]
        exact h
      · cases he : errorsIs err tagsErrNotFound
        · have : setChunkAsSyncedOutcome s none (some err) a0 =
              ((s.emit (.storerSet a0)).emit (.metric .TotalChunksSynced)).emit
                (.logDebugf .getTag) := by
            simp [setChunkAsSyncedOutcome, Service.emit, getUidFromPushed, Tags.GetOutcome,
              hp, he]
          rw [this]
          exact h
        · have : setChunkAsSyncedOutcome s none (some err) a0 =
              (s.emit (.storerSet a0)).emit (.metric .TotalChunksSynced) := by
            simp [setChunkAsSyncedOutcome, Service.emit, getUidFromPushed, Tags.GetOutcome,
              hp, he]
          rw [this]
          exact h
    · exact h

theorem handleChunkOutcome_budget (F : Finset Address) (s : Service) (ch : Chunk)
    (g1 p r g2 : Option GoError) (h : LedgerBudget F s) :
    LedgerBudget (insert ch.address F) (handleChunkOutcome s ch g1 p r g2) := by
  have hdisp : ∃ s1 : Service, LedgerBudget (insert ch.address F) s1 ∧
      handleChunkOutcome s ch g1 p r g2 =
        match p with
        | some err =>
          if !errorsIs err topologyErrNotFound then
            (s1.emit (.pushChunkToClosest ch.address)).emit (.logErrorf .sendingChunk)
          else s1.emit (.pushChunkToClosest ch.address)
        | none =>
          setChunkAsSyncedOutcome (s1.emit (.pushChunkToClosest ch.address)) r g2 ch.address := by
    have hfail : ∀ g : Option GoError,
        (g ≠ none ∨ s.tag ch.tagID = none) →
        ∃ e, Tags.GetOutcome s.tag g ch.tagID = .error e := by
      intro g hg
      rcases g with _ | e
      · rcases hg with hg | hg
        · exact absurd rfl hg
        · exact ⟨tagsErrNotFound, by simp [Tags.GetOutcome, Tags.Get, hg]⟩
      · exact ⟨e, rfl⟩
    by_cases hg : g1 ≠ none ∨ s.tag ch.tagID = none
    · obtain ⟨e, he⟩ := hfail g1 hg
      refine ⟨(s.emit (.metric .TotalChunksToBeSentCounter)).emit (.logDebugf .getTagByUid),
        budget_mono F _ s h (Finset.subset_insert _ _), ?_⟩
      rcases p with _ | err <;> simp [handleChunkOutcome, Service.emit, he]
    · have hg1 : g1 = none := by
        by_contra hne
        exact hg (Or.inl hne)
      obtain ⟨c0, ht⟩ : ∃ c0, s.tag ch.tagID = some c0 := by
        rcases Option.eq_none_or_eq_some (s.tag ch.tagID) with hn | hs
        · exact absurd (Or.inr hn) hg
        · exact hs
      subst hg1
      refine ⟨addUidToPushed (Tag.Inc ⟨ch.tagID⟩ .StateSent
          (s.emit (.metric .TotalChunksToBeSentCounter))) ch.address ch.tagID,
        budget_dispatch F _ ch.address ch.tagID c0 h ht, ?_⟩
      rcases p with _ | err <;>
        simp [handleChunkOutcome, Service.emit, Tags.GetOutcome, Tags.Get, ht]
  obtain ⟨s1, h1, heq⟩ := hdisp
  rw [heq]
  rcases p with _ | err
  · exact setChunkAsSyncedOutcome_budget _ _ r g2 ch.address h1
  · cases he : errorsIs err topologyErrNotFound
    · simp only [he, Bool.not_false, if_true]
      exact h1
    · simp only [he, Bool.not_true, Bool.false_eq_true, if_false]
      exact h1

theorem destroy_budget (F : Finset Address) (s : Service) (uid : Nat)
    (h : LedgerBudget F s) : LedgerBudget F { s with tag := s.tag.destroy uid } := by
  refine ⟨h.1, fun u c hc => ?_⟩
  simp only [Tags.destroy] at hc
  split at hc
  · cases hc
  · exact h.2 u c hc

theorem coreRun_budget (evs : List CoreEvent) (F : Finset Address) (s : Service)
    (h : LedgerBudget F s) : ∃ G, LedgerBudget G (coreRun s evs) := by
  induction evs generalizing s F with
  | nil => exact ⟨F, h⟩
  | cons e evs ih =>
    cases e with
    | process ch g1 p r g2 => exact ih _ _ (handleChunkOutcome_budget F s ch g1 p r g2 h)
    | destroy uid => exact ih _ _ (destroy_budget F s uid h)

/-- C17: starting from an empty ledger and sessions whose Synced is at most
their Sent (in particular equal counters, such as both zero), after every finite
sequence of chunk-processing steps, whatever the chunks and whatever the
outcome of each tracker lookup (at dispatch and at completion), of each delivery
and of each store write, and with sessions destroyed by their owner in between,
every session has Synced at most Sent; the processing step with no lookup
failure of its own is `handleChunk`, and the same holds after every run of the
worker from a fresh service. -/
theorem synced_le_sent (s0 : Service) (evs : List CoreEvent)
    (hledger : ∀ a, s0.pushed a = none)
    (hinit : ∀ u c, s0.tag u = some c → c.Synced ≤ c.Sent) :
    (∀ u c, (coreRun s0 evs).tag u = some c → c.Synced ≤ c.Sent) ∧
    (∀ (s : Service) (ch : Chunk) (p r : Option GoError),
      coreStep s (.process ch none p r none) = handleChunk s ch p r) ∧
    (∀ (es : List Event) (w : Worker), chunksWorker (New s0.tag) es = some w →
      ∀ u c, w.svc.tag u = some c → c.Synced ≤ c.Sent) := by
  have h0 : LedgerBudget ∅ s0 := by
    refine ⟨fun a ha => absurd (hledger a) ha, fun u c hc => ?_⟩
    have := hinit u c hc
    simpa using this
  refine ⟨?_, fun s ch p r => rfl, ?_⟩
  · obtain ⟨G, hG⟩ := coreRun_budget evs ∅ s0 h0
    intro u c hc
    have := hG.2 u c hc
    omega
  · intro es w hrun
    have h1 : LedgerBudget ∅ (New s0.tag).svc :=
      budget_congr ∅ s0 _ h0 rfl (by funext a; simp [New, hledger a])
    obtain ⟨G, hG⟩ := chunksWorker_budget es ∅ (New s0.tag) w hrun h1
    intro u c hc
    have := hG.2 u c hc
    omega

/-- The scenario: session 7 starts at zero; chunk `0xAA` is delivered while the
lookup at completion fails with a tracker error (its entry stays), is delivered
again while the lookup at dispatch fails (the entry left behind is resolved),
and once more with no failure; the counters end at Sent 2, Synced 2. -/
theorem synced_le_sent_witness :
    (coreRun (New tags7).svc
      [.process chunkAA none none none (some (.sentinel 9)),
       .process chunkAA (some tagsErrNotFound) none none none,
       .process chunkAA none none none none]).tag 7 = some { Sent := 2, Synced := 2 } ∧
    ∀ u c, (coreRun (New tags7).svc
      [.process chunkAA none none none (some (.sentinel 9)),
       .process chunkAA (some tagsErrNotFound) none none none,
       .process chunkAA none none none none]).tag u = some c → c.Synced ≤ c.Sent :=
  ⟨by decide, (synced_le_sent (New tags7).svc
    [.process chunkAA none none none (some (.sentinel 9)),
     .process chunkAA (some tagsErrNotFound) none none none,
     .process chunkAA none none none none]
    (fun _ => rfl)
    (by intro u c h; simp only [New, tags7] at h; split at h <;> simp at h; subst h; simp)).1⟩

/-! ## Lemmas about the wire format and the decoder -/

theorem drop_cons_inv (l : List Nat) (i b : Nat) (bs : List Nat) (h : l.drop i = b :: bs) :
    i < l.length ∧ readByte l i = .ok b ∧ l.drop (i + 1) = bs := by
  have hi : i < l.length := by
    by_contra hge
    rw [List.drop_eq_nil_of_le (by omega)] at h
    cases h
  rw [List.drop_eq_getElem_cons hi] at h
  injection h with h1 h2
  refine ⟨hi, ?_, h2⟩
  simp only [readByte, List.getElem?_eq_getElem hi, h1]

theorem decodeVarint_wire (dAtA : List Nat) (k : Nat) :
    ∀ (fuelD j i acc v n : Nat), wireVarintFrom k (dAtA.drop i) = some (v, n) →
      k ≤ fuelD → j + k ≤ 10 → acc < 2 ^ (7 * j) → acc + v * 2 ^ (7 * j) < 2 ^ 64 →
      decodeVarint dAtA fuelD (7 * j) i acc = .ok (acc + v * 2 ^ (7 * j), i + n) ∧
        1 ≤ n ∧ i + n ≤ dAtA.length := by
  induction k with
  | zero =>
    intro fuelD j i acc v n h
    simp [wireVarintFrom] at h
  | succ k ih =>
    intro fuelD j i acc v n h hfuel hj hacc hsum
    cases hdrop : dAtA.drop i with
    | nil =>
      rw [hdrop] at h
      simp [wireVarintFrom] at h
    | cons b bs =>
      rw [hdrop] at h
      obtain ⟨hi, hr, hnext⟩ := drop_cons_inv dAtA i b bs hdrop
      obtain ⟨fd, rfl⟩ : ∃ fd, fuelD = fd + 1 := ⟨fuelD - 1, by omega⟩
      have hshift : ¬ 7 * j ≥ 64 := by omega
      have hlen : ¬ i ≥ dAtA.length := by omega
      rw [wireVarintFrom] at h
      by_cases hb : b < 128
      · simp only [hb, if_true, Option.some.injEq, Prod.mk.injEq] at h
        obtain ⟨rfl, rfl⟩ := h
        have hb7 : b &&& 0x7F = b := by rw [and_7f]; omega
        have hw : acc ||| (b <<< (7 * j)) % 2 ^ 64 = acc + b * 2 ^ (7 * j) := by
          have : b <<< (7 * j) < 2 ^ 64 := by rw [Nat.shiftLeft_eq]; omega
          rw [Nat.mod_eq_of_lt this, or_shift_eq_add acc b (7 * j) hacc]
        have hb80 : b < 0x80 := hb
        rw [decodeVarint]
        simp only [hshift, hlen, if_false, hr, hb7, hw, hb80, if_true]
        exact ⟨trivial, le_refl _, by omega⟩
      · simp only [hb, if_false] at h
        cases hrec : wireVarintFrom k bs with
        | none => simp [hrec] at h
        | some r =>
          obtain ⟨v1, n1⟩ := r
          simp only [hrec, Option.some.injEq, Prod.mk.injEq] at h
          obtain ⟨rfl, rfl⟩ := h
          have hb7 : b &&& 0x7F = b % 128 := and_7f b
          have hpow : 2 ^ (7 * (j + 1)) = 128 * 2 ^ (7 * j) := by
            rw [Nat.mul_add, pow_add]
            norm_num
            ring
          have hsplit : (b % 128 + 128 * v1) * 2 ^ (7 * j)
              = (b % 128) * 2 ^ (7 * j) + v1 * 2 ^ (7 * (j + 1)) := by
            rw [hpow]
            ring
          have hP : 0 < 2 ^ (7 * j) := Nat.two_pow_pos _
          have hw : acc ||| ((b % 128) <<< (7 * j)) % 2 ^ 64
              = acc + (b % 128) * 2 ^ (7 * j) := by
            have : (b % 128) <<< (7 * j) < 2 ^ 64 := by
              rw [Nat.shiftLeft_eq]
              have := Nat.zero_le (v1 * 2 ^ (7 * (j + 1)))
              omega
            rw [Nat.mod_eq_of_lt this, or_shift_eq_add acc (b % 128) (7 * j) hacc]
          have hacc1 : acc + (b % 128) * 2 ^ (7 * j) < 2 ^ (7 * (j + 1)) := by
            rw [hpow]
            have hm : b % 128 ≤ 127 := by omega
            have := Nat.mul_le_mul_right (2 ^ (7 * j)) hm
            omega
          have hrec2 := ih fd (j + 1) (i + 1) (acc + (b % 128) * 2 ^ (7 * j)) v1 n1
            (by rw [hnext]; exact hrec) (by omega) (by omega) hacc1 (by omega)
          have hb80 : ¬ b < 0x80 := hb
          have h7 : 7 * j + 7 = 7 * (j + 1) := by ring
          rw [decodeVarint]
          simp only [hshift, hlen, if_false, hr, hb7, hw, hb80, h7]
          refine ⟨?_, by omega, by omega⟩
          rw [hrec2.1, hsplit]
          simp only [Except.ok.injEq, Prod.mk.injEq]
          constructor <;> omega

theorem skipVarint_wire (dAtA : List Nat) (k : Nat) :
    ∀ (fuelS j i v n : Nat), wireVarintFrom k (dAtA.drop i) = some (v, n) →
      k ≤ fuelS → j + k ≤ 10 →
      skipVarint dAtA fuelS (7 * j) i = .ok (i + n) := by
  induction k with
  | zero =>
    intro fuelS j i v n h
    simp [wireVarintFrom] at h
  | succ k ih =>
    intro fuelS j i v n h hfuel hj
    cases hdrop : dAtA.drop i with
    | nil =>
      rw [hdrop] at h
      simp [wireVarintFrom] at h
    | cons b bs =>
      rw [hdrop] at h
      obtain ⟨hi, hr, hnext⟩ := drop_cons_inv dAtA i b bs hdrop
      obtain ⟨fd, rfl⟩ : ∃ fd, fuelS = fd + 1 := ⟨fuelS - 1, by omega⟩
      have hshift : ¬ 7 * j ≥ 64 := by omega
      have hlen : ¬ i ≥ dAtA.length := by omega
      rw [wireVarintFrom] at h
      rw [skipVarint]
      simp only [hshift, hlen, if_false, Nat.add_sub_cancel, hr]
      by_cases hb : b < 128
      · simp only [hb, if_true, Option.some.injEq, Prod.mk.injEq] at h
        obtain ⟨_, rfl⟩ := h
        have hb80 : b < 0x80 := hb
        simp only [hb80, if_true]
      · simp only [hb, if_false] at h
        cases hrec : wireVarintFrom k bs with
        | none => simp [hrec] at h
        | some r =>
          obtain ⟨v1, n1⟩ := r
          simp only [hrec, Option.some.injEq, Prod.mk.injEq] at h
          obtain ⟨_, rfl⟩ := h
          have hb80 : ¬ b < 0x80 := hb
          have h7 : 7 * j + 7 = 7 * (j + 1) := by ring
          simp only [hb80, if_false, h7]
          rw [ih fd (j + 1) (i + 1) v1 n1 (by rw [hnext]; exact hrec) (by omega) (by omega)]
          simp only [Except.ok.injEq]
          omega

theorem wireVarint_some (bs : List Nat) (v n : Nat) (h : wireVarint bs = some (v, n)) :
    wireVarintFrom 10 bs = some (v, n) ∧ v < 2 ^ 64 := by
  unfold wireVarint at h
  cases hraw : wireVarintFrom 10 bs with
  | none => simp [hraw] at h
  | some r =>
    obtain ⟨v1, n1⟩ := r
    simp only [hraw] at h
    by_cases hv : v1 < 2 ^ 64
    · simp only [hv, if_true, Option.some.injEq, Prod.mk.injEq] at h
      obtain ⟨rfl, rfl⟩ := h
      exact ⟨rfl, hv⟩
    · simp only [hv, if_false, reduceCtorEq] at h

theorem decodeVarint_wireVarint (dAtA : List Nat) (i v n : Nat)
    (h : wireVarint (dAtA.drop i) = some (v, n)) :
    decodeVarint dAtA 11 0 i 0 = .ok (v, i + n) ∧ 1 ≤ n ∧ i + n ≤ dAtA.length ∧
      v < 2 ^ 64 := by
  obtain ⟨hraw, hv⟩ := wireVarint_some _ v n h
  have := decodeVarint_wire dAtA 10 11 0 i 0 v n hraw (by norm_num) (by norm_num)
    (by norm_num) (by simpa using hv)
  simp only [Nat.mul_zero, pow_zero, Nat.mul_one, Nat.zero_add] at this
  exact ⟨this.1, this.2.1, this.2.2, hv⟩

theorem skipVarint_wireVarint (dAtA : List Nat) (i v n : Nat)
    (h : wireVarint (dAtA.drop i) = some (v, n)) :
    skipVarint dAtA 11 0 i = .ok (i + n) := by
  obtain ⟨hraw, _⟩ := wireVarint_some _ v n h
  have := skipVarint_wire dAtA 10 11 0 i v n hraw (by norm_num) (by norm_num)
  simpa using this

theorem skipField_wireValue (dAtA : List Nat) (hl : dAtA.length < 2 ^ 63)
    (wt i depth k : Nat) (hi : i ≤ dAtA.length)
    (h : wireValue wt (dAtA.drop i) = some k) (h4 : wt = 4 → depth ≠ 0) :
    skipField dAtA wt i depth
        = .ok (i + k, if wt = 3 then depth + 1 else if wt = 4 then depth - 1 else depth) ∧
      i + k ≤ dAtA.length := by
  have hdl : (dAtA.drop i).length = dAtA.length - i := List.length_drop i dAtA
  rcases wt with _ | _ | _ | _ | _ | _ | wt
  · simp only [wireValue] at h
    cases hv : wireVarint (dAtA.drop i) with
    | none => simp [hv] at h
    | some r =>
      obtain ⟨v, n⟩ := r
      simp only [hv, Option.some.injEq] at h
      subst h
      have h1 := skipVarint_wireVarint dAtA i v n hv
      have h2 := decodeVarint_wireVarint dAtA i v n hv
      simp only [skipField, h1]
      exact ⟨by simp, h2.2.2.1⟩
  · simp only [wireValue, Nat.zero_add, hdl] at h
    by_cases h8 : 8 ≤ dAtA.length - i
    · simp only [h8, if_true, Option.some.injEq] at h
      subst h
      have hmod : (i + 8) % 2 ^ 64 = i + 8 := Nat.mod_eq_of_lt (by omega)
      simp only [skipField, Nat.zero_add, hmod]
      exact ⟨by simp, by omega⟩
    · simp only [h8, if_false, reduceCtorEq] at h
  · simp only [wireValue, Nat.zero_add, Nat.reduceAdd] at h
    cases hv : wireVarint (dAtA.drop i) with
    | none => simp [hv] at h
    | some r =>
      obtain ⟨len, n⟩ := r
      simp only [hv, hdl] at h
      by_cases hfit : n + len ≤ dAtA.length - i
      · simp only [hfit, if_true, Option.some.injEq] at h
        subst h
        have h2 := decodeVarint_wireVarint dAtA i len n hv
        have hneg : ¬ len ≥ 2 ^ 63 := by omega
        have hmod : (i + n + len) % 2 ^ 64 = i + n + len := Nat.mod_eq_of_lt (by omega)
        simp only [skipField, Nat.zero_add, Nat.reduceAdd, h2.1, hneg, if_false, hmod]
        exact ⟨by simp [Nat.add_assoc], by omega⟩
      · simp only [hfit, if_false, reduceCtorEq] at h
  · simp only [wireValue, Nat.zero_add, Nat.reduceAdd, Option.some.injEq] at h
    subst h
    simp only [skipField, Nat.zero_add, Nat.reduceAdd]
    exact ⟨by simp, hi⟩
  · simp only [wireValue, Nat.zero_add, Nat.reduceAdd, Option.some.injEq] at h
    subst h
    have hd : depth ≠ 0 := h4 rfl
    simp only [skipField, Nat.zero_add, Nat.reduceAdd, hd, if_false]
    exact ⟨by simp, hi⟩
  · simp only [wireValue, Nat.zero_add, Nat.reduceAdd, hdl] at h
    by_cases h5 : 4 ≤ dAtA.length - i
    · simp only [h5, if_true, Option.some.injEq] at h
      subst h
      have hmod : (i + 4) % 2 ^ 64 = i + 4 := Nat.mod_eq_of_lt (by omega)
      simp only [skipField, Nat.zero_add, Nat.reduceAdd, hmod]
      exact ⟨by simp, by omega⟩
    · simp only [h5, if_false, reduceCtorEq] at h
  · simp [wireValue] at h

theorem skipLoop_wireExtent (dAtA : List Nat) (hl : dAtA.length < 2 ^ 63) (fuel : Nat) :
    ∀ (fuelS i depth k : Nat), fuel ≤ fuelS → i ≤ dAtA.length →
      wireExtent fuel depth (dAtA.drop i) = some k →
      skipLoop dAtA fuelS i depth = .ok (i + k) ∧ i + k ≤ dAtA.length := by
  induction fuel with
  | zero =>
    intro fuelS i depth k _ _ h
    simp [wireExtent] at h
  | succ fuel ih =>
    intro fuelS i depth k hfuel hi h
    obtain ⟨fs, rfl⟩ : ∃ fs, fuelS = fs + 1 := ⟨fuelS - 1, by omega⟩
    rw [wireExtent] at h
    cases hv : wireVarint (dAtA.drop i) with
    | none => simp [hv] at h
    | some r =>
      obtain ⟨tag, n⟩ := r
      simp only [hv] at h
      obtain ⟨hdec, hn1, hn2, _⟩ := decodeVarint_wireVarint dAtA i tag n hv
      have hdd : ∀ x, (dAtA.drop i).drop x = dAtA.drop (i + x) := by
        intro x
        rw [List.drop_drop]
      rw [hdd] at h
      cases hval : wireValue (tag % 8) (dAtA.drop (i + n)) with
      | none => simp [hval] at h
      | some k0 =>
        simp only [hval, hdd] at h
        have h4 : tag % 8 = 4 → depth ≠ 0 := by
          intro ht4 hd0
          simp [ht4, hd0] at h
        obtain ⟨hsf, hfit⟩ :=
          skipField_wireValue dAtA hl (tag % 8) (i + n) depth k0 hn2 hval h4
        have hilt : i < dAtA.length := by omega
        have hneg : ¬ i + n + k0 ≥ 2 ^ 63 := by omega
        rw [skipLoop]
        simp only [hilt, if_true, hdec, and_7, hsf, hneg, if_false]
        have hmap : ∀ (d1 : Nat),
            (wireExtent fuel d1 (dAtA.drop (i + (n + k0)))).map (fun r => n + k0 + r) = some k →
            skipLoop dAtA fs (i + n + k0) d1 = .ok (i + k) ∧ i + k ≤ dAtA.length := by
          intro d1 hm
          cases hrec : wireExtent fuel d1 (dAtA.drop (i + (n + k0))) with
          | none => simp [hrec] at hm
          | some r =>
            simp only [hrec, Option.map_some', Option.some.injEq] at hm
            subst hm
            have := ih fs (i + (n + k0)) d1 r (by omega) (by omega) hrec
            have e1 : i + (n + k0) = i + n + k0 := by omega
            have e2 : i + (n + k0) + r = i + (n + k0 + r) := by omega
            rw [e1] at this
            rw [← e2, e1]
            exact this
        by_cases ht3 : tag % 8 = 3
        · simp only [ht3, if_true] at h ⊢
          have hd : ¬ depth + 1 = 0 := by omega
          simp only [hd, if_false]
          exact hmap (depth + 1) h
        · by_cases ht4 : tag % 8 = 4
          · have hd0 : depth ≠ 0 := h4 ht4
            simp only [ht4, if_true, hd0, if_false, Nat.reduceEqDiff] at h ⊢
            by_cases hd1 : depth = 1
            · simp only [hd1, if_true, Option.some.injEq] at h
              subst h
              simp only [hd1, Nat.sub_self, if_true]
              exact ⟨by simp [Nat.add_assoc], by omega⟩
            · simp only [hd1, if_false] at h
              have hd : ¬ depth - 1 = 0 := by omega
              simp only [hd, if_false]
              exact hmap (depth - 1) h
          · simp only [ht3, ht4, if_false] at h ⊢
            by_cases hd0 : depth = 0
            · simp only [hd0, if_true, Option.some.injEq] at h
              subst h
              simp only [hd0, if_true]
              exact ⟨by simp [Nat.add_assoc], by omega⟩
            · simp only [hd0, if_false] at h ⊢
              exact hmap depth h

theorem wireExtent_lengthDelimited (fuel : Nat) (bs : List Nat) (tag n k : Nat)
    (htag : wireVarint bs = some (tag, n)) (hwt : tag % 8 = 2)
    (hext : wireExtent fuel 0 bs = some k) :
    ∃ len n2, wireVarint (bs.drop n) = some (len, n2) ∧
      n2 + len ≤ (bs.drop n).length ∧ k = n + (n2 + len) := by
  cases fuel with
  | zero => simp [wireExtent] at hext
  | succ fuel =>
    rw [wireExtent] at hext
    simp only [htag, hwt, wireValue] at hext
    cases hv : wireVarint (bs.drop n) with
    | none => simp [hv] at hext
    | some r =>
      obtain ⟨len, n2⟩ := r
      simp only [hv] at hext
      by_cases hfit : n2 + len ≤ (bs.drop n).length
      · simp only [hfit, if_true, Nat.reduceEqDiff, if_false, Option.some.injEq] at hext
        exact ⟨len, n2, rfl, hfit, hext.symm⟩
      · simp only [hfit, if_false, reduceCtorEq] at hext

theorem unmarshalField_wire (dAtA : List Nat) (hl : dAtA.length < 2 ^ 63)
    (m m1 : Delivery) (i i1 fn tag n k fuel : Nat)
    (hfuel : fuel ≤ dAtA.length - i + 1)
    (htag : wireVarint (dAtA.drop i) = some (tag, n))
    (hext : wireExtent fuel 0 (dAtA.drop i) = some k)
    (hrun : unmarshalField dAtA m i = .ok (m1, i1, fn)) :
    i1 = i + k ∧ fn = (tag / 8) % 2 ^ 32 := by
  obtain ⟨hdec, hn1, hn2, hv⟩ := decodeVarint_wireVarint dAtA i tag n htag
  have hshr : tag >>> 3 = tag / 8 := by
    rw [Nat.shiftRight_eq_div_pow]
  unfold unmarshalField at hrun
  simp only [hdec, and_7, hshr] at hrun
  by_cases hw4 : tag % 8 = 4
  · simp only [hw4, if_true, reduceCtorEq] at hrun
  · simp only [hw4, if_false] at hrun
    by_cases hill : (tag / 8) % 2 ^ 32 = 0 ∨ (tag / 8) % 2 ^ 32 ≥ 2 ^ 31
    · simp only [hill, if_true, reduceCtorEq] at hrun
    · simp only [hill, if_false] at hrun
      by_cases hf1 : (tag / 8) % 2 ^ 32 = 1
      · simp only [hf1, if_true] at hrun
        by_cases hw2 : tag % 8 = 2
        swap
        · simp only [hw2, ne_eq, not_false_eq_true, if_true, reduceCtorEq] at hrun
        · simp only [hw2, ne_eq, not_true_eq_false, if_false] at hrun
          obtain ⟨len, n2, hlenv, hfit, hk⟩ :=
            wireExtent_lengthDelimited fuel (dAtA.drop i) tag n k htag hw2 hext
          rw [List.drop_drop] at hlenv hfit
          obtain ⟨hdec2, _, hfit2, _⟩ := decodeVarint_wireVarint dAtA (i + n) len n2 hlenv
          rw [List.length_drop] at hfit
          have hneg : ¬ len ≥ 2 ^ 63 := by omega
          have hmod : (i + n + n2 + len) % 2 ^ 64 = i + n + n2 + len :=
            Nat.mod_eq_of_lt (by omega)
          have hneg2 : ¬ i + n + n2 + len ≥ 2 ^ 63 := by omega
          have hgt : ¬ i + n + n2 + len > dAtA.length := by omega
          simp only [hdec2, hneg, if_false, hmod, hneg2, hgt] at hrun
          rw [slice_ok dAtA (i + n + n2) (i + n + n2 + len) (by omega) (by omega)] at hrun
          simp only [Except.ok.injEq, Prod.mk.injEq] at hrun
          obtain ⟨_, h1, h2⟩ := hrun
          exact ⟨by omega, h2.symm.trans hf1.symm⟩
      · simp only [hf1, if_false] at hrun
        rw [slice_ok dAtA i dAtA.length (by omega) (le_refl _)] at hrun
        simp only [List.take_length] at hrun
        have hrl : (dAtA.drop i).length = dAtA.length - i := List.length_drop i dAtA
        have hskip := skipLoop_wireExtent (dAtA.drop i) (by omega) fuel
          ((dAtA.drop i).length + 1) 0 0 k (by omega) (Nat.zero_le _)
          (by simpa using hext)
        simp only [Nat.zero_add] at hskip
        have hneg : ¬ k ≥ 2 ^ 63 := by omega
        have hmod : (i + k) % 2 ^ 64 = i + k := Nat.mod_eq_of_lt (by omega)
        have hneg2 : ¬ i + k ≥ 2 ^ 63 := by omega
        have hgt : ¬ i + k > dAtA.length := by omega
        simp only [skipPushsync, hskip.1, hneg, if_false, hmod, hneg2, hgt] at hrun
        rw [slice_ok dAtA i (i + k) (by omega) (by omega)] at hrun
        simp only [Except.ok.injEq, Prod.mk.injEq] at hrun
        obtain ⟨_, h1, h2⟩ := hrun
        exact ⟨h1.symm, h2.symm⟩

theorem unmarshalLoop_wireFields (dAtA : List Nat) (hl : dAtA.length < 2 ^ 63) (fuel : Nat) :
    ∀ (fuelW : Nat) (m m1 : Delivery) (i : Nat) (fs : List (Nat × List Nat)),
      i ≤ dAtA.length → unmarshalLoop dAtA fuel m i = .ok m1 →
      wireFieldsFrom fuelW (dAtA.drop i) = some fs →
      (∀ f ∈ fs, f.1 % 2 ^ 32 = 1 → f.1 = 1) →
      (fs.map Prod.snd).flatten = dAtA.drop i ∧
      m1.XXX_unrecognized = m.XXX_unrecognized ++
        ((fs.filter (fun f => decide (f.1 ≠ 1))).map Prod.snd).flatten ∧
      ((∀ f ∈ fs, f.1 ≠ 1) → m1.Data = m.Data) ∧
      m1.Data.length ≤ max m.Data.length dAtA.length := by
  induction fuel with
  | zero =>
    intro fuelW m m1 i fs _ hrun
    simp [unmarshalLoop] at hrun
  | succ fuel ih =>
    intro fuelW m m1 i fs hile hrun hfs hnum
    obtain ⟨fw, rfl⟩ : ∃ fw, fuelW = fw + 1 := by
      cases fuelW with
      | zero => simp [wireFieldsFrom] at hfs
      | succ fw => exact ⟨fw, rfl⟩
    rw [unmarshalLoop] at hrun
    rw [wireFieldsFrom] at hfs
    by_cases hi : i < dAtA.length
    · have hne : dAtA.drop i ≠ [] := by
        intro hnil
        have := congrArg List.length hnil
        rw [List.length_drop] at this
        simp only [List.length_nil] at this
        omega
      simp only [hi, if_true] at hrun
      simp only [hne, if_false, List.length_drop, List.drop_drop] at hfs
      cases htag : wireVarint (dAtA.drop i) with
      | none => simp [htag] at hfs
      | some r =>
        obtain ⟨tag, n⟩ := r
        simp only [htag] at hfs
        cases hext : wireExtent (dAtA.length - i) 0 (dAtA.drop i) with
        | none => simp [hext] at hfs
        | some k =>
          simp only [hext] at hfs
          cases hrest : wireFieldsFrom fw (dAtA.drop (i + k)) with
          | none => simp [hrest] at hfs
          | some fs1 =>
            simp only [hrest, Option.some.injEq] at hfs
            subst hfs
            rcases unmarshalField_spec dAtA m i hi hl with
              ⟨e, he⟩ | ⟨⟨m2, i2, fn⟩, hr, h1, h2, h3⟩
            · simp only [he] at hrun
              cases hrun
            · simp only [hr] at hrun
              simp only at h1 h2 h3
              obtain ⟨hi2, hfn⟩ := unmarshalField_wire dAtA hl m m2 i i2 fn tag n k
                (dAtA.length - i) (by omega) htag hext hr
              subst hi2
              have hnum1 : ∀ f ∈ fs1, f.1 % 2 ^ 32 = 1 → f.1 = 1 :=
                fun f hf => hnum f (List.mem_cons_of_mem _ hf)
              have hhead := hnum (tag / 8, (dAtA.drop i).take k) (List.mem_cons_self _ _)
              simp only at hhead
              obtain ⟨hjoin, hun, hdata, hlen⟩ := ih fw m2 m1 (i + k) fs1 h2 hrun hrest hnum1
              have hseg : (dAtA.drop i).take k = (dAtA.take (i + k)).drop i := by
                rw [List.drop_take]
                congr 1
                omega
              refine ⟨?_, ?_, ?_, ?_⟩
              · simp only [List.map_cons, List.flatten_cons, hjoin]
                rw [← List.drop_drop, List.take_append_drop]
              · rcases h3 with ⟨hf, hu2, _⟩ | ⟨hf, _, hu2⟩
                · have htag1 : tag / 8 = 1 := hhead (by rw [← hfn]; exact hf)
                  simp only [List.filter_cons, htag1, ne_eq, not_true_eq_false, decide_False,
                    Bool.false_eq_true, if_false]
                  rw [hun, hu2]
                · have htag1 : tag / 8 ≠ 1 := by
                    intro h1'
                    apply hf
                    rw [hfn, h1']
                    norm_num
                  simp only [List.filter_cons, htag1, ne_eq, not_false_eq_true, decide_True,
                    if_true, List.map_cons, List.flatten_cons]
                  rw [hun, hu2, List.append_assoc, hseg]
              · intro hall
                have hfn1 : tag / 8 ≠ 1 := hall (tag / 8, _) (List.mem_cons_self _ _)
                rcases h3 with ⟨hf, _, _⟩ | ⟨_, hd2, _⟩
                · exact absurd (hhead (by rw [← hfn]; exact hf)) hfn1
                · rw [hdata (fun f hf => hall f (List.mem_cons_of_mem _ hf)), hd2]
              · rcases h3 with ⟨_, _, hd2⟩ | ⟨_, hd2, _⟩
                · have := le_max_right m.Data.length dAtA.length
                  have := max_le hd2 (le_refl dAtA.length)
                  omega
                · rw [hd2] at hlen
                  exact hlen
    · have hgt : ¬ i > dAtA.length := by omega
      have hil : i = dAtA.length := by omega
      have hnil : dAtA.drop i = [] := by
        rw [hil]
        exact List.drop_length dAtA
      simp only [hi, hgt, if_false, Except.ok.injEq] at hrun
      simp only [hnil, if_true, Option.some.injEq] at hfs
      subst hrun
      subst hfs
      refine ⟨by simp [hnil], by simp, fun _ => rfl, le_max_left _ _⟩

/-! ## Unknown fields -/

/-- C16, refuted as stated: the input is one field of the wire format, of number
`2 ^ 32 + 1` (not 1) and wire type 2; `Unmarshal` accepts it, takes the field for
field 1 (it keeps the low 32 bits of the field number) and stores its payload as
the data; `Marshal` of the result is `[10, 2, 7, 8]`, not the input. -/
theorem unknown_field_aliased :
    wireFields [138, 128, 128, 128, 128, 1, 2, 7, 8]
      = some [(2 ^ 32 + 1, [138, 128, 128, 128, 128, 1, 2, 7, 8])] ∧
    (∀ f ∈ [(2 ^ 32 + 1, [138, 128, 128, 128, 128, 1, 2, 7, 8])], f.1 ≠ 1) ∧
    Delivery.Unmarshal { Data := [], XXX_unrecognized := [] }
      [138, 128, 128, 128, 128, 1, 2, 7, 8] = .ok { Data := [7, 8], XXX_unrecognized := [] } ∧
    Delivery.Marshal { Data := [7, 8], XXX_unrecognized := [] } = .ok [10, 2, 7, 8] ∧
    [10, 2, 7, 8] ≠ [138, 128, 128, 128, 128, 1, 2, 7, 8] :=
  ⟨rfl, by decide, rfl, rfl, by decide⟩

/-- C16, amended: for every input (a Go slice) that `Unmarshal` accepts into a
fresh message and that is a sequence of fields of the wire format in which no
field number other than 1 is congruent to 1 modulo `2 ^ 32`, the input is its
fields one after the other; the bytes of the fields whose number is not 1, in
their order, are the unrecognized bytes of the result and form the tail of
`Marshal` of the result after the encoding of field 1 (absent for empty data);
when no field has number 1, `Marshal` of the result is the input. -/
theorem unknown_fields_preserved (b : List Nat) (m : Delivery) (fs : List (Nat × List Nat))
    (hl : b.length < 2 ^ 63)
    (hdec : Delivery.Unmarshal { Data := [], XXX_unrecognized := [] } b = .ok m)
    (hfs : wireFields b = some fs)
    (hnum : ∀ f ∈ fs, f.1 % 2 ^ 32 = 1 → f.1 = 1) :
    (fs.map Prod.snd).flatten = b ∧
    m.XXX_unrecognized = ((fs.filter (fun f => decide (f.1 ≠ 1))).map Prod.snd).flatten ∧
    m.Marshal = .ok (encodeData m.Data ++ m.XXX_unrecognized) ∧
    ((∀ f ∈ fs, f.1 ≠ 1) → m.Marshal = .ok b) := by
  obtain ⟨hjoin, hun, hdata, hlen⟩ :=
    unmarshalLoop_wireFields b hl (b.length + 1) (b.length + 1)
      { Data := [], XXX_unrecognized := [] } m 0 fs (Nat.zero_le _) hdec
      (by simpa [wireFields] using hfs) hnum
  have hl64 : m.Data.length < 2 ^ 64 := by
    simp only [List.length_nil] at hlen
    have := max_le (Nat.zero_le b.length) (le_refl b.length)
    omega
  have hm := (marshal_eq m hl64).1
  simp only [List.nil_append, List.drop_zero] at hun hjoin
  refine ⟨hjoin, hun, hm, ?_⟩
  intro hall
  have hd := hdata hall
  simp only at hd
  have hfil : fs.filter (fun f => decide (f.1 ≠ 1)) = fs := by
    apply List.filter_eq_self.mpr
    intro f hf
    simpa using hall f hf
  rw [hm, hd, hun, hfil, hjoin]
  simp [encodeData]

/-- Two scenarios. In the first the input holds data, a varint field 2, data
again and a group field 3: the unrecognized bytes are the fields 2 and 3. In the
second it holds a varint field 2, a group field 3 with a fixed field inside, and
a field of number 536870914 (`2 ^ 29 + 2`), none numbered 1: `Marshal` gives the input back. -/
theorem unknown_fields_preserved_witness :
    ([16, 5, 0x1B, 0x10, 1, 0x1C]
        = (([(1, [0x0A, 3, 1, 2, 3]), (2, [16, 5]), (1, [0x0A, 1, 9]),
            (3, [0x1B, 0x10, 1, 0x1C])].filter
              (fun f : Nat × List Nat => decide (f.1 ≠ 1))).map Prod.snd).flatten ∧
      Delivery.Marshal { Data := [9], XXX_unrecognized := [16, 5, 0x1B, 0x10, 1, 0x1C] }
        = .ok (encodeData [9] ++ [16, 5, 0x1B, 0x10, 1, 0x1C])) ∧
    Delivery.Marshal
        { Data := []
          XXX_unrecognized :=
            [16, 5, 0x1B, 0x15, 1, 2, 3, 4, 0x1C, 0x92, 128, 128, 128, 0x10, 1, 7] }
      = .ok [16, 5, 0x1B, 0x15, 1, 2, 3, 4, 0x1C, 0x92, 128, 128, 128, 0x10, 1, 7] :=
  ⟨⟨(unknown_fields_preserved [0x0A, 3, 1, 2, 3, 16, 5, 0x0A, 1, 9, 0x1B, 0x10, 1, 0x1C]
      { Data := [9], XXX_unrecognized := [16, 5, 0x1B, 0x10, 1, 0x1C] }
      [(1, [0x0A, 3, 1, 2, 3]), (2, [16, 5]), (1, [0x0A, 1, 9]), (3, [0x1B, 0x10, 1, 0x1C])]
      (by decide) rfl rfl (by decide)).2.1,
    (unknown_fields_preserved [0x0A, 3, 1, 2, 3, 16, 5, 0x0A, 1, 9, 0x1B, 0x10, 1, 0x1C]
      { Data := [9], XXX_unrecognized := [16, 5, 0x1B, 0x10, 1, 0x1C] }
      [(1, [0x0A, 3, 1, 2, 3]), (2, [16, 5]), (1, [0x0A, 1, 9]), (3, [0x1B, 0x10, 1, 0x1C])]
      (by decide) rfl rfl (by decide)).2.2.1⟩,
    (unknown_fields_preserved
      [16, 5, 0x1B, 0x15, 1, 2, 3, 4, 0x1C, 0x92, 128, 128, 128, 0x10, 1, 7]
      { Data := []
        XXX_unrecognized :=
          [16, 5, 0x1B, 0x15, 1, 2, 3, 4, 0x1C, 0x92, 128, 128, 128, 0x10, 1, 7] }
      [(2, [16, 5]), (3, [0x1B, 0x15, 1, 2, 3, 4, 0x1C]),
        (536870914, [0x92, 128, 128, 128, 0x10, 1, 7])]
      (by decide) rfl rfl (by decide)).2.2.2 (by decide)⟩

end Pusher
